import Mathlib

/-!
The N-dimensional transpose operator of nnabla.

A shallow embedding of `src/nbla/function/generic/transpose.cpp`
(`Transpose<T>::setup_impl`, `forward_impl`, `backward_impl`) and proofs of
its contract.

Conventions of the embedding.

* `Shape_t` (a vector of `int64_t` extents) is a list of naturals; the
  configured `axes_` (a `vector<int>`) is a list of integers, and the
  comparison of an `int` with a `size_t` goes through `to_size_t`.
* Offsets (`Size_t`, 64 bits) are naturals. The slot counter `int i` of the
  copy loops is a natural below `2^31`: an `i++` that would leave the range
  of `int` is undefined behaviour and ends the run with `Fault.int_overflow`.
* A raw buffer read or write outside its buffer, and a failed `vector::at`,
  end the run with `Fault.out_of_range`.
* The `do { ... } while (ndi::increment(...))` loops take a fuel argument that
  bounds the number of iterations; running out ends with `Fault.out_of_fuel`.
* The tensors' buffers are passed explicitly: the pointer obtained from
  `get_data_pointer`, `cast_data_and_get_pointer`, ... is the list it points to.
-/

namespace nbla

/-- The type `Shape_t`: one extent per axis. -/
abbrev Shape_t := List Nat

namespace ndi

/-- Modelled from the spec: `ndi::make_index` of `nbla/utils/nd_index.hpp`,
which is not among the sources ("make a zero index of given rank"). -/
def make_index (ndim : Nat) (init : Nat) : List Nat :=
  List.replicate ndim init

/-- Modelled from the spec: `ndi::strides`, the canonical row-major strides of
a shape ("number of elements to skip in the flat buffer to advance one step
along a given axis, for a canonical row-major layout"). -/
def strides : Shape_t → List Nat
  | [] => []
  | _ :: rest => rest.prod :: strides rest

/-- Modelled from the spec: `ndi::nd2flat` ("flatten an index to a scalar
offset given a stride sequence"), the dot product of index and strides. -/
def nd2flat : List Nat → List Nat → Nat
  | i :: index, s :: stride => i * s + nd2flat index stride
  | _, _ => 0

/-- Modelled from the spec: `ndi::increment` ("increment an index in row-major
order against a bound shape, returning whether another valid index remains").
The last axis moves fastest; an axis that cannot advance is reset to 0 and
the carry goes to the axis before it. -/
def increment : List Nat → Shape_t → List Nat × Bool
  | i :: index, s :: shape =>
    match increment index shape with
    | (index', true) => (i :: index', true)
    | (index', false) =>
      if i + 1 < s then ((i + 1) :: index', true) else (0 :: index', false)
  | index, _ => (index, false)

end ndi

/-- Modelled from the spec: the part of `nbla::Variable` (`nbla/variable.hpp`,
not among the sources) that the operator reads: its shape. Rank, strides and
size derive from it. -/
structure Variable where
  shape : Shape_t
  deriving DecidableEq, Repr

/-- Modelled from the spec: `Variable::ndim`, the rank. -/
def Variable.ndim (v : Variable) : Nat := v.shape.length

/-- Modelled from the spec: `Variable::strides`, row-major and "strictly
consistent with its shape". -/
def Variable.strides (v : Variable) : List Nat := ndi.strides v.shape

/-- Modelled from the spec: `Variable::size`, the number of elements. -/
def Variable.size (v : Variable) : Nat := v.shape.prod

/-- Modelled from the spec: `Variable::reshape(shape, force)` with "allow
resize" semantics: the variable takes the new shape. -/
def Variable.reshape (_v : Variable) (shape : Shape_t) (_force : Bool) : Variable :=
  { shape := shape }

/-- The three `NBLA_CHECK`s of `setup_impl`, each with the arguments of its
message. All three carry `error_code::value`; the names are the spec's. -/
inductive SetupError where
  /-- "Length of axes must be same as inputs. Given %d != %d." -/
  | ShapeMismatch (ndim : Nat) (naxes : Nat)
  /-- "axes must be less than ndim of inputs[0]. axes[%d]: %d >= ndim of inputs[0]: %d." -/
  | InvalidAxis (i : Nat) (axis : Int) (ndim : Nat)
  /-- "Axes duplicated. axes[%d]: %d == axes[%d]: %d." -/
  | DuplicateAxis (i : Nat) (axis : Int) (i2 : Nat) (axis2 : Int)
  deriving DecidableEq, Repr

/-- How a run of `forward_impl` or `backward_impl` can go wrong. -/
inductive Fault where
  | out_of_range
  | out_of_fuel
  | int_overflow
  deriving DecidableEq, Repr

/-- Conversion of an `int` to the 64-bit `size_t`: a non-negative value is
kept, a negative value `a` becomes `2^64 + a` (the value modulo `2^64` on the
range of `int`). -/
def to_size_t (a : Int) : Nat :=
  if 0 ≤ a then a.toNat else (2 ^ 64 + a).toNat

/-- The operator instance: the configured `axes_` and the four cached
metadata arrays (`int64_t` each). -/
structure Transpose where
  axes_ : List Int
  v_axes_ : List Int
  v_x_strides_ : List Int
  v_y_strides_ : List Int
  v_y_shape_ : List Int
  deriving DecidableEq, Repr

/-- The inner loop of `setup_impl`, lines 38-42:
`for (i2 = 0; i2 < i; i2++) NBLA_CHECK(axes_[i] != axes_[i2], ...)`,
over the listed values of `i2`. -/
def check_duplicated (axes_ : List Int) (i : Nat) : List Nat → Except SetupError Unit
  | [] => .ok ()
  | i2 :: rest =>
    if axes_.getD i 0 ≠ axes_.getD i2 0 then check_duplicated axes_ i rest
    else .error (.DuplicateAxis i (axes_.getD i 0) i2 (axes_.getD i2 0))

/-- The outer loop of `setup_impl`, lines 33-44, over the listed values of
`i`: the bound check, the duplicate scan, then `shape[i] = x_shape[axes_[i]]`. -/
def setup_loop (axes_ : List Int) (x_shape : Shape_t) :
    List Nat → Shape_t → Except SetupError Shape_t
  | [], shape => .ok shape
  | i :: rest, shape =>
    if to_size_t (axes_.getD i 0) < x_shape.length then
      match check_duplicated axes_ i (List.range i) with
      | .error e => .error e
      | .ok () =>
        setup_loop axes_ x_shape rest
          (shape.set i (x_shape.getD (to_size_t (axes_.getD i 0)) 0))
    else .error (.InvalidAxis i (axes_.getD i 0) x_shape.length)

/-- The array behind `v.reshape(Shape_t{ndim}, true)`: `ndim` slots, the old
contents where they remain. -/
def resize (v : List Int) (ndim : Nat) : List Int :=
  v.take ndim ++ List.replicate (ndim - v.length) 0

/-- The metadata loop of `setup_impl`, lines 58-63, over the listed values of
`i`; the state is `(p_axes, p_x_strides, p_y_strides, p_y_shape)`. -/
def metadata_loop (axes_ : List Int) (inputs0 outputs0 : Variable) :
    List Nat → List Int × List Int × List Int × List Int →
    List Int × List Int × List Int × List Int
  | [], m => m
  | i :: rest, (p_axes, p_x_strides, p_y_strides, p_y_shape) =>
    metadata_loop axes_ inputs0 outputs0 rest
      (p_axes.set i (axes_.getD i 0),
       p_x_strides.set i (inputs0.strides.getD i 0 : Nat),
       p_y_strides.set i (outputs0.strides.getD i 0 : Nat),
       p_y_shape.set i (outputs0.shape.getD i 0 : Nat))

/-- What a call of `setup_impl` leaves behind: the exception it threw, if any,
the operator instance and `outputs[0]`. -/
structure SetupResult where
  error : Option SetupError
  self : Transpose
  output : Variable
  deriving DecidableEq, Repr

/-- The function `Transpose<T>::setup_impl`. A failed `NBLA_CHECK` throws: the
call ends there, with the state as it is at that point. -/
def setup_impl (self : Transpose) (inputs0 outputs0 : Variable) : SetupResult :=
  let ndim := inputs0.ndim
  if ndim ≠ self.axes_.length then
    ⟨some (.ShapeMismatch ndim self.axes_.length), self, outputs0⟩
  else
    match setup_loop self.axes_ inputs0.shape (List.range ndim) (List.replicate ndim 0) with
    | .error e => ⟨some e, self, outputs0⟩
    | .ok shape =>
      let out := outputs0.reshape shape true
      let m := metadata_loop self.axes_ inputs0 out (List.range ndim)
        (resize self.v_axes_ ndim, resize self.v_x_strides_ ndim,
         resize self.v_y_strides_ ndim, resize self.v_y_shape_ ndim)
      ⟨none,
       { self with v_axes_ := m.1, v_x_strides_ := m.2.1,
                   v_y_strides_ := m.2.2.1, v_y_shape_ := m.2.2.2 },
       out⟩

/-- The call `v.at(i)` of a `std::vector`: bounds-checked. -/
def vec_at {β : Type} (v : List β) (i : Nat) : Except Fault β :=
  match v[i]? with
  | some x => .ok x
  | none => .error .out_of_range

/-- The loop of `forward_impl`, lines 76-78, over the listed values of `i`:
`y2x_strides.at(i) = inputs[0]->strides().at(axes_.at(i))`. -/
def y2x_loop (axes_ : List Int) (x_strides : List Nat) :
    List Nat → List Nat → Except Fault (List Nat)
  | [], y2x_strides => .ok y2x_strides
  | i :: rest, y2x_strides =>
    match vec_at axes_ i with
    | .error e => .error e
    | .ok a =>
      match vec_at x_strides (to_size_t a) with
      | .error e => .error e
      | .ok s =>
        if i < y2x_strides.length then
          y2x_loop axes_ x_strides rest (y2x_strides.set i s)
        else .error .out_of_range

/-- The loop of `backward_impl`, lines 101-103, over the listed values of `i`:
`x2y_strides.at(axes_.at(i)) = outputs[0]->strides().at(i)`. -/
def x2y_loop (axes_ : List Int) (y_strides : List Nat) :
    List Nat → List Nat → Except Fault (List Nat)
  | [], x2y_strides => .ok x2y_strides
  | i :: rest, x2y_strides =>
    match vec_at axes_ i with
    | .error e => .error e
    | .ok a =>
      match vec_at y_strides i with
      | .error e => .error e
      | .ok s =>
        if to_size_t a < x2y_strides.length then
          x2y_loop axes_ y_strides rest (x2y_strides.set (to_size_t a) s)
        else .error .out_of_range

/-- The copy loops of `forward_impl` (lines 80-83) and `backward_impl` (lines
105-114): `do { dst[i++] (=|+=) src[nd2flat(index, strides)]; }
while (increment(index, shape));`. The argument `store old v` is the new
content of the slot: `v` for `=`, `old + v` for `+=`. The counter `i` is an
`int`: every pass makes `i++`, which needs `i + 1 <= INT_MAX = 2^31 - 1`. -/
def do_while {α : Type} (store : α → α → α) (src : List α) (strides : List Nat)
    (shape : Shape_t) : Nat → List Nat → Nat → List α → Except Fault (List α)
  | 0, _, _, _ => .error .out_of_fuel
  | fuel + 1, index, i, dst =>
    match src[ndi.nd2flat index strides]?, dst[i]? with
    | some v, some old =>
      if i + 1 < 2 ^ 31 then
        match ndi.increment index shape with
        | (index', true) =>
          do_while store src strides shape fuel index' (i + 1) (dst.set i (store old v))
        | (_, false) => .ok (dst.set i (store old v))
      else .error .int_overflow
    | _, _ => .error .out_of_range

/-- The function `Transpose<T>::forward_impl`; `x_data` is the input's data
buffer, `y_data` the output's data buffer as it is before the call, and the
result is the output's data buffer after the call. -/
def forward_impl {α : Type} (self : Transpose) (inputs0 outputs0 : Variable)
    (x_data y_data : List α) (fuel : Nat) : Except Fault (List α) :=
  let ndim := inputs0.ndim
  let y_index := ndi.make_index ndim 0
  let y_shape := outputs0.shape
  match y2x_loop self.axes_ inputs0.strides (List.range ndim) (List.replicate ndim 0) with
  | .error e => .error e
  | .ok y2x_strides =>
    do_while (fun _ v => v) x_data y2x_strides y_shape fuel y_index 0 y_data

/-- The function `Transpose<T>::backward_impl`; `y_grad` is the output's
gradient buffer, `x_grad` the input's gradient buffer as it is before the
call, and the result is the input's gradient buffer after the call.
`propagate_down` and `accum` are the entries `[0]` of the two flag vectors. -/
def backward_impl {α : Type} [Add α] (self : Transpose) (inputs0 outputs0 : Variable)
    (propagate_down accum : Bool) (x_grad y_grad : List α) (fuel : Nat) :
    Except Fault (List α) :=
  if !propagate_down then .ok x_grad
  else
    let ndim := inputs0.ndim
    let x_index := ndi.make_index ndim 0
    let x_shape := inputs0.shape
    match x2y_loop self.axes_ outputs0.strides (List.range ndim) (List.replicate ndim 0) with
    | .error e => .error e
    | .ok x2y_strides =>
      if accum then
        do_while (fun old v => old + v) y_grad x2y_strides x_shape fuel x_index 0 x_grad
      else
        do_while (fun _ v => v) y_grad x2y_strides x_shape fuel x_index 0 x_grad

/-! ## Vocabulary of the statements -/

/-- The index lies inside the shape: same rank, every entry below its extent. -/
def ndi.in_bounds (index : List Nat) (shape : Shape_t) : Prop :=
  List.Forall₂ (fun i s => i < s) index shape

instance (index : List Nat) (shape : Shape_t) : Decidable (ndi.in_bounds index shape) := by
  unfold ndi.in_bounds; infer_instance

/-- The `k`-th coordinate of the shape in row-major order (last axis
fastest), counted from 0. -/
def ndi.coordinate : Shape_t → Nat → List Nat
  | [], _ => []
  | _ :: rest, k => (k / rest.prod) :: coordinate rest (k % rest.prod)

/-- Every extent of the shape is positive. -/
def Positive (shape : Shape_t) : Prop := ∀ e ∈ shape, 0 < e

instance (shape : Shape_t) : Decidable (Positive shape) := by
  unfold Positive; infer_instance

/-- The sequence is a valid permutation of the axes of a rank-`r` tensor:
`r` entries, each a valid axis, pairwise distinct. -/
def ValidAxes (axes : List Int) (r : Nat) : Prop :=
  axes.length = r ∧ (∀ a ∈ axes, 0 ≤ a ∧ a < r) ∧ axes.Nodup

instance (axes : List Int) (r : Nat) : Decidable (ValidAxes axes r) := by
  unfold ValidAxes; infer_instance

/-- The sequence `v` read through the axes: entry `i` is `v[axes[i]]`. -/
def permuted (axes : List Int) (v : List Nat) : List Nat :=
  axes.map (fun a => v.getD a.toNat 0)

/-- The array after the assignments `acc[g i] = h i`, made for the listed
values of `i` in turn. -/
def scatter {β : Type} (g : Nat → Nat) (h : Nat → β) (is : List Nat) (acc : List β) : List β :=
  is.foldl (fun acc i => acc.set (g i) (h i)) acc

/-- The sequence whose reading through the axes is `y`: entry `j` is `y[i]`
for the position `i` with `axes[i] = j`. -/
def unpermuted (axes : List Int) (y : List Nat) : List Nat :=
  (List.range axes.length).map (fun (j : Nat) => y.getD (axes.indexOf (j : Int)) 0)

/-- The bound check of `setup_impl` (line 34) passes at position `i`: the
entry, converted to `size_t`, is below the rank. -/
def passes_bound (axes : List Int) (r i : Nat) : Prop :=
  to_size_t (axes.getD i 0) < r

instance (axes : List Int) (r i : Nat) : Decidable (passes_bound axes r i) := by
  unfold passes_bound; infer_instance

/-- The entry at position `i` repeats the entry of an earlier position. -/
def repeats (axes : List Int) (i : Nat) : Prop :=
  ∃ j < i, axes.getD j 0 = axes.getD i 0

instance (axes : List Int) (i : Nat) : Decidable (repeats axes i) := by
  unfold repeats; infer_instance

/-- Position `i` is the first at which a check of the validation loop fails:
every earlier position passes the bound check and repeats no entry, and
position `i` fails the bound check or repeats an entry. -/
def first_failure (axes : List Int) (r i : Nat) : Prop :=
  i < r ∧ (∀ j < i, passes_bound axes r j ∧ ¬ repeats axes j) ∧
    (¬ passes_bound axes r i ∨ repeats axes i)

instance (axes : List Int) (r i : Nat) : Decidable (first_failure axes r i) := by
  unfold first_failure; infer_instance

/-- The position `i` that the message of an error reports, if it reports one. -/
def SetupError.position : SetupError → Option Nat
  | .ShapeMismatch _ _ => none
  | .InvalidAxis i _ _ => some i
  | .DuplicateAxis i _ _ _ => some i

/-- The input offset that forward reads for output slot `k`: the dot product
of the `k`-th row-major output coordinate with the input strides permuted by
the axes. -/
def y2x_flat (axes : List Int) (shape : Shape_t) (k : Nat) : Nat :=
  ndi.nd2flat (ndi.coordinate (permuted axes shape) k) (permuted axes (ndi.strides shape))

/-- The output offset that backward reads for input slot `m`: the row-major
offset, in the output shape, of the permuted `m`-th input coordinate. -/
def x2y_flat (axes : List Int) (shape : Shape_t) (m : Nat) : Nat :=
  ndi.nd2flat (permuted axes (ndi.coordinate shape m)) (ndi.strides (permuted axes shape))

/-! ## The index utilities -/

theorem ndi.strides_length (shape : Shape_t) : (ndi.strides shape).length = shape.length := by
  induction shape with
  | nil => rfl
  | cons s rest ih => simp [ndi.strides, ih]

theorem ndi.coordinate_length (shape : Shape_t) (k : Nat) :
    (ndi.coordinate shape k).length = shape.length := by
  induction shape generalizing k with
  | nil => rfl
  | cons s rest ih => simp [ndi.coordinate, ih]

theorem ndi.coordinate_zero (shape : Shape_t) :
    ndi.coordinate shape 0 = List.replicate shape.length 0 := by
  induction shape with
  | nil => rfl
  | cons s rest ih => simp [ndi.coordinate, ih, List.replicate_succ]

theorem Positive.tail {s : Nat} {rest : Shape_t} (h : Positive (s :: rest)) : Positive rest :=
  fun e he => h e (List.mem_cons_of_mem _ he)

theorem Positive.prod_pos {shape : Shape_t} (h : Positive shape) : 0 < shape.prod := by
  induction shape with
  | nil => simp
  | cons s rest ih =>
    rw [List.prod_cons]
    exact Nat.mul_pos (h s (List.mem_cons_self _ _)) (ih h.tail)

theorem ndi.coordinate_in_bounds {shape : Shape_t} (hpos : Positive shape) {k : Nat}
    (hk : k < shape.prod) : ndi.in_bounds (ndi.coordinate shape k) shape := by
  induction shape generalizing k with
  | nil => exact List.Forall₂.nil
  | cons s rest ih =>
    have hP := hpos.tail.prod_pos
    rw [List.prod_cons] at hk
    refine List.Forall₂.cons ?_ (ih hpos.tail (Nat.mod_lt _ hP))
    exact Nat.div_lt_of_lt_mul (by rw [Nat.mul_comm]; exact hk)

theorem ndi.nd2flat_coordinate {shape : Shape_t} (hpos : Positive shape) (k : Nat)
    (hk : k < shape.prod) :
    ndi.nd2flat (ndi.coordinate shape k) (ndi.strides shape) = k := by
  induction shape generalizing k with
  | nil => simp at hk; simp [ndi.coordinate, ndi.nd2flat, hk]
  | cons s rest ih =>
    have hP := hpos.tail.prod_pos
    simp only [ndi.coordinate, ndi.strides, ndi.nd2flat]
    rw [ih hpos.tail _ (Nat.mod_lt _ hP)]
    exact Nat.div_add_mod' k rest.prod

theorem ndi.nd2flat_lt {index : List Nat} {shape : Shape_t} (h : ndi.in_bounds index shape) :
    ndi.nd2flat index (ndi.strides shape) < shape.prod := by
  induction h with
  | nil => simp [ndi.nd2flat]
  | @cons i s index rest hi _ ih =>
    simp only [ndi.strides, ndi.nd2flat, List.prod_cons]
    calc i * rest.prod + ndi.nd2flat index (ndi.strides rest)
        < i * rest.prod + rest.prod := by omega
      _ = (i + 1) * rest.prod := by ring
      _ ≤ s * rest.prod := Nat.mul_le_mul_right _ hi

theorem ndi.coordinate_nd2flat {index : List Nat} {shape : Shape_t}
    (h : ndi.in_bounds index shape) :
    ndi.coordinate shape (ndi.nd2flat index (ndi.strides shape)) = index := by
  induction h with
  | nil => rfl
  | @cons i s index rest hi hrest ih =>
    have hlt := ndi.nd2flat_lt hrest
    simp only [ndi.strides, ndi.nd2flat, ndi.coordinate]
    have h1 : (i * rest.prod + ndi.nd2flat index (ndi.strides rest)) / rest.prod = i := by
      rw [Nat.mul_comm, Nat.mul_add_div (by omega), Nat.div_eq_of_lt hlt]; rfl
    have h2 : (i * rest.prod + ndi.nd2flat index (ndi.strides rest)) % rest.prod
        = ndi.nd2flat index (ndi.strides rest) := by
      rw [Nat.mul_comm, Nat.mul_add_mod, Nat.mod_eq_of_lt hlt]
    rw [h1, h2, ih]

theorem ndi.increment_coordinate {shape : Shape_t} (hpos : Positive shape) (k : Nat)
    (hk : k < shape.prod) :
    ndi.increment (ndi.coordinate shape k) shape =
      if k + 1 < shape.prod then (ndi.coordinate shape (k + 1), true)
      else (ndi.coordinate shape 0, false) := by
  induction shape generalizing k with
  | nil => simp at hk; subst hk; simp [ndi.coordinate, ndi.increment]
  | cons s rest ih =>
    have hP := hpos.tail.prod_pos
    have hm := Nat.mod_lt k hP
    rw [List.prod_cons] at hk ⊢
    have hd : k / rest.prod < s := Nat.div_lt_of_lt_mul (by rw [Nat.mul_comm]; exact hk)
    have hk' := Nat.div_add_mod' k rest.prod
    simp only [ndi.coordinate, ndi.increment]
    rw [ih hpos.tail _ hm]
    by_cases hc : k % rest.prod + 1 < rest.prod
    · have e1 : (k + 1) / rest.prod = k / rest.prod := by
        have : k + 1 = rest.prod * (k / rest.prod) + (k % rest.prod + 1) := by
          rw [Nat.mul_comm]; omega
        rw [this, Nat.mul_add_div hP, Nat.div_eq_of_lt hc]; rfl
      have e2 : (k + 1) % rest.prod = k % rest.prod + 1 := by
        have : k + 1 = rest.prod * (k / rest.prod) + (k % rest.prod + 1) := by
          rw [Nat.mul_comm]; omega
        rw [this, Nat.mul_add_mod, Nat.mod_eq_of_lt hc]
      have hlt : k + 1 < s * rest.prod := by
        calc k + 1 = k / rest.prod * rest.prod + (k % rest.prod + 1) := by omega
          _ < k / rest.prod * rest.prod + rest.prod := by omega
          _ = (k / rest.prod + 1) * rest.prod := by ring
          _ ≤ s * rest.prod := Nat.mul_le_mul_right _ hd
      simp [hc, hlt, e1, e2]
    · have hc' : k % rest.prod + 1 = rest.prod := by omega
      have hk1 : k + 1 = (k / rest.prod + 1) * rest.prod := by
        rw [Nat.add_mul]; omega
      have e1 : (k + 1) / rest.prod = k / rest.prod + 1 := by
        rw [hk1, Nat.mul_div_cancel _ hP]
      have e2 : (k + 1) % rest.prod = 0 := by
        rw [hk1, Nat.mul_mod_left]
      simp only [hc, if_false]
      by_cases hs : k / rest.prod + 1 < s
      · have hlt : k + 1 < s * rest.prod := by
          rw [hk1]; exact Nat.mul_lt_mul_of_pos_right hs hP
        simp [hs, hlt, e1, e2]
      · have hge : ¬ (k + 1 < s * rest.prod) := by
          have hs' : s = k / rest.prod + 1 := by omega
          rw [hk1, hs']; omega
        simp [hs, hge]

/-! ## The copy loop -/

/-- Started at the `k`-th coordinate with the counter at `k`, the copy loop
over fewer than `2^31` elements runs to the end of the shape: it leaves the
slots below `k` alone and stores into every slot `j` from `k` on the element
of `src` that the `j`-th coordinate selects. -/
theorem do_while_spec {α : Type} (store : α → α → α) (src : List α) (strides : List Nat)
    {shape : Shape_t} (hpos : Positive shape)
    (hsrc : ∀ j < shape.prod, ndi.nd2flat (ndi.coordinate shape j) strides < src.length)
    (fuel k : Nat) (dst : List α) (hk : k < shape.prod) (hfuel : shape.prod - k ≤ fuel)
    (hdst : dst.length = shape.prod) (hsize : shape.prod < 2 ^ 31) :
    ∃ res, do_while store src strides shape fuel (ndi.coordinate shape k) k dst = .ok res ∧
      res.length = shape.prod ∧
      (∀ j, j < k → res[j]? = dst[j]?) ∧
      (∀ j, k ≤ j → j < shape.prod → ∀ old v, dst[j]? = some old →
        src[ndi.nd2flat (ndi.coordinate shape j) strides]? = some v →
        res[j]? = some (store old v)) := by
  induction fuel generalizing k dst with
  | zero => omega
  | succ fuel ih =>
    obtain ⟨v, hv⟩ : ∃ v, src[ndi.nd2flat (ndi.coordinate shape k) strides]? = some v :=
      ⟨_, List.getElem?_eq_getElem (hsrc k hk)⟩
    obtain ⟨old, hold⟩ : ∃ old, dst[k]? = some old :=
      ⟨_, List.getElem?_eq_getElem (by omega)⟩
    have hcount : k + 1 < 2 ^ 31 := by omega
    simp only [do_while, hv, hold, hcount, if_true, ndi.increment_coordinate hpos k hk]
    by_cases hlast : k + 1 < shape.prod
    · simp only [hlast, if_true]
      obtain ⟨res, hres, hlen, hlow, hhigh⟩ :=
        ih (k + 1) (dst.set k (store old v)) hlast (by omega) (by simp [hdst])
      refine ⟨res, hres, hlen, ?_, ?_⟩
      · intro j hj
        rw [hlow j (by omega), List.getElem?_set_ne (by omega)]
      · intro j hkj hj old' v' hold' hv'
        by_cases hjk : j = k
        · subst hjk
          rw [hlow j (by omega), List.getElem?_set_eq_of_lt _ (by omega)]
          rw [hold] at hold'; rw [hv] at hv'
          cases hold'; cases hv'; rfl
        · refine hhigh j (by omega) hj old' v' ?_ hv'
          rw [List.getElem?_set_ne (by omega)]; exact hold'
    · simp only [hlast, if_false]
      refine ⟨_, rfl, by simp [hdst], ?_, ?_⟩
      · intro j hj
        rw [List.getElem?_set_ne (by omega)]
      · intro j hkj hj old' v' hold' hv'
        have hjk : j = k := by omega
        subst hjk
        rw [List.getElem?_set_eq_of_lt _ (by omega)]
        rw [hold] at hold'; rw [hv] at hv'
        cases hold'; cases hv'; rfl

/-! ## The stride and shape loops -/

theorem scatter_length {β : Type} (g : Nat → Nat) (h : Nat → β) (is : List Nat) (acc : List β) :
    (scatter g h is acc).length = acc.length := by
  induction is generalizing acc with
  | nil => rfl
  | cons i rest ih => simp [scatter, List.foldl_cons] at ih ⊢; rw [ih]; simp

theorem scatter_getElem?_of_not_mem {β : Type} (g : Nat → Nat) (h : Nat → β) (is : List Nat)
    (acc : List β) (j : Nat) (hj : j ∉ is.map g) : (scatter g h is acc)[j]? = acc[j]? := by
  induction is generalizing acc with
  | nil => rfl
  | cons i rest ih =>
    simp only [List.map_cons, List.mem_cons, not_or] at hj
    have := ih (acc.set (g i) (h i)) hj.2
    simp only [scatter, List.foldl_cons] at this ⊢
    rw [this, List.getElem?_set_ne (Ne.symm hj.1)]

theorem scatter_getElem?_of_mem {β : Type} (g : Nat → Nat) (h : Nat → β) (is : List Nat)
    (acc : List β) (hnd : (is.map g).Nodup) (i : Nat) (hi : i ∈ is) (hlt : g i < acc.length) :
    (scatter g h is acc)[g i]? = some (h i) := by
  induction is generalizing acc with
  | nil => simp at hi
  | cons i0 rest ih =>
    simp only [List.map_cons, List.nodup_cons] at hnd
    rcases List.mem_cons.mp hi with rfl | hmem
    · have := scatter_getElem?_of_not_mem g h rest (acc.set (g i) (h i)) (g i) hnd.1
      simp only [scatter, List.foldl_cons] at this ⊢
      rw [this, List.getElem?_set_eq_of_lt _ hlt]
    · have := ih (acc.set (g i0) (h i0)) hnd.2 hmem (by simpa using hlt)
      simpa only [scatter, List.foldl_cons] using this

theorem y2x_loop_eq (axes_ : List Int) (x_strides : List Nat) (is : List Nat) (acc : List Nat)
    (h : ∀ i ∈ is, i < axes_.length ∧ to_size_t (axes_.getD i 0) < x_strides.length ∧
      i < acc.length) :
    y2x_loop axes_ x_strides is acc =
      .ok (scatter id (fun i => x_strides.getD (to_size_t (axes_.getD i 0)) 0) is acc) := by
  induction is generalizing acc with
  | nil => rfl
  | cons i rest ih =>
    obtain ⟨h1, h2, h3⟩ := h i (List.mem_cons_self _ _)
    have hrest : ∀ j ∈ rest, j < axes_.length ∧
        to_size_t (axes_.getD j 0) < x_strides.length ∧
        j < (acc.set i (x_strides.getD (to_size_t (axes_.getD i 0)) 0)).length := by
      intro j hj
      have := h j (List.mem_cons_of_mem _ hj)
      simpa using this
    have e1 : axes_[i]? = some (axes_.getD i 0) := by
      rw [List.getD_eq_getElem _ _ h1]; exact List.getElem?_eq_getElem h1
    have e2 : x_strides[to_size_t (axes_.getD i 0)]? =
        some (x_strides.getD (to_size_t (axes_.getD i 0)) 0) := by
      rw [List.getD_eq_getElem _ _ h2]; exact List.getElem?_eq_getElem h2
    simp only [y2x_loop, vec_at, e1, e2, h3, if_true]
    rw [ih _ hrest]
    simp [scatter]

theorem x2y_loop_eq (axes_ : List Int) (y_strides : List Nat) (is : List Nat) (acc : List Nat)
    (h : ∀ i ∈ is, i < axes_.length ∧ i < y_strides.length ∧
      to_size_t (axes_.getD i 0) < acc.length) :
    x2y_loop axes_ y_strides is acc =
      .ok (scatter (fun i => to_size_t (axes_.getD i 0)) (fun i => y_strides.getD i 0) is acc) := by
  induction is generalizing acc with
  | nil => rfl
  | cons i rest ih =>
    obtain ⟨h1, h2, h3⟩ := h i (List.mem_cons_self _ _)
    have hrest : ∀ j ∈ rest, j < axes_.length ∧ j < y_strides.length ∧
        to_size_t (axes_.getD j 0) <
          (acc.set (to_size_t (axes_.getD i 0)) (y_strides.getD i 0)).length := by
      intro j hj
      have := h j (List.mem_cons_of_mem _ hj)
      simpa using this
    have e1 : axes_[i]? = some (axes_.getD i 0) := by
      rw [List.getD_eq_getElem _ _ h1]; exact List.getElem?_eq_getElem h1
    have e2 : y_strides[i]? = some (y_strides.getD i 0) := by
      rw [List.getD_eq_getElem _ _ h2]; exact List.getElem?_eq_getElem h2
    simp only [x2y_loop, vec_at, e1, e2, h3, if_true]
    rw [ih _ hrest]
    simp [scatter]

theorem check_duplicated_ok (axes_ : List Int) (i : Nat) (l : List Nat)
    (h : ∀ i2 ∈ l, axes_.getD i 0 ≠ axes_.getD i2 0) :
    check_duplicated axes_ i l = .ok () := by
  induction l with
  | nil => rfl
  | cons i2 rest ih =>
    simp only [check_duplicated, h i2 (List.mem_cons_self _ _), ne_eq, not_false_eq_true,
      if_true]
    exact ih (fun j hj => h j (List.mem_cons_of_mem _ hj))

theorem setup_loop_eq (axes_ : List Int) (x_shape : Shape_t) (is : List Nat) (shape : Shape_t)
    (h : ∀ i ∈ is, to_size_t (axes_.getD i 0) < x_shape.length ∧
      ∀ i2 < i, axes_.getD i 0 ≠ axes_.getD i2 0) :
    setup_loop axes_ x_shape is shape =
      .ok (scatter id (fun i => x_shape.getD (to_size_t (axes_.getD i 0)) 0) is shape) := by
  induction is generalizing shape with
  | nil => rfl
  | cons i rest ih =>
    obtain ⟨h1, h2⟩ := h i (List.mem_cons_self _ _)
    have hc := check_duplicated_ok axes_ i (List.range i)
      (fun i2 hi2 => h2 i2 (List.mem_range.mp hi2))
    simp only [setup_loop, h1, if_true, hc]
    rw [ih _ (fun j hj => h j (List.mem_cons_of_mem _ hj))]
    simp [scatter]

/-! ## Valid axes are a permutation -/

theorem to_size_t_of_nonneg {a : Int} (h : 0 ≤ a) : to_size_t a = a.toNat := by
  simp [to_size_t, h]

theorem ValidAxes.getD_bounds {axes : List Int} {r : Nat} (h : ValidAxes axes r) {i : Nat}
    (hi : i < r) : 0 ≤ axes.getD i 0 ∧ axes.getD i 0 < r := by
  have hlen : i < axes.length := by rw [h.1]; exact hi
  rw [List.getD_eq_getElem _ _ hlen]
  exact h.2.1 _ (List.getElem_mem _)

theorem ValidAxes.toNat_lt {axes : List Int} {r : Nat} (h : ValidAxes axes r) {a : Int}
    (ha : a ∈ axes) : a.toNat < r := by
  have := h.2.1 a ha
  omega

theorem ValidAxes.perm {axes : List Int} {r : Nat} (h : ValidAxes axes r) :
    (axes.map Int.toNat).Perm (List.range r) := by
  have hnd : (axes.map Int.toNat).Nodup := by
    refine List.Nodup.map_on ?_ h.2.2
    intro a ha b hb hab
    have := h.2.1 a ha
    have := h.2.1 b hb
    omega
  have hsub : axes.map Int.toNat ⊆ List.range r := by
    intro j hj
    obtain ⟨a, ha, rfl⟩ := List.mem_map.mp hj
    exact List.mem_range.mpr (h.toNat_lt ha)
  exact (List.subperm_of_subset hnd hsub).perm_of_length_le (by simp [h.1])

theorem range_map_getD (v : List Nat) : (List.range v.length).map (fun j => v.getD j 0) = v := by
  apply List.ext_getElem?
  intro n
  by_cases hn : n < v.length
  · simp [List.getElem?_range hn, hn]
  · have h1 : v.length ≤ n := by omega
    simp [List.getElem?_eq_none, h1]

theorem permuted_length (axes : List Int) (v : List Nat) :
    (permuted axes v).length = axes.length := by
  simp [permuted]

theorem permuted_eq_map_range {axes : List Int} {r : Nat} (h : ValidAxes axes r) (v : List Nat) :
    (List.range r).map (fun i => v.getD (to_size_t (axes.getD i 0)) 0) = permuted axes v := by
  apply List.ext_getElem?
  intro n
  by_cases hn : n < r
  · have hlen : n < axes.length := by rw [h.1]; exact hn
    have hb := h.getD_bounds hn
    rw [List.getD_eq_getElem _ _ hlen] at hb
    simp [permuted, List.getElem?_range hn, hlen, to_size_t_of_nonneg hb.1]
  · have h1 : r ≤ n := by omega
    have h2 : axes.length ≤ n := by rw [h.1]; exact h1
    simp [permuted, List.getElem?_eq_none, h1, h2]

theorem scatter_id_range {β : Type} (f : Nat → β) (n : Nat) (acc : List β)
    (hacc : acc.length = n) : scatter id f (List.range n) acc = (List.range n).map f := by
  apply List.ext_getElem?
  intro j
  by_cases hj : j < n
  · have := scatter_getElem?_of_mem id f (List.range n) acc
      (by simpa using List.nodup_range n) j (List.mem_range.mpr hj) (by simpa [hacc] using hj)
    simp only [id] at this
    rw [this]
    simp [List.getElem?_range hj, hj]
  · have h1 : n ≤ j := by omega
    rw [List.getElem?_eq_none (by simp [scatter_length, hacc, h1]),
      List.getElem?_eq_none (by simp [h1])]

theorem permuted_prod {axes : List Int} {r : Nat} (h : ValidAxes axes r) (v : List Nat)
    (hv : v.length = r) : (permuted axes v).prod = v.prod := by
  have e : permuted axes v = (axes.map Int.toNat).map (fun j => v.getD j 0) := by
    simp [permuted, List.map_map, Function.comp_def]
  rw [e, (h.perm.map _).prod_eq, ← hv, range_map_getD]

theorem permuted_positive {axes : List Int} {r : Nat} (h : ValidAxes axes r) {v : List Nat}
    (hv : v.length = r) (hpos : Positive v) : Positive (permuted axes v) := by
  intro e he
  obtain ⟨a, ha, rfl⟩ := List.mem_map.mp he
  have hlt : a.toNat < v.length := by rw [hv]; exact h.toNat_lt ha
  rw [List.getD_eq_getElem _ _ hlt]
  exact hpos _ (List.getElem_mem _)

theorem nd2flat_map (p : List Nat) (f g : Nat → Nat) :
    ndi.nd2flat (p.map f) (p.map g) = (p.map (fun j => f j * g j)).sum := by
  induction p with
  | nil => rfl
  | cons a rest ih => simp [ndi.nd2flat, ih]

theorem nd2flat_permuted {axes : List Int} {r : Nat} (h : ValidAxes axes r) (z st : List Nat)
    (hz : z.length = r) (hst : st.length = r) :
    ndi.nd2flat (permuted axes z) (permuted axes st) = ndi.nd2flat z st := by
  have e : ∀ v : List Nat, permuted axes v = (axes.map Int.toNat).map (fun j => v.getD j 0) := by
    intro v; simp [permuted, List.map_map, Function.comp_def]
  rw [e z, e st, nd2flat_map, (h.perm.map _).sum_eq, ← nd2flat_map]
  have hz' := range_map_getD z
  have hst' := range_map_getD st
  rw [hz] at hz'
  rw [hst] at hst'
  rw [hz', hst']

theorem in_bounds_permuted {axes : List Int} {r : Nat} (h : ValidAxes axes r)
    {z : List Nat} {shape : Shape_t} (hb : ndi.in_bounds z shape) (hr : shape.length = r) :
    ndi.in_bounds (permuted axes z) (permuted axes shape) := by
  unfold ndi.in_bounds permuted
  rw [List.forall₂_map_left_iff, List.forall₂_map_right_iff, List.forall₂_same]
  intro a ha
  have hlt : a.toNat < shape.length := by rw [hr]; exact h.toNat_lt ha
  have hzl : z.length = shape.length := List.Forall₂.length_eq hb
  rw [List.getD_eq_getElem _ _ hlt, List.getD_eq_getElem _ _ (by rw [hzl]; exact hlt)]
  exact (List.forall₂_iff_get.mp hb).2 _ _ hlt

theorem ValidAxes.mem_of_lt {axes : List Int} {r : Nat} (h : ValidAxes axes r) {j : Nat}
    (hj : j < r) : (j : Int) ∈ axes := by
  have hm : j ∈ axes.map Int.toNat := h.perm.mem_iff.mpr (List.mem_range.mpr hj)
  obtain ⟨a, ha, haj⟩ := List.mem_map.mp hm
  have := h.2.1 a ha
  have e : a = (j : Int) := by omega
  rw [← e]; exact ha

theorem ValidAxes.indexOf_lt {axes : List Int} {r : Nat} (h : ValidAxes axes r) {j : Nat}
    (hj : j < r) : axes.indexOf (j : Int) < r := by
  have := List.indexOf_lt_length.mpr (h.mem_of_lt hj)
  rw [h.1] at this; exact this

theorem ValidAxes.getD_indexOf {axes : List Int} {r : Nat} (h : ValidAxes axes r) {j : Nat}
    (hj : j < r) : axes.getD (axes.indexOf (j : Int)) 0 = (j : Int) := by
  have hlt := List.indexOf_lt_length.mpr (h.mem_of_lt hj)
  rw [List.getD_eq_getElem _ _ hlt]
  exact List.getElem_indexOf hlt

theorem ValidAxes.indexOf_getD {axes : List Int} {r : Nat} (h : ValidAxes axes r) {i : Nat}
    (hi : i < r) : axes.indexOf (axes.getD i 0) = i := by
  have hlen : i < axes.length := by rw [h.1]; exact hi
  rw [List.getD_eq_getElem _ _ hlen]
  exact List.indexOf_getElem h.2.2 i hlen

theorem unpermuted_length (axes : List Int) (y : List Nat) :
    (unpermuted axes y).length = axes.length := by
  simp [unpermuted]

theorem unpermuted_getD {axes : List Int} {r : Nat} (h : ValidAxes axes r) (y : List Nat)
    {j : Nat} (hj : j < r) :
    (unpermuted axes y).getD j 0 = y.getD (axes.indexOf (j : Int)) 0 := by
  have hlen : j < axes.length := by rw [h.1]; exact hj
  simp [unpermuted, List.getElem?_range, hlen]

theorem permuted_getD {axes : List Int} {r : Nat} (h : ValidAxes axes r) (v : List Nat)
    {i : Nat} (hi : i < r) :
    (permuted axes v).getD i 0 = v.getD (axes.getD i 0).toNat 0 := by
  have hlen : i < axes.length := by rw [h.1]; exact hi
  simp [permuted, hlen]

/-- Two sequences of rank `r` that agree at every axis are equal. -/
theorem ext_getD {a b : List Nat} {r : Nat} (ha : a.length = r) (hb : b.length = r)
    (h : ∀ i < r, a.getD i 0 = b.getD i 0) : a = b := by
  apply List.ext_getElem (by rw [ha, hb])
  intro n h1 h2
  have := h n (by rw [← ha]; exact h1)
  rwa [List.getD_eq_getElem _ _ h1, List.getD_eq_getElem _ _ h2] at this

theorem permuted_unpermuted {axes : List Int} {r : Nat} (h : ValidAxes axes r) (y : List Nat)
    (hy : y.length = r) : permuted axes (unpermuted axes y) = y := by
  apply ext_getD (by rw [permuted_length, h.1]) hy
  intro i hi
  have hb := h.getD_bounds hi
  have hlt : (axes.getD i 0).toNat < r := by omega
  rw [permuted_getD h _ hi, unpermuted_getD h _ hlt]
  have e : (((axes.getD i 0).toNat : Nat) : Int) = axes.getD i 0 := Int.toNat_of_nonneg hb.1
  rw [e, h.indexOf_getD hi]

theorem unpermuted_unique {axes : List Int} {r : Nat} (h : ValidAxes axes r) (x y : List Nat)
    (hx : x.length = r) (hxy : ∀ i < r, x.getD (axes.getD i 0).toNat 0 = y.getD i 0) :
    x = unpermuted axes y := by
  apply ext_getD hx (by rw [unpermuted_length, h.1])
  intro j hj
  rw [unpermuted_getD h _ hj, ← hxy _ (h.indexOf_lt hj), h.getD_indexOf hj]
  simp

theorem in_bounds_iff_getD {z : List Nat} {shape : Shape_t} :
    ndi.in_bounds z shape ↔
      z.length = shape.length ∧ ∀ i < shape.length, z.getD i 0 < shape.getD i 0 := by
  unfold ndi.in_bounds
  rw [List.forall₂_iff_get]
  constructor
  · rintro ⟨hl, hg⟩
    refine ⟨hl, fun i hi => ?_⟩
    rw [List.getD_eq_getElem _ _ hi, List.getD_eq_getElem _ _ (by rw [hl]; exact hi)]
    exact hg i (by rw [hl]; exact hi) hi
  · rintro ⟨hl, hg⟩
    refine ⟨hl, fun i h1 h2 => ?_⟩
    have := hg i h2
    rwa [List.getD_eq_getElem _ _ h1, List.getD_eq_getElem _ _ h2] at this

theorem in_bounds_unpermuted {axes : List Int} {r : Nat} (h : ValidAxes axes r)
    {y : List Nat} {shape : Shape_t} (hr : shape.length = r)
    (hb : ndi.in_bounds y (permuted axes shape)) : ndi.in_bounds (unpermuted axes y) shape := by
  rw [in_bounds_iff_getD] at hb ⊢
  obtain ⟨hl, hg⟩ := hb
  rw [permuted_length, h.1] at hl hg
  refine ⟨by rw [unpermuted_length, h.1, hr], fun j hj => ?_⟩
  rw [hr] at hj
  have hi := h.indexOf_lt hj
  have := hg _ hi
  rw [permuted_getD h _ hi, h.getD_indexOf hj] at this
  rw [unpermuted_getD h _ hj]
  simpa using this

/-! ## Setup, forward and backward under valid axes -/

theorem ValidAxes.loop_ok {axes : List Int} {r : Nat} (h : ValidAxes axes r) :
    ∀ i ∈ List.range r, to_size_t (axes.getD i 0) < r ∧
      ∀ i2 < i, axes.getD i 0 ≠ axes.getD i2 0 := by
  intro i hi
  have hi := List.mem_range.mp hi
  have hb := h.getD_bounds hi
  refine ⟨by rw [to_size_t_of_nonneg hb.1]; omega, fun i2 hi2 heq => ?_⟩
  have e1 := h.indexOf_getD hi
  have e2 := h.indexOf_getD (show i2 < r by omega)
  rw [heq, e2] at e1
  omega

theorem setup_impl_ok (self : Transpose) (inputs0 outputs0 : Variable)
    (h : ValidAxes self.axes_ inputs0.shape.length) :
    (setup_impl self inputs0 outputs0).error = none ∧
    (setup_impl self inputs0 outputs0).output = ⟨permuted self.axes_ inputs0.shape⟩ ∧
    (setup_impl self inputs0 outputs0).self.axes_ = self.axes_ := by
  have hl : inputs0.ndim = self.axes_.length := h.1.symm
  have hloop := setup_loop_eq self.axes_ inputs0.shape (List.range inputs0.shape.length)
    (List.replicate inputs0.shape.length 0) h.loop_ok
  rw [scatter_id_range _ _ _ (by simp), permuted_eq_map_range h] at hloop
  simp only [setup_impl, hl, ne_eq, not_true_eq_false, if_false]
  rw [← hl]
  simp only [Variable.ndim, hloop, Variable.reshape, and_self]

/-- The flat input offset that forward computes for an output coordinate is
the row-major offset of the input coordinate it came from. -/
theorem y2x_offset {axes : List Int} {shape : Shape_t} (h : ValidAxes axes shape.length)
    {y : List Nat} (hy : ndi.in_bounds y (permuted axes shape)) :
    ndi.nd2flat y (permuted axes (ndi.strides shape)) =
      ndi.nd2flat (unpermuted axes y) (ndi.strides shape) := by
  have hyl : y.length = shape.length := by
    rw [List.Forall₂.length_eq hy, permuted_length, h.1]
  have := nd2flat_permuted h (unpermuted axes y) (ndi.strides shape)
    (by rw [unpermuted_length, h.1]) (ndi.strides_length shape)
  rw [permuted_unpermuted h y hyl] at this
  exact this

theorem y2x_offset_lt {axes : List Int} {shape : Shape_t} (h : ValidAxes axes shape.length)
    {y : List Nat} (hy : ndi.in_bounds y (permuted axes shape)) :
    ndi.nd2flat y (permuted axes (ndi.strides shape)) < shape.prod := by
  rw [y2x_offset h hy]
  exact ndi.nd2flat_lt (in_bounds_unpermuted h rfl hy)

theorem forward_impl_spec {α : Type} (self : Transpose) (inputs0 outputs0 : Variable)
    (x_data y_data : List α) (fuel : Nat)
    (h : ValidAxes self.axes_ inputs0.shape.length) (hpos : Positive inputs0.shape)
    (hy : outputs0.shape = permuted self.axes_ inputs0.shape)
    (hx : x_data.length = inputs0.shape.prod) (hyd : y_data.length = inputs0.shape.prod)
    (hfuel : inputs0.shape.prod ≤ fuel) (hsize : inputs0.shape.prod < 2 ^ 31) :
    ∃ out, forward_impl self inputs0 outputs0 x_data y_data fuel = .ok out ∧
      out.length = inputs0.shape.prod ∧
      ∀ k < inputs0.shape.prod,
        out[k]? = x_data[ndi.nd2flat (ndi.coordinate outputs0.shape k)
          (permuted self.axes_ inputs0.strides)]? := by
  have hprod : outputs0.shape.prod = inputs0.shape.prod := by
    rw [hy]; exact permuted_prod h _ rfl
  have hypos : Positive outputs0.shape := by
    rw [hy]; exact permuted_positive h rfl hpos
  have hylen : outputs0.shape.length = inputs0.shape.length := by
    rw [hy, permuted_length, h.1]
  have hloop := y2x_loop_eq self.axes_ inputs0.strides (List.range inputs0.shape.length)
    (List.replicate inputs0.shape.length 0) (by
      intro i hi
      have hi' := List.mem_range.mp hi
      refine ⟨by rw [h.1]; exact hi', ?_, by simpa using hi'⟩
      rw [Variable.strides, ndi.strides_length]
      exact (h.loop_ok i hi).1)
  rw [scatter_id_range _ _ _ (by simp), permuted_eq_map_range h] at hloop
  have hsrc : ∀ j < outputs0.shape.prod,
      ndi.nd2flat (ndi.coordinate outputs0.shape j) (permuted self.axes_ inputs0.strides)
        < x_data.length := by
    intro j hj
    have hb := ndi.coordinate_in_bounds hypos hj
    rw [hy] at hb
    rw [hx, hy]
    exact y2x_offset_lt h hb
  have hpos0 : 0 < outputs0.shape.prod := hypos.prod_pos
  obtain ⟨res, hres, hlen, -, hhigh⟩ := do_while_spec (fun _ v => v) x_data
    (permuted self.axes_ inputs0.strides) hypos hsrc fuel 0 y_data hpos0
    (by omega) (by rw [hyd, hprod]) (by rw [hprod]; exact hsize)
  rw [ndi.coordinate_zero, hylen] at hres
  refine ⟨res, ?_, by rw [hlen, hprod], ?_⟩
  · simp only [forward_impl, Variable.ndim, hloop, ndi.make_index]
    exact hres
  · intro k hk
    have hk' : k < outputs0.shape.prod := by rw [hprod]; exact hk
    obtain ⟨old, hold⟩ : ∃ old, y_data[k]? = some old :=
      ⟨_, List.getElem?_eq_getElem (by rw [hyd]; exact hk)⟩
    obtain ⟨v, hv⟩ : ∃ v, x_data[ndi.nd2flat (ndi.coordinate outputs0.shape k)
        (permuted self.axes_ inputs0.strides)]? = some v :=
      ⟨_, List.getElem?_eq_getElem (hsrc k hk')⟩
    rw [hhigh k (Nat.zero_le _) hk' old v hold hv, hv]

theorem x2y_permuted {axes : List Int} {r : Nat} (h : ValidAxes axes r) (y_strides : List Nat)
    (hy : y_strides.length = r) :
    permuted axes (scatter (fun i => to_size_t (axes.getD i 0)) (fun i => y_strides.getD i 0)
      (List.range r) (List.replicate r 0)) = y_strides := by
  apply ext_getD (by rw [permuted_length, h.1]) hy
  intro i hi
  have hb := h.getD_bounds hi
  have hnd : ((List.range r).map (fun i => to_size_t (axes.getD i 0))).Nodup := by
    refine List.Nodup.map_on ?_ (List.nodup_range r)
    intro a ha b hb' hab
    have ha := List.mem_range.mp ha
    have hb' := List.mem_range.mp hb'
    have ba := h.getD_bounds ha
    have bb := h.getD_bounds hb'
    rw [to_size_t_of_nonneg ba.1, to_size_t_of_nonneg bb.1] at hab
    have e : axes.getD a 0 = axes.getD b 0 := by omega
    have e1 := h.indexOf_getD ha
    rw [e, h.indexOf_getD hb'] at e1
    exact e1.symm
  have := scatter_getElem?_of_mem (fun i => to_size_t (axes.getD i 0))
    (fun i => y_strides.getD i 0) (List.range r) (List.replicate r 0) hnd i
    (List.mem_range.mpr hi) (by
      simp only [List.length_replicate]
      rw [to_size_t_of_nonneg hb.1]; omega)
  simp only [to_size_t_of_nonneg hb.1] at this
  rw [permuted_getD h _ hi, List.getD_eq_getElem?_getD, this]
  rfl

/-- The flat output offset that backward computes for an input coordinate is
the row-major offset, in the output, of the permuted coordinate. -/
theorem x2y_offset {axes : List Int} {shape : Shape_t} (h : ValidAxes axes shape.length)
    (z : List Nat) (hz : z.length = shape.length) :
    ndi.nd2flat z (scatter (fun i => to_size_t (axes.getD i 0))
        (fun i => (ndi.strides (permuted axes shape)).getD i 0)
        (List.range shape.length) (List.replicate shape.length 0)) =
      ndi.nd2flat (permuted axes z) (ndi.strides (permuted axes shape)) := by
  have hsl : (ndi.strides (permuted axes shape)).length = shape.length := by
    rw [ndi.strides_length, permuted_length, h.1]
  rw [← nd2flat_permuted h z _ hz (by rw [scatter_length]; simp), x2y_permuted h _ hsl]

theorem backward_impl_spec {α : Type} [Add α] (self : Transpose) (inputs0 outputs0 : Variable)
    (accum : Bool) (x_grad y_grad : List α) (fuel : Nat)
    (h : ValidAxes self.axes_ inputs0.shape.length) (hpos : Positive inputs0.shape)
    (hy : outputs0.shape = permuted self.axes_ inputs0.shape)
    (hx : x_grad.length = inputs0.shape.prod) (hyg : y_grad.length = inputs0.shape.prod)
    (hfuel : inputs0.shape.prod ≤ fuel) (hsize : inputs0.shape.prod < 2 ^ 31) :
    ∃ res, backward_impl self inputs0 outputs0 true accum x_grad y_grad fuel = .ok res ∧
      res.length = inputs0.shape.prod ∧
      ∀ k < inputs0.shape.prod, ∃ old v,
        x_grad[k]? = some old ∧
        y_grad[ndi.nd2flat (permuted self.axes_ (ndi.coordinate inputs0.shape k))
          outputs0.strides]? = some v ∧
        res[k]? = some (if accum then old + v else v) := by
  have hprod : outputs0.shape.prod = inputs0.shape.prod := by
    rw [hy]; exact permuted_prod h _ rfl
  have hysl : outputs0.strides.length = inputs0.shape.length := by
    rw [Variable.strides, ndi.strides_length, hy, permuted_length, h.1]
  have hloop := x2y_loop_eq self.axes_ outputs0.strides (List.range inputs0.shape.length)
    (List.replicate inputs0.shape.length 0) (by
      intro i hi
      have hi' := List.mem_range.mp hi
      refine ⟨by rw [h.1]; exact hi', by rw [hysl]; exact hi', ?_⟩
      simpa using (h.loop_ok i hi).1)
  have hoff : ∀ j < inputs0.shape.prod,
      ndi.nd2flat (ndi.coordinate inputs0.shape j)
        (scatter (fun i => to_size_t (self.axes_.getD i 0))
          (fun i => outputs0.strides.getD i 0)
          (List.range inputs0.shape.length) (List.replicate inputs0.shape.length 0)) =
      ndi.nd2flat (permuted self.axes_ (ndi.coordinate inputs0.shape j)) outputs0.strides := by
    intro j _
    rw [Variable.strides, hy]
    exact x2y_offset h _ (ndi.coordinate_length _ _)
  have hlt : ∀ j < inputs0.shape.prod,
      ndi.nd2flat (permuted self.axes_ (ndi.coordinate inputs0.shape j)) outputs0.strides
        < y_grad.length := by
    intro j hj
    rw [hyg, ← hprod, Variable.strides, hy]
    exact ndi.nd2flat_lt (in_bounds_permuted h (ndi.coordinate_in_bounds hpos hj) rfl)
  have hsrc : ∀ j < inputs0.shape.prod,
      ndi.nd2flat (ndi.coordinate inputs0.shape j)
        (scatter (fun i => to_size_t (self.axes_.getD i 0))
          (fun i => outputs0.strides.getD i 0)
          (List.range inputs0.shape.length) (List.replicate inputs0.shape.length 0))
        < y_grad.length := by
    intro j hj
    rw [hoff j hj]; exact hlt j hj
  have hpos0 : 0 < inputs0.shape.prod := hpos.prod_pos
  have key : ∀ store : α → α → α, ∃ res,
      do_while store y_grad
        (scatter (fun i => to_size_t (self.axes_.getD i 0))
          (fun i => outputs0.strides.getD i 0)
          (List.range inputs0.shape.length) (List.replicate inputs0.shape.length 0))
        inputs0.shape fuel (List.replicate inputs0.shape.length 0) 0 x_grad = .ok res ∧
      res.length = inputs0.shape.prod ∧
      ∀ k < inputs0.shape.prod, ∃ old v,
        x_grad[k]? = some old ∧
        y_grad[ndi.nd2flat (permuted self.axes_ (ndi.coordinate inputs0.shape k))
          outputs0.strides]? = some v ∧
        res[k]? = some (store old v) := by
    intro store
    obtain ⟨res, hres, hlen, -, hhigh⟩ := do_while_spec store y_grad _ hpos hsrc fuel 0 x_grad
      hpos0 (by omega) hx hsize
    rw [ndi.coordinate_zero] at hres
    refine ⟨res, hres, hlen, fun k hk => ?_⟩
    obtain ⟨old, hold⟩ : ∃ old, x_grad[k]? = some old :=
      ⟨_, List.getElem?_eq_getElem (by rw [hx]; exact hk)⟩
    obtain ⟨v, hv⟩ : ∃ v, y_grad[ndi.nd2flat (permuted self.axes_
        (ndi.coordinate inputs0.shape k)) outputs0.strides]? = some v :=
      ⟨_, List.getElem?_eq_getElem (hlt k hk)⟩
    refine ⟨old, v, hold, hv, hhigh k (Nat.zero_le _) hk old v hold ?_⟩
    rw [hoff k hk]; exact hv
  cases accum with
  | true =>
    obtain ⟨res, hres, hlen, hval⟩ := key (fun old v => old + v)
    refine ⟨res, ?_, hlen, ?_⟩
    · simp only [backward_impl, Variable.ndim, hloop, ndi.make_index]
      simpa using hres
    · simpa using hval
  | false =>
    obtain ⟨res, hres, hlen, hval⟩ := key (fun _ v => v)
    refine ⟨res, ?_, hlen, ?_⟩
    · simp only [backward_impl, Variable.ndim, hloop, ndi.make_index]
      simpa using hres
    · simpa using hval

/-! ## Inverse permutations -/

theorem inverse_getD {p q : List Int} {r : Nat} (hp : ValidAxes p r)
    (hinv : ∀ i < r, q.getD (p.getD i 0).toNat 0 = (i : Int)) {j : Nat} (hj : j < r) :
    q.getD j 0 = ((p.indexOf (j : Int) : Nat) : Int) := by
  have := hinv _ (hp.indexOf_lt hj)
  rw [hp.getD_indexOf hj] at this
  simpa using this

theorem inverse_valid {p q : List Int} {r : Nat} (hp : ValidAxes p r) (hq : q.length = r)
    (hinv : ∀ i < r, q.getD (p.getD i 0).toNat 0 = (i : Int)) : ValidAxes q r := by
  have hget : ∀ n (hn : n < q.length), q[n] = ((p.indexOf (n : Int) : Nat) : Int) := by
    intro n hn
    rw [← List.getD_eq_getElem q 0 hn]
    exact inverse_getD hp hinv (by rw [← hq]; exact hn)
  refine ⟨hq, ?_, ?_⟩
  · intro a ha
    obtain ⟨n, hn, rfl⟩ := List.mem_iff_getElem.mp ha
    have := hp.indexOf_lt (show n < r by rw [← hq]; exact hn)
    rw [hget n hn]
    omega
  · rw [List.Nodup, List.pairwise_iff_getElem]
    intro i j hi hj hij heq
    rw [hget i hi, hget j hj] at heq
    have e : p.indexOf (i : Int) = p.indexOf (j : Int) := by omega
    have e1 := hp.getD_indexOf (show i < r by rw [← hq]; exact hi)
    rw [e, hp.getD_indexOf (show j < r by rw [← hq]; exact hj)] at e1
    omega

theorem inverse_right {p q : List Int} {r : Nat} (hp : ValidAxes p r)
    (hinv : ∀ i < r, q.getD (p.getD i 0).toNat 0 = (i : Int)) :
    ∀ j < r, p.getD (q.getD j 0).toNat 0 = (j : Int) := by
  intro j hj
  rw [inverse_getD hp hinv hj, Int.toNat_ofNat, hp.getD_indexOf hj]

theorem permuted_permuted {a b : List Int} {r : Nat} (ha : ValidAxes a r) (hb : ValidAxes b r)
    (hab : ∀ i < r, b.getD (a.getD i 0).toNat 0 = (i : Int)) (v : List Nat) (hv : v.length = r) :
    permuted a (permuted b v) = v := by
  apply ext_getD (by rw [permuted_length, ha.1]) hv
  intro i hi
  have hbnd := ha.getD_bounds hi
  rw [permuted_getD ha _ hi, permuted_getD hb _ (show (a.getD i 0).toNat < r by omega),
    hab i hi, Int.toNat_ofNat]

/-- Reading an input coordinate through the strides of the inverse permutation
gives the output offset of the permuted coordinate. -/
theorem inverse_offset {p q : List Int} {r : Nat} (hp : ValidAxes p r) (hq : ValidAxes q r)
    (hinv : ∀ i < r, q.getD (p.getD i 0).toNat 0 = (i : Int)) (z st : List Nat)
    (hz : z.length = r) (hst : st.length = r) :
    ndi.nd2flat z (permuted q st) = ndi.nd2flat (permuted p z) st := by
  have := nd2flat_permuted hp z (permuted q st) hz (by rw [permuted_length, hq.1])
  rw [permuted_permuted hp hq hinv st hst] at this
  exact this.symm

/-- Forward by `p` followed by forward by the inverse of `p` reads slot `k`
of the first input. -/
theorem roundtrip_offset {p q : List Int} {shape : Shape_t} (hp : ValidAxes p shape.length)
    (hq : ValidAxes q shape.length)
    (hinv : ∀ i < shape.length, q.getD (p.getD i 0).toNat 0 = (i : Int))
    (hpos : Positive shape) {k : Nat} (hk : k < shape.prod) :
    ndi.nd2flat (ndi.coordinate shape k) (permuted q (ndi.strides (permuted p shape))) <
      shape.prod ∧
    ndi.nd2flat (ndi.coordinate (permuted p shape)
        (ndi.nd2flat (ndi.coordinate shape k) (permuted q (ndi.strides (permuted p shape)))))
      (permuted p (ndi.strides shape)) = k := by
  have hb := ndi.coordinate_in_bounds hpos hk
  have hpb := in_bounds_permuted hp hb rfl
  have e := inverse_offset hp hq hinv (ndi.coordinate shape k) (ndi.strides (permuted p shape))
    (ndi.coordinate_length _ _) (by rw [ndi.strides_length, permuted_length, hp.1])
  rw [e]
  refine ⟨by rw [← permuted_prod hp shape rfl]; exact ndi.nd2flat_lt hpb, ?_⟩
  rw [ndi.coordinate_nd2flat hpb,
    nd2flat_permuted hp _ _ (ndi.coordinate_length _ _) (ndi.strides_length _)]
  exact ndi.nd2flat_coordinate hpos k hk

/-- Two buffers of the same length that agree slot for slot are equal. -/
theorem buffer_ext {α : Type} {a b : List α} {n : Nat} (ha : a.length = n) (hb : b.length = n)
    (h : ∀ k < n, a[k]? = b[k]?) : a = b := by
  apply List.ext_getElem?
  intro k
  by_cases hk : k < n
  · exact h k hk
  · rw [List.getElem?_eq_none (by omega), List.getElem?_eq_none (by omega)]

/-! ## The identity permutation -/

theorem identity_getD {r i : Nat} (hi : i < r) :
    ((List.range r).map (fun (j : Nat) => (j : Int))).getD i 0 = (i : Int) := by
  simp [List.getElem?_range hi, hi]

theorem identity_valid (r : Nat) : ValidAxes ((List.range r).map (fun (j : Nat) => (j : Int))) r := by
  refine ⟨by simp, ?_, ?_⟩
  · intro a ha
    obtain ⟨n, hn, rfl⟩ := List.mem_map.mp ha
    have := List.mem_range.mp hn
    omega
  · refine List.Nodup.map_on ?_ (List.nodup_range r)
    intro a _ b _ hab
    exact Int.ofNat.inj hab

theorem permuted_identity (v : List Nat) :
    permuted ((List.range v.length).map (fun (j : Nat) => (j : Int))) v = v := by
  apply ext_getD (by simp [permuted_length]) rfl
  intro i hi
  rw [permuted_getD (identity_valid v.length) _ hi, identity_getD hi, Int.toNat_ofNat]

/-! ## When setup fails -/

theorem check_duplicated_ok_iff (axes_ : List Int) (i : Nat) (l : List Nat) :
    check_duplicated axes_ i l = .ok () ↔ ∀ i2 ∈ l, axes_.getD i 0 ≠ axes_.getD i2 0 := by
  induction l with
  | nil => simp [check_duplicated]
  | cons i2 rest ih =>
    by_cases hne : axes_.getD i 0 = axes_.getD i2 0
    · simp [check_duplicated, hne, -List.getD_eq_getElem?_getD]
    · simp only [check_duplicated, ne_eq, hne, not_false_eq_true, if_true, ih, List.mem_cons,
        forall_eq_or_imp, true_and]

theorem setup_loop_ok_imp (axes_ : List Int) (x_shape : Shape_t) (is : List Nat)
    (shape sh : Shape_t) (h : setup_loop axes_ x_shape is shape = .ok sh) :
    ∀ i ∈ is, to_size_t (axes_.getD i 0) < x_shape.length ∧
      ∀ i2 < i, axes_.getD i 0 ≠ axes_.getD i2 0 := by
  induction is generalizing shape with
  | nil => simp
  | cons i rest ih =>
    by_cases hb : to_size_t (axes_.getD i 0) < x_shape.length
    · simp only [setup_loop, hb, if_true] at h
      cases hc : check_duplicated axes_ i (List.range i) with
      | error e => simp [hc] at h
      | ok u =>
        simp only [hc] at h
        intro j hj
        rcases List.mem_cons.mp hj with rfl | hmem
        · exact ⟨hb, fun i2 hi2 =>
            (check_duplicated_ok_iff axes_ j (List.range j)).mp hc i2 (List.mem_range.mpr hi2)⟩
        · exact ih _ h j hmem
    · simp [setup_loop, hb, -List.getD_eq_getElem?_getD] at h

theorem setup_loop_append (axes_ : List Int) (x_shape : Shape_t) (l1 l2 : List Nat)
    (shape : Shape_t) :
    setup_loop axes_ x_shape (l1 ++ l2) shape =
      match setup_loop axes_ x_shape l1 shape with
      | .ok sh => setup_loop axes_ x_shape l2 sh
      | .error e => .error e := by
  induction l1 generalizing shape with
  | nil => rfl
  | cons i rest ih =>
    by_cases hb : to_size_t (axes_.getD i 0) < x_shape.length
    · simp only [List.cons_append, setup_loop, hb, if_true]
      cases hc : check_duplicated axes_ i (List.range i) with
      | error e' => rfl
      | ok u => exact ih _
    · simp [setup_loop, hb, -List.getD_eq_getElem?_getD]

theorem range_split {i r : Nat} (hi : i < r) :
    ∃ rest, List.range r = List.range i ++ i :: rest := by
  induction r with
  | zero => omega
  | succ r ih =>
    rw [List.range_succ]
    by_cases hir : i = r
    · subst hir; exact ⟨[], rfl⟩
    · obtain ⟨rest, hrest⟩ := ih (by omega)
      exact ⟨rest ++ [r], by rw [hrest]; simp⟩

/-- The validation loop reaches position `i` when every earlier position
passes both checks. -/
theorem setup_loop_reaches (axes_ : List Int) (x_shape : Shape_t) {i r : Nat} (hi : i < r)
    (shape : Shape_t)
    (hpre : ∀ j < i, to_size_t (axes_.getD j 0) < x_shape.length ∧
      ∀ j2 < j, axes_.getD j 0 ≠ axes_.getD j2 0) :
    ∃ rest sh, setup_loop axes_ x_shape (List.range r) shape =
      setup_loop axes_ x_shape (i :: rest) sh := by
  obtain ⟨rest, hrest⟩ := range_split hi
  refine ⟨rest, scatter id (fun i => x_shape.getD (to_size_t (axes_.getD i 0)) 0)
    (List.range i) shape, ?_⟩
  rw [hrest, setup_loop_append,
    setup_loop_eq axes_ x_shape (List.range i) shape
      (fun j hj => hpre j (List.mem_range.mp hj))]

theorem setup_impl_error_none_iff (self : Transpose) (inputs0 outputs0 : Variable) :
    (setup_impl self inputs0 outputs0).error = none ↔
      self.axes_.length = inputs0.ndim ∧
      ∀ i < inputs0.ndim, to_size_t (self.axes_.getD i 0) < inputs0.ndim ∧
        ∀ i2 < i, self.axes_.getD i 0 ≠ self.axes_.getD i2 0 := by
  by_cases hl : inputs0.ndim = self.axes_.length
  · cases hloop : setup_loop self.axes_ inputs0.shape (List.range inputs0.ndim)
        (List.replicate inputs0.ndim 0) with
    | error e =>
      have h1 : (setup_impl self inputs0 outputs0).error = some e := by
        simp only [setup_impl, hl, ne_eq, not_true_eq_false, if_false]
        rw [← hl, hloop]
      rw [h1]
      simp only [false_iff, not_and, reduceCtorEq]
      intro _ hall
      rw [setup_loop_eq self.axes_ inputs0.shape _ _
        (fun i hi => hall i (List.mem_range.mp hi))] at hloop
      cases hloop
    | ok sh =>
      have h1 : (setup_impl self inputs0 outputs0).error = none := by
        simp only [setup_impl, hl, ne_eq, not_true_eq_false, if_false]
        rw [← hl, hloop]
      rw [h1]
      simp only [true_iff]
      exact ⟨hl.symm, fun i hi =>
        setup_loop_ok_imp _ _ _ _ _ hloop i (List.mem_range.mpr hi)⟩
  · have h1 : (setup_impl self inputs0 outputs0).error =
        some (.ShapeMismatch inputs0.ndim self.axes_.length) := by
      simp [setup_impl, hl]
    rw [h1]
    simp only [false_iff, not_and, reduceCtorEq]
    intro h2
    exact absurd h2.symm hl

/-- A failed setup leaves the output variable and the operator as they were. -/
theorem setup_impl_error_frame (self : Transpose) (inputs0 outputs0 : Variable)
    (h : (setup_impl self inputs0 outputs0).error ≠ none) :
    (setup_impl self inputs0 outputs0).output = outputs0 ∧
    (setup_impl self inputs0 outputs0).self = self := by
  by_cases hl : inputs0.ndim = self.axes_.length
  · cases hloop : setup_loop self.axes_ inputs0.shape (List.range inputs0.ndim)
        (List.replicate inputs0.ndim 0) with
    | error e =>
      simp only [setup_impl, hl, ne_eq, not_true_eq_false, if_false]
      rw [← hl, hloop]
      exact ⟨rfl, rfl⟩
    | ok sh =>
      exfalso
      apply h
      simp only [setup_impl, hl, ne_eq, not_true_eq_false, if_false]
      rw [← hl, hloop]
  · simp [setup_impl, hl]

/-- For `int` entries and an `int` rank, passing the bound check at every
position and the duplicate scan at every position is being a valid
permutation. -/
theorem checks_iff_valid (axes : List Int) (r : Nat) (hlen : axes.length = r)
    (hint : ∀ a ∈ axes, -2 ^ 31 ≤ a ∧ a < 2 ^ 31) (hr : r < 2 ^ 31) :
    (∀ i < r, to_size_t (axes.getD i 0) < r ∧ ∀ i2 < i, axes.getD i 0 ≠ axes.getD i2 0) ↔
      ValidAxes axes r := by
  constructor
  · intro h
    refine ⟨hlen, ?_, ?_⟩
    · intro a ha
      obtain ⟨n, hn, rfl⟩ := List.mem_iff_getElem.mp ha
      have hb := (h n (by rw [← hlen]; exact hn)).1
      rw [List.getD_eq_getElem _ _ hn] at hb
      have hi := hint _ (List.getElem_mem hn)
      unfold to_size_t at hb
      split at hb <;> omega
    · rw [List.Nodup, List.pairwise_iff_getElem]
      intro i j hi hj hij heq
      have := (h j (by rw [← hlen]; exact hj)).2 i hij
      rw [List.getD_eq_getElem _ _ hi, List.getD_eq_getElem _ _ hj] at this
      exact this heq.symm
  · intro h i hi
    exact h.loop_ok i (List.mem_range.mpr hi)

/-! ## The first failing position -/

theorem nodup_of_checks {axes : List Int} {r : Nat} (hlen : axes.length = r)
    (h : ∀ i < r, ∀ i2 < i, axes.getD i 0 ≠ axes.getD i2 0) : axes.Nodup := by
  rw [List.Nodup, List.pairwise_iff_getElem]
  intro i j hi hj hij heq
  have := h j (by rw [← hlen]; exact hj) i hij
  rw [List.getD_eq_getElem _ _ hi, List.getD_eq_getElem _ _ hj] at this
  exact this heq.symm

theorem exists_least {P : Nat → Prop} (h : ∃ i, P i) : ∃ i, P i ∧ ∀ j < i, ¬ P j := by
  classical
  exact ⟨Nat.find h, Nat.find_spec h, fun j hj => Nat.find_min h hj⟩

theorem exists_first_failure (axes : List Int) (r : Nat)
    (h : ∃ i < r, ¬ passes_bound axes r i ∨ repeats axes i) :
    ∃ i, first_failure axes r i := by
  obtain ⟨i, ⟨hi, hoff⟩, hmin⟩ :=
    exists_least (P := fun i => i < r ∧ (¬ passes_bound axes r i ∨ repeats axes i)) h
  refine ⟨i, hi, fun j hj => ?_, hoff⟩
  have := hmin j hj
  simp only [not_and, not_or, not_not] at this
  exact this (by omega)

theorem check_duplicated_append (axes_ : List Int) (i : Nat) (l1 l2 : List Nat) :
    check_duplicated axes_ i (l1 ++ l2) =
      match check_duplicated axes_ i l1 with
      | .ok _ => check_duplicated axes_ i l2
      | .error e => .error e := by
  induction l1 with
  | nil => rfl
  | cons i2 rest ih =>
    by_cases hne : axes_.getD i 0 = axes_.getD i2 0
    · simp [check_duplicated, hne, -List.getD_eq_getElem?_getD]
    · simp only [List.cons_append, check_duplicated, ne_eq, hne, not_false_eq_true, if_true]
      exact ih

/-- The duplicate scan of position `i` reports the least earlier position
that holds the same entry. -/
theorem check_duplicated_first (axes_ : List Int) {i j : Nat} (hj : j < i)
    (heq : axes_.getD j 0 = axes_.getD i 0)
    (hleast : ∀ j2 < j, axes_.getD j2 0 ≠ axes_.getD i 0) :
    check_duplicated axes_ i (List.range i) =
      .error (.DuplicateAxis i (axes_.getD i 0) j (axes_.getD j 0)) := by
  obtain ⟨rest, hrest⟩ := range_split hj
  rw [hrest, check_duplicated_append,
    check_duplicated_ok axes_ i (List.range j)
      (fun j2 hj2 => (hleast j2 (List.mem_range.mp hj2)).symm)]
  simp [check_duplicated, heq, -List.getD_eq_getElem?_getD]

/-- What setup raises when position `i` is the first failing position. -/
theorem setup_impl_first_failure (self : Transpose) (inputs0 outputs0 : Variable)
    (hlen : self.axes_.length = inputs0.ndim) {i : Nat}
    (hfirst : first_failure self.axes_ inputs0.ndim i) :
    (¬ passes_bound self.axes_ inputs0.ndim i →
      (setup_impl self inputs0 outputs0).error =
        some (.InvalidAxis i (self.axes_.getD i 0) inputs0.ndim)) ∧
    (passes_bound self.axes_ inputs0.ndim i →
      ∃ j < i, self.axes_.getD j 0 = self.axes_.getD i 0 ∧
        (∀ j2 < j, self.axes_.getD j2 0 ≠ self.axes_.getD i 0) ∧
        (setup_impl self inputs0 outputs0).error =
          some (.DuplicateAxis i (self.axes_.getD i 0) j (self.axes_.getD j 0))) := by
  obtain ⟨hi, hpre, hoff⟩ := hfirst
  have hpre' : ∀ j < i, to_size_t (self.axes_.getD j 0) < inputs0.shape.length ∧
      ∀ j2 < j, self.axes_.getD j 0 ≠ self.axes_.getD j2 0 := by
    intro j hj
    obtain ⟨hb, hr⟩ := hpre j hj
    exact ⟨hb, fun j2 hj2 heq => hr ⟨j2, hj2, heq.symm⟩⟩
  obtain ⟨rest, sh, hreach⟩ := setup_loop_reaches self.axes_ inputs0.shape hi
    (List.replicate inputs0.ndim 0) hpre'
  have herr : ∀ e, setup_loop self.axes_ inputs0.shape (i :: rest) sh = .error e →
      (setup_impl self inputs0 outputs0).error = some e := by
    intro e he
    simp only [setup_impl, hlen, ne_eq, not_true_eq_false, if_false]
    rw [hreach, he]
  constructor
  · intro hb
    apply herr
    have hb' : ¬ to_size_t (self.axes_.getD i 0) < inputs0.shape.length := hb
    simp only [setup_loop, hb', if_false]
    rfl
  · intro hb
    have hrep : repeats self.axes_ i := hoff.resolve_left (fun h => h hb)
    obtain ⟨j, ⟨hj, heq⟩, hmin⟩ :=
      exists_least (P := fun j => j < i ∧ self.axes_.getD j 0 = self.axes_.getD i 0) hrep
    have hleast : ∀ j2 < j, self.axes_.getD j2 0 ≠ self.axes_.getD i 0 := by
      intro j2 hj2 h2
      exact hmin j2 hj2 ⟨by omega, h2⟩
    refine ⟨j, hj, heq, hleast, herr _ ?_⟩
    have hb' : to_size_t (self.axes_.getD i 0) < inputs0.shape.length := hb
    simp only [setup_loop, hb', if_true, check_duplicated_first self.axes_ hj heq hleast]

theorem y2x_flat_lt {axes : List Int} {shape : Shape_t} (h : ValidAxes axes shape.length)
    (hpos : Positive shape) {k : Nat} (hk : k < shape.prod) :
    y2x_flat axes shape k < shape.prod := by
  have hk' : k < (permuted axes shape).prod := by rw [permuted_prod h _ rfl]; exact hk
  exact y2x_offset_lt h (ndi.coordinate_in_bounds (permuted_positive h rfl hpos) hk')

theorem x2y_flat_lt {axes : List Int} {shape : Shape_t} (h : ValidAxes axes shape.length)
    (hpos : Positive shape) {m : Nat} (hm : m < shape.prod) :
    x2y_flat axes shape m < shape.prod := by
  have := ndi.nd2flat_lt (in_bounds_permuted h (ndi.coordinate_in_bounds hpos hm) rfl)
  rw [permuted_prod h _ rfl] at this
  exact this

theorem x2y_y2x {axes : List Int} {shape : Shape_t} (h : ValidAxes axes shape.length)
    (hpos : Positive shape) {k : Nat} (hk : k < shape.prod) :
    x2y_flat axes shape (y2x_flat axes shape k) = k := by
  have hypos := permuted_positive h rfl hpos
  have hk' : k < (permuted axes shape).prod := by rw [permuted_prod h _ rfl]; exact hk
  have hb := ndi.coordinate_in_bounds hypos hk'
  have hbu := in_bounds_unpermuted h rfl hb
  unfold x2y_flat y2x_flat
  rw [y2x_offset h hb, ndi.coordinate_nd2flat hbu,
    permuted_unpermuted h _ (by rw [ndi.coordinate_length, permuted_length, h.1]),
    ndi.nd2flat_coordinate hypos k hk']

theorem y2x_x2y {axes : List Int} {shape : Shape_t} (h : ValidAxes axes shape.length)
    (hpos : Positive shape) {m : Nat} (hm : m < shape.prod) :
    y2x_flat axes shape (x2y_flat axes shape m) = m := by
  have hb := ndi.coordinate_in_bounds hpos hm
  have hpb := in_bounds_permuted h hb rfl
  unfold x2y_flat y2x_flat
  rw [ndi.coordinate_nd2flat hpb,
    nd2flat_permuted h _ _ (ndi.coordinate_length _ _) (ndi.strides_length _)]
  exact ndi.nd2flat_coordinate hpos m hm

theorem y2x_flat_perm {axes : List Int} {shape : Shape_t} (h : ValidAxes axes shape.length)
    (hpos : Positive shape) :
    ((List.range shape.prod).map (y2x_flat axes shape)).Perm (List.range shape.prod) := by
  have hnd : ((List.range shape.prod).map (y2x_flat axes shape)).Nodup := by
    refine List.Nodup.map_on ?_ (List.nodup_range _)
    intro a ha b hb hab
    have e := x2y_y2x h hpos (List.mem_range.mp ha)
    rw [hab, x2y_y2x h hpos (List.mem_range.mp hb)] at e
    exact e.symm
  have hsub : (List.range shape.prod).map (y2x_flat axes shape) ⊆ List.range shape.prod := by
    intro j hj
    obtain ⟨k, hk, rfl⟩ := List.mem_map.mp hj
    exact List.mem_range.mpr (y2x_flat_lt h hpos (List.mem_range.mp hk))
  exact (List.subperm_of_subset hnd hsub).perm_of_length_le (by simp)

/-- A buffer of `n` slots whose slot `k` holds `f k` is the list of the `f k`. -/
theorem eq_map_range {α : Type} {a : List α} {n : Nat} (f : Nat → α) (ha : a.length = n)
    (h : ∀ k < n, a[k]? = some (f k)) : a = (List.range n).map f := by
  apply buffer_ext ha (by simp)
  intro k hk
  rw [h k hk]
  simp [List.getElem?_range hk, hk]

/-- Forward on an empty input buffer: the first pass of the loop body reads
outside the buffer. -/
theorem forward_impl_empty {α : Type} (self : Transpose) (inputs0 outputs0 : Variable)
    (y_data : List α) (fuel : Nat) (h : ValidAxes self.axes_ inputs0.shape.length) :
    forward_impl self inputs0 outputs0 ([] : List α) y_data (fuel + 1) =
      .error .out_of_range := by
  have hloop := y2x_loop_eq self.axes_ inputs0.strides (List.range inputs0.shape.length)
    (List.replicate inputs0.shape.length 0) (by
      intro i hi
      have hi' := List.mem_range.mp hi
      refine ⟨by rw [h.1]; exact hi', ?_, by simpa using hi'⟩
      rw [Variable.strides, ndi.strides_length]
      exact (h.loop_ok i hi).1)
  simp only [forward_impl, Variable.ndim, hloop, do_while, List.getElem?_nil]

theorem getElem?_eq_some_getD {α : Type} (a : List α) (d : α) {k : Nat} (hk : k < a.length) :
    a[k]? = some (a.getD k d) := by
  rw [List.getD_eq_getElem _ _ hk]; exact List.getElem?_eq_getElem hk

/-- Forward, in terms of the offset map `y2x_flat`. -/
theorem forward_impl_flat {α : Type} (self : Transpose) (inputs0 : Variable)
    (x_data y_data : List α) (fuel : Nat)
    (h : ValidAxes self.axes_ inputs0.shape.length) (hpos : Positive inputs0.shape)
    (hx : x_data.length = inputs0.shape.prod) (hyd : y_data.length = inputs0.shape.prod)
    (hfuel : inputs0.shape.prod ≤ fuel) (hsize : inputs0.shape.prod < 2 ^ 31) :
    ∃ out, forward_impl self inputs0 ⟨permuted self.axes_ inputs0.shape⟩ x_data y_data fuel
        = .ok out ∧
      out.length = inputs0.shape.prod ∧
      ∀ k < inputs0.shape.prod, out[k]? = x_data[y2x_flat self.axes_ inputs0.shape k]? :=
  forward_impl_spec self inputs0 ⟨permuted self.axes_ inputs0.shape⟩ x_data y_data fuel h hpos
    rfl hx hyd hfuel hsize

/-- Backward, in terms of the offset map `x2y_flat`. -/
theorem backward_impl_flat {α : Type} [Add α] (self : Transpose) (inputs0 : Variable)
    (accum : Bool) (x_grad y_grad : List α) (fuel : Nat)
    (h : ValidAxes self.axes_ inputs0.shape.length) (hpos : Positive inputs0.shape)
    (hx : x_grad.length = inputs0.shape.prod) (hyg : y_grad.length = inputs0.shape.prod)
    (hfuel : inputs0.shape.prod ≤ fuel) (hsize : inputs0.shape.prod < 2 ^ 31) :
    ∃ res, backward_impl self inputs0 ⟨permuted self.axes_ inputs0.shape⟩ true accum
        x_grad y_grad fuel = .ok res ∧
      res.length = inputs0.shape.prod ∧
      ∀ k < inputs0.shape.prod, ∃ old v,
        x_grad[k]? = some old ∧
        y_grad[x2y_flat self.axes_ inputs0.shape k]? = some v ∧
        res[k]? = some (if accum then old + v else v) :=
  backward_impl_spec self inputs0 ⟨permuted self.axes_ inputs0.shape⟩ accum x_grad y_grad fuel
    h hpos rfl hx hyg hfuel hsize

theorem zipWith_mul_map_range {α : Type} [Mul α] (l : List Nat) (fa fb : Nat → α) :
    List.zipWith (fun a b => a * b) (l.map fa) (l.map fb) = l.map (fun k => fa k * fb k) := by
  induction l with
  | nil => rfl
  | cons a rest ih => simp [ih]

/-! ## The cached metadata -/

theorem resize_length (v : List Int) (ndim : Nat) : (resize v ndim).length = ndim := by
  simp only [resize, List.length_append, List.length_take, List.length_replicate]
  omega

theorem metadata_loop_eq (axes_ : List Int) (inputs0 outputs0 : Variable) (is : List Nat)
    (a b c d : List Int) :
    metadata_loop axes_ inputs0 outputs0 is (a, b, c, d) =
      (scatter id (fun i => axes_.getD i 0) is a,
       scatter id (fun i => ((inputs0.strides.getD i 0 : Nat) : Int)) is b,
       scatter id (fun i => ((outputs0.strides.getD i 0 : Nat) : Int)) is c,
       scatter id (fun i => ((outputs0.shape.getD i 0 : Nat) : Int)) is d) := by
  induction is generalizing a b c d with
  | nil => rfl
  | cons i rest ih =>
    simp only [metadata_loop, ih]
    simp [scatter]

theorem map_range_getD_cast (v : List Nat) :
    (List.range v.length).map (fun i => ((v.getD i 0 : Nat) : Int)) =
      v.map (fun (n : Nat) => (n : Int)) := by
  conv_rhs => rw [← range_map_getD v]
  rw [List.map_map]
  rfl

/-- The operator that a successful setup leaves: the four arrays hold the
axes, the input strides, the output strides and the output shape. -/
theorem setup_impl_metadata (self : Transpose) (inputs0 outputs0 : Variable)
    (h : ValidAxes self.axes_ inputs0.shape.length) :
    (setup_impl self inputs0 outputs0).self =
      { axes_ := self.axes_,
        v_axes_ := self.axes_,
        v_x_strides_ := (ndi.strides inputs0.shape).map (fun (n : Nat) => (n : Int)),
        v_y_strides_ :=
          (ndi.strides (permuted self.axes_ inputs0.shape)).map (fun (n : Nat) => (n : Int)),
        v_y_shape_ := (permuted self.axes_ inputs0.shape).map (fun (n : Nat) => (n : Int)) } := by
  have hl : inputs0.ndim = self.axes_.length := h.1.symm
  have hloop := setup_loop_eq self.axes_ inputs0.shape (List.range inputs0.shape.length)
    (List.replicate inputs0.shape.length 0) h.loop_ok
  rw [scatter_id_range _ _ _ (by simp), permuted_eq_map_range h] at hloop
  have hylen : (permuted self.axes_ inputs0.shape).length = inputs0.shape.length := by
    rw [permuted_length, h.1]
  have e1 : (List.range inputs0.shape.length).map (fun i => self.axes_.getD i 0) = self.axes_ :=
    (eq_map_range _ h.1 (fun k hk => getElem?_eq_some_getD _ 0 (by rw [h.1]; exact hk))).symm
  have e2 := map_range_getD_cast (ndi.strides inputs0.shape)
  have e3 := map_range_getD_cast (ndi.strides (permuted self.axes_ inputs0.shape))
  have e4 := map_range_getD_cast (permuted self.axes_ inputs0.shape)
  rw [ndi.strides_length] at e2
  rw [ndi.strides_length, hylen] at e3
  rw [hylen] at e4
  simp only [setup_impl, hl, ne_eq, not_true_eq_false, if_false]
  rw [← hl]
  simp only [Variable.ndim, hloop, Variable.reshape, metadata_loop_eq, Variable.strides,
    scatter_id_range _ _ _ (resize_length _ _), e1, e2, e3, e4]

/-! ## The number of passes of the copy loop -/

/-- Started at the `k`-th coordinate with the counter at `k`, the copy loop
is cut short by any fuel below both `N - k` and `2^31 - k`. -/
theorem do_while_out_of_fuel {α : Type} (store : α → α → α) (src : List α)
    (strides : List Nat) {shape : Shape_t} (hpos : Positive shape)
    (hsrc : ∀ j < shape.prod, ndi.nd2flat (ndi.coordinate shape j) strides < src.length)
    (fuel k : Nat) (dst : List α) (hk : k < shape.prod) (hfuel : fuel < shape.prod - k)
    (hcount : fuel < 2 ^ 31 - k) (hdst : dst.length = shape.prod) :
    do_while store src strides shape fuel (ndi.coordinate shape k) k dst
      = .error .out_of_fuel := by
  induction fuel generalizing k dst with
  | zero => rfl
  | succ fuel ih =>
    obtain ⟨v, hv⟩ : ∃ v, src[ndi.nd2flat (ndi.coordinate shape k) strides]? = some v :=
      ⟨_, List.getElem?_eq_getElem (hsrc k hk)⟩
    obtain ⟨old, hold⟩ : ∃ old, dst[k]? = some old :=
      ⟨_, List.getElem?_eq_getElem (by omega)⟩
    have hnext : k + 1 < shape.prod := by omega
    have hint : k + 1 < 2 ^ 31 := by omega
    simp only [do_while, hv, hold, hint, if_true, ndi.increment_coordinate hpos k hk, hnext]
    exact ih (k + 1) _ hnext (by omega) (by omega) (by simp [hdst])

/-- Over `2^31` or more elements the copy loop reaches the pass whose `i++`
leaves the range of `int`: with fuel for `2^31 - k` passes it ends there. -/
theorem do_while_overflow {α : Type} (store : α → α → α) (src : List α)
    (strides : List Nat) {shape : Shape_t} (hpos : Positive shape)
    (hsrc : ∀ j < shape.prod, ndi.nd2flat (ndi.coordinate shape j) strides < src.length)
    (hbig : 2 ^ 31 ≤ shape.prod)
    (fuel k : Nat) (dst : List α) (hk : k < 2 ^ 31) (hfuel : 2 ^ 31 - k ≤ fuel)
    (hdst : dst.length = shape.prod) :
    do_while store src strides shape fuel (ndi.coordinate shape k) k dst
      = .error .int_overflow := by
  induction fuel generalizing k dst with
  | zero => omega
  | succ fuel ih =>
    have hkN : k < shape.prod := by omega
    obtain ⟨v, hv⟩ : ∃ v, src[ndi.nd2flat (ndi.coordinate shape k) strides]? = some v :=
      ⟨_, List.getElem?_eq_getElem (hsrc k hkN)⟩
    obtain ⟨old, hold⟩ : ∃ old, dst[k]? = some old :=
      ⟨_, List.getElem?_eq_getElem (by omega)⟩
    by_cases hint : k + 1 < 2 ^ 31
    · have hnext : k + 1 < shape.prod := by omega
      simp only [do_while, hv, hold, hint, if_true, ndi.increment_coordinate hpos k hkN, hnext]
      exact ih (k + 1) _ hint (by omega) (by simp [hdst])
    · simp only [do_while, hv, hold, hint, if_false]

theorem y2x_loop_ok {axes : List Int} {shape : Shape_t} (h : ValidAxes axes shape.length) :
    y2x_loop axes (ndi.strides shape) (List.range shape.length)
      (List.replicate shape.length 0) = .ok (permuted axes (ndi.strides shape)) := by
  have hloop := y2x_loop_eq axes (ndi.strides shape) (List.range shape.length)
    (List.replicate shape.length 0) (by
      intro i hi
      have hi' := List.mem_range.mp hi
      refine ⟨by rw [h.1]; exact hi', ?_, by simpa using hi'⟩
      rw [ndi.strides_length]
      exact (h.loop_ok i hi).1)
  rw [scatter_id_range _ _ _ (by simp), permuted_eq_map_range h] at hloop
  exact hloop

theorem x2y_loop_ok {axes : List Int} {shape : Shape_t} (h : ValidAxes axes shape.length) :
    x2y_loop axes (ndi.strides (permuted axes shape)) (List.range shape.length)
      (List.replicate shape.length 0) =
      .ok (scatter (fun i => to_size_t (axes.getD i 0))
        (fun i => (ndi.strides (permuted axes shape)).getD i 0)
        (List.range shape.length) (List.replicate shape.length 0)) := by
  apply x2y_loop_eq
  intro i hi
  have hi' := List.mem_range.mp hi
  refine ⟨by rw [h.1]; exact hi', ?_, ?_⟩
  · rw [ndi.strides_length, permuted_length, h.1]; exact hi'
  · simpa using (h.loop_ok i hi).1

theorem forward_src_in_range {α : Type} (self : Transpose) (inputs0 : Variable)
    (x_data : List α) (h : ValidAxes self.axes_ inputs0.shape.length)
    (hpos : Positive inputs0.shape) (hx : x_data.length = inputs0.shape.prod) :
    ∀ j < (permuted self.axes_ inputs0.shape).prod,
      ndi.nd2flat (ndi.coordinate (permuted self.axes_ inputs0.shape) j)
        (permuted self.axes_ (ndi.strides inputs0.shape)) < x_data.length := by
  intro j hj
  rw [hx]
  exact y2x_offset_lt h (ndi.coordinate_in_bounds (permuted_positive h rfl hpos) hj)

theorem backward_src_in_range {α : Type} (self : Transpose) (inputs0 : Variable)
    (y_grad : List α) (h : ValidAxes self.axes_ inputs0.shape.length)
    (hpos : Positive inputs0.shape) (hyg : y_grad.length = inputs0.shape.prod) :
    ∀ j < inputs0.shape.prod,
      ndi.nd2flat (ndi.coordinate inputs0.shape j)
        (scatter (fun i => to_size_t (self.axes_.getD i 0))
          (fun i => (ndi.strides (permuted self.axes_ inputs0.shape)).getD i 0)
          (List.range inputs0.shape.length) (List.replicate inputs0.shape.length 0))
        < y_grad.length := by
  intro j hj
  rw [x2y_offset h _ (ndi.coordinate_length _ _), hyg]
  exact x2y_flat_lt h hpos hj

theorem forward_impl_out_of_fuel {α : Type} (self : Transpose) (inputs0 : Variable)
    (x_data y_data : List α) (fuel : Nat)
    (h : ValidAxes self.axes_ inputs0.shape.length) (hpos : Positive inputs0.shape)
    (hx : x_data.length = inputs0.shape.prod) (hyd : y_data.length = inputs0.shape.prod)
    (hfuel : fuel < inputs0.shape.prod) (hcount : fuel < 2 ^ 31) :
    forward_impl self inputs0 ⟨permuted self.axes_ inputs0.shape⟩ x_data y_data fuel
      = .error .out_of_fuel := by
  have hprod : (permuted self.axes_ inputs0.shape).prod = inputs0.shape.prod :=
    permuted_prod h _ rfl
  have hypos : Positive (permuted self.axes_ inputs0.shape) := permuted_positive h rfl hpos
  have := do_while_out_of_fuel (fun _ v => v) x_data
    (permuted self.axes_ (ndi.strides inputs0.shape)) hypos
    (forward_src_in_range self inputs0 x_data h hpos hx) fuel 0 y_data
    hypos.prod_pos (by omega) (by omega) (by rw [hyd, hprod])
  rw [ndi.coordinate_zero, permuted_length, h.1] at this
  simp only [forward_impl, Variable.ndim, Variable.strides, y2x_loop_ok h, ndi.make_index]
  exact this

/-- Forward over `2^31` or more elements ends in the overflow of its counter. -/
theorem forward_impl_overflow {α : Type} (self : Transpose) (inputs0 : Variable)
    (x_data y_data : List α) (fuel : Nat)
    (h : ValidAxes self.axes_ inputs0.shape.length) (hpos : Positive inputs0.shape)
    (hx : x_data.length = inputs0.shape.prod) (hyd : y_data.length = inputs0.shape.prod)
    (hbig : 2 ^ 31 ≤ inputs0.shape.prod) (hfuel : 2 ^ 31 ≤ fuel) :
    forward_impl self inputs0 ⟨permuted self.axes_ inputs0.shape⟩ x_data y_data fuel
      = .error .int_overflow := by
  have hprod : (permuted self.axes_ inputs0.shape).prod = inputs0.shape.prod :=
    permuted_prod h _ rfl
  have hypos : Positive (permuted self.axes_ inputs0.shape) := permuted_positive h rfl hpos
  have := do_while_overflow (fun _ v => v) x_data
    (permuted self.axes_ (ndi.strides inputs0.shape)) hypos
    (forward_src_in_range self inputs0 x_data h hpos hx) (by rw [hprod]; exact hbig) fuel 0
    y_data (by omega) (by omega) (by rw [hyd, hprod])
  rw [ndi.coordinate_zero, permuted_length, h.1] at this
  simp only [forward_impl, Variable.ndim, Variable.strides, y2x_loop_ok h, ndi.make_index]
  exact this

theorem backward_impl_out_of_fuel {α : Type} [Add α] (self : Transpose) (inputs0 : Variable)
    (accum : Bool) (x_grad y_grad : List α) (fuel : Nat)
    (h : ValidAxes self.axes_ inputs0.shape.length) (hpos : Positive inputs0.shape)
    (hx : x_grad.length = inputs0.shape.prod) (hyg : y_grad.length = inputs0.shape.prod)
    (hfuel : fuel < inputs0.shape.prod) (hcount : fuel < 2 ^ 31) :
    backward_impl self inputs0 ⟨permuted self.axes_ inputs0.shape⟩ true accum x_grad y_grad fuel
      = .error .out_of_fuel := by
  have key := fun store : α → α → α => do_while_out_of_fuel store y_grad _ hpos
    (backward_src_in_range self inputs0 y_grad h hpos hyg) fuel 0
    x_grad hpos.prod_pos (by omega) (by omega) hx
  simp only [ndi.coordinate_zero] at key
  cases accum with
  | true =>
    simp only [backward_impl, Variable.ndim, Variable.strides, x2y_loop_ok h, ndi.make_index]
    simpa using key (fun old v => old + v)
  | false =>
    simp only [backward_impl, Variable.ndim, Variable.strides, x2y_loop_ok h, ndi.make_index]
    simpa using key (fun _ v => v)

/-- Backward over `2^31` or more elements ends in the overflow of its counter,
with either value of the accumulate flag. -/
theorem backward_impl_overflow {α : Type} [Add α] (self : Transpose) (inputs0 : Variable)
    (accum : Bool) (x_grad y_grad : List α) (fuel : Nat)
    (h : ValidAxes self.axes_ inputs0.shape.length) (hpos : Positive inputs0.shape)
    (hx : x_grad.length = inputs0.shape.prod) (hyg : y_grad.length = inputs0.shape.prod)
    (hbig : 2 ^ 31 ≤ inputs0.shape.prod) (hfuel : 2 ^ 31 ≤ fuel) :
    backward_impl self inputs0 ⟨permuted self.axes_ inputs0.shape⟩ true accum x_grad y_grad fuel
      = .error .int_overflow := by
  have key := fun store : α → α → α => do_while_overflow store y_grad _ hpos
    (backward_src_in_range self inputs0 y_grad h hpos hyg) hbig fuel 0
    x_grad (by omega) (by omega) hx
  simp only [ndi.coordinate_zero] at key
  cases accum with
  | true =>
    simp only [backward_impl, Variable.ndim, Variable.strides, x2y_loop_ok h, ndi.make_index]
    simpa using key (fun old v => old + v)
  | false =>
    simp only [backward_impl, Variable.ndim, Variable.strides, x2y_loop_ok h, ndi.make_index]
    simpa using key (fun _ v => v)

theorem assigned_slots_perm {axes : List Int} {r : Nat} (h : ValidAxes axes r) :
    ((List.range r).map (fun i => to_size_t (axes.getD i 0))).Perm (List.range r) := by
  have e : axes.map Int.toNat = (List.range r).map (fun i => to_size_t (axes.getD i 0)) := by
    apply eq_map_range _ (by simp [h.1])
    intro k hk
    have hkl : k < axes.length := by rw [h.1]; exact hk
    have hb := h.getD_bounds hk
    rw [to_size_t_of_nonneg hb.1]
    simp [hkl]
  rw [← e]
  exact h.perm

/-! ## The counter of the copy loops -/

theorem setup_output_size (self : Transpose) (inputs0 outputs0 : Variable)
    (h : ValidAxes self.axes_ inputs0.ndim) :
    (setup_impl self inputs0 outputs0).output.size = inputs0.size := by
  rw [(setup_impl_ok self inputs0 outputs0 h).2.1]
  exact permuted_prod h _ rfl

/-- After setup, forward over `2^31` or more elements ends in the overflow of
its `int` counter, whatever fuel covers the elements. -/
theorem forward_after_setup_overflow {α : Type} (self : Transpose)
    (inputs0 outputs0 : Variable) (x_data y_data : List α) (fuel : Nat)
    (hpos : Positive inputs0.shape) (h : ValidAxes self.axes_ inputs0.ndim)
    (hx : x_data.length = inputs0.size)
    (hyd : y_data.length = (setup_impl self inputs0 outputs0).output.size)
    (hbig : 2 ^ 31 ≤ inputs0.size) (hfuel : inputs0.size ≤ fuel) :
    forward_impl (setup_impl self inputs0 outputs0).self inputs0
      (setup_impl self inputs0 outputs0).output x_data y_data fuel = .error .int_overflow := by
  rw [setup_output_size self inputs0 outputs0 h] at hyd
  obtain ⟨-, hout, haxes⟩ := setup_impl_ok self inputs0 outputs0 h
  have := forward_impl_overflow (setup_impl self inputs0 outputs0).self inputs0 x_data y_data
    fuel (by rw [haxes]; exact h) hpos hx hyd hbig (le_trans hbig hfuel)
  rw [haxes] at this
  rw [hout]
  exact this

/-- After setup, backward over `2^31` or more elements ends in the overflow of
its `int` counter, with either value of the accumulate flag. -/
theorem backward_after_setup_overflow {α : Type} [Add α] (self : Transpose)
    (inputs0 outputs0 : Variable) (accum : Bool) (x_grad y_grad : List α) (fuel : Nat)
    (hpos : Positive inputs0.shape) (h : ValidAxes self.axes_ inputs0.ndim)
    (hx : x_grad.length = inputs0.size)
    (hyg : y_grad.length = (setup_impl self inputs0 outputs0).output.size)
    (hbig : 2 ^ 31 ≤ inputs0.size) (hfuel : inputs0.size ≤ fuel) :
    backward_impl (setup_impl self inputs0 outputs0).self inputs0
      (setup_impl self inputs0 outputs0).output true accum x_grad y_grad fuel
      = .error .int_overflow := by
  rw [setup_output_size self inputs0 outputs0 h] at hyg
  obtain ⟨-, hout, haxes⟩ := setup_impl_ok self inputs0 outputs0 h
  have := backward_impl_overflow (setup_impl self inputs0 outputs0).self inputs0 accum
    x_grad y_grad fuel (by rw [haxes]; exact h) hpos hx hyg hbig (le_trans hbig hfuel)
  rw [haxes] at this
  rw [hout]
  exact this

/-! ## The contract -/

/-- C1, what the code does: for an input with positive extents and a valid
permutation of its axes, setup succeeds. If the input has fewer than `2^31`
elements, forward returns an output buffer `out` such that, for every output
coordinate `y` inside the output shape, there is exactly one input coordinate
`x` with `x[p[i]] = y[i]` for all `i`, it lies inside the input shape, and
`out[y] = input[x]`; and the `k`-th slot of `out` holds
`x_data[sum_i y_i * input.strides[p[i]]]` for the `k`-th row-major coordinate
`y` of the output shape. If the input has `2^31` elements or more, forward
does not return an output: its `int` slot counter overflows. -/
theorem forward_gathers_permuted {α : Type} (self : Transpose) (inputs0 outputs0 : Variable)
    (x_data y_data : List α) (fuel : Nat)
    (hpos : Positive inputs0.shape) (h : ValidAxes self.axes_ inputs0.ndim)
    (hx : x_data.length = inputs0.size)
    (hyd : y_data.length = (setup_impl self inputs0 outputs0).output.size)
    (hfuel : inputs0.size ≤ fuel) :
    (setup_impl self inputs0 outputs0).error = none ∧
    (inputs0.size < 2 ^ 31 →
      ∃ out, forward_impl (setup_impl self inputs0 outputs0).self inputs0
          (setup_impl self inputs0 outputs0).output x_data y_data fuel = .ok out ∧
        out.length = inputs0.size ∧
        (∀ y, ndi.in_bounds y (setup_impl self inputs0 outputs0).output.shape →
          ∃ x, ndi.in_bounds x inputs0.shape ∧
            (∀ i < inputs0.ndim, x.getD (self.axes_.getD i 0).toNat 0 = y.getD i 0) ∧
            (∀ x', x'.length = inputs0.ndim →
              (∀ i < inputs0.ndim, x'.getD (self.axes_.getD i 0).toNat 0 = y.getD i 0) →
              x' = x) ∧
            ∃ v, out[ndi.nd2flat y (setup_impl self inputs0 outputs0).output.strides]? = some v ∧
              x_data[ndi.nd2flat x inputs0.strides]? = some v) ∧
        (∀ k < inputs0.size, ∃ v, out[k]? = some v ∧
          x_data[ndi.nd2flat (ndi.coordinate (setup_impl self inputs0 outputs0).output.shape k)
            (permuted self.axes_ inputs0.strides)]? = some v)) ∧
    (2 ^ 31 ≤ inputs0.size →
      forward_impl (setup_impl self inputs0 outputs0).self inputs0
        (setup_impl self inputs0 outputs0).output x_data y_data fuel = .error .int_overflow) := by
  obtain ⟨herr, hout, haxes⟩ := setup_impl_ok self inputs0 outputs0 h
  have hax : ValidAxes (setup_impl self inputs0 outputs0).self.axes_ inputs0.shape.length := by
    rw [haxes]; exact h
  have hprod : (permuted self.axes_ inputs0.shape).prod = inputs0.shape.prod :=
    permuted_prod h _ rfl
  have hypos : Positive (permuted self.axes_ inputs0.shape) := permuted_positive h rfl hpos
  rw [hout] at hyd ⊢
  simp only [Variable.size, Variable.ndim] at hx hyd hfuel ⊢
  rw [hprod] at hyd
  refine ⟨herr, fun hsize => ?_, fun hbig => ?_⟩
  swap
  · have := forward_impl_overflow (setup_impl self inputs0 outputs0).self inputs0 x_data y_data
      fuel hax hpos hx hyd hbig (le_trans hbig hfuel)
    rw [haxes] at this
    exact this
  obtain ⟨out, hrun, hlen, hval⟩ := forward_impl_spec (setup_impl self inputs0 outputs0).self
    inputs0 ⟨permuted self.axes_ inputs0.shape⟩ x_data y_data fuel hax hpos
    (by rw [haxes]) hx hyd hfuel hsize
  rw [haxes] at hval
  have hslot : ∀ k < inputs0.shape.prod, ∃ v, out[k]? = some v ∧
      x_data[ndi.nd2flat (ndi.coordinate (permuted self.axes_ inputs0.shape) k)
        (permuted self.axes_ inputs0.strides)]? = some v := by
    intro k hk
    obtain ⟨v, hv⟩ : ∃ v, out[k]? = some v :=
      ⟨_, List.getElem?_eq_getElem (by rw [hlen]; exact hk)⟩
    exact ⟨v, hv, by rw [← hval k hk]; exact hv⟩
  refine ⟨out, hrun, hlen, ?_, hslot⟩
  intro y hy
  have hyl : y.length = inputs0.shape.length := by
    rw [List.Forall₂.length_eq hy, permuted_length, h.1]; rfl
  have hperm : permuted self.axes_ (unpermuted self.axes_ y) = y := permuted_unpermuted h y hyl
  refine ⟨unpermuted self.axes_ y, in_bounds_unpermuted h rfl hy, ?_, ?_, ?_⟩
  · intro i hi
    rw [← permuted_getD h _ hi, hperm]
  · intro x' hx' hrel
    exact unpermuted_unique h x' y hx' hrel
  · have hk := ndi.nd2flat_lt hy
    rw [hprod] at hk
    obtain ⟨v, hv1, hv2⟩ := hslot _ hk
    refine ⟨v, hv1, ?_⟩
    rw [ndi.coordinate_nd2flat hy] at hv2
    rw [Variable.strides, ← y2x_offset h hy]
    exact hv2

/-- C1, on the example of the spec: shape `[2,3]`, data `[1,2,3,4,5,6]` and
permutation `[1,0]` give shape `[3,2]` and data `[1,4,2,5,3,6]`; and on the
shape `[2147483656]` (`2^31 + 8` elements) with permutation `[0]`, where forward
ends in the overflow of its counter. -/
theorem forward_gathers_permuted_witness :
    (setup_impl ⟨[1, 0], [], [], [], []⟩ ⟨[2, 3]⟩ ⟨[]⟩).output.shape = [3, 2] ∧
    forward_impl (setup_impl ⟨[1, 0], [], [], [], []⟩ ⟨[2, 3]⟩ ⟨[]⟩).self ⟨[2, 3]⟩
      (setup_impl ⟨[1, 0], [], [], [], []⟩ ⟨[2, 3]⟩ ⟨[]⟩).output
      [1, 2, 3, 4, 5, 6] [0, 0, 0, 0, 0, 0] 6 = .ok ([1, 4, 2, 5, 3, 6] : List Int) ∧
    (∃ out, forward_impl (setup_impl ⟨[1, 0], [], [], [], []⟩ ⟨[2, 3]⟩ ⟨[]⟩).self ⟨[2, 3]⟩
        (setup_impl ⟨[1, 0], [], [], [], []⟩ ⟨[2, 3]⟩ ⟨[]⟩).output
        [1, 2, 3, 4, 5, 6] [0, 0, 0, 0, 0, 0] 6 = .ok (out : List Int) ∧
      out.length = 6) ∧
    forward_impl (setup_impl ⟨[0], [], [], [], []⟩ ⟨[2147483656]⟩ ⟨[]⟩).self ⟨[2147483656]⟩
      (setup_impl ⟨[0], [], [], [], []⟩ ⟨[2147483656]⟩ ⟨[]⟩).output
      (List.replicate 2147483656 (0 : Int)) (List.replicate 2147483656 0) 2147483656
      = .error .int_overflow :=
  ⟨by decide, by rfl,
    ((forward_gathers_permuted ⟨[1, 0], [], [], [], []⟩ ⟨[2, 3]⟩ ⟨[]⟩
      ([1, 2, 3, 4, 5, 6] : List Int) [0, 0, 0, 0, 0, 0] 6
      (by decide) (by decide) (by decide) (by decide) (by decide)).2.1 (by decide)).imp
      (fun _ hout => ⟨hout.1, hout.2.1⟩),
    (forward_gathers_permuted ⟨[0], [], [], [], []⟩ ⟨[2147483656]⟩ ⟨[]⟩
      (List.replicate 2147483656 (0 : Int)) (List.replicate 2147483656 0) 2147483656
      (by decide) (by decide) (by rw [List.length_replicate]; decide)
      (by rw [List.length_replicate]; decide) (by decide)).2.2 (by decide)⟩

/-- C3, what the code does: for an input with positive extents, a valid
permutation `p` and its inverse `q` (`q[p[i]] = i`): if the input has fewer
than `2^31` elements, setup and forward with `p`, followed by setup and
forward with `q` on the result, give back the shape of the input and its data
buffer, element for element. If the input has `2^31` elements or more, the
first forward already does not return an output: its `int` slot counter
overflows. -/
theorem forward_round_trip {α : Type} (fp fq : Transpose) (inputs0 outputs0 outputs1 : Variable)
    (x_data y_data z_data : List α) (fuel fuel' : Nat)
    (hpos : Positive inputs0.shape) (hp : ValidAxes fp.axes_ inputs0.ndim)
    (hq : fq.axes_.length = inputs0.ndim)
    (hinv : ∀ i < inputs0.ndim, fq.axes_.getD (fp.axes_.getD i 0).toNat 0 = (i : Int))
    (hx : x_data.length = inputs0.size) (hy : y_data.length = inputs0.size)
    (hz : z_data.length = inputs0.size)
    (hfuel : inputs0.size ≤ fuel) (hfuel' : inputs0.size ≤ fuel') :
    (inputs0.size < 2 ^ 31 →
      ∃ y_out,
        (setup_impl fp inputs0 outputs0).error = none ∧
        forward_impl (setup_impl fp inputs0 outputs0).self inputs0
          (setup_impl fp inputs0 outputs0).output x_data y_data fuel = .ok y_out ∧
        (setup_impl fq (setup_impl fp inputs0 outputs0).output outputs1).error = none ∧
        (setup_impl fq (setup_impl fp inputs0 outputs0).output outputs1).output.shape
          = inputs0.shape ∧
        forward_impl (setup_impl fq (setup_impl fp inputs0 outputs0).output outputs1).self
          (setup_impl fp inputs0 outputs0).output
          (setup_impl fq (setup_impl fp inputs0 outputs0).output outputs1).output
          y_out z_data fuel' = .ok x_data) ∧
    (2 ^ 31 ≤ inputs0.size →
      forward_impl (setup_impl fp inputs0 outputs0).self inputs0
        (setup_impl fp inputs0 outputs0).output x_data y_data fuel = .error .int_overflow) := by
  refine ⟨fun hsize => ?_, fun hbig => ?_⟩
  · simp only [Variable.ndim, Variable.size] at hp hq hinv hx hy hz hfuel hfuel'
    have hqv : ValidAxes fq.axes_ inputs0.shape.length := inverse_valid hp hq hinv
    obtain ⟨herr, hout, haxes⟩ := setup_impl_ok fp inputs0 outputs0 hp
    have hylen : (permuted fp.axes_ inputs0.shape).length = inputs0.shape.length := by
      rw [permuted_length, hp.1]
    have hprod : (permuted fp.axes_ inputs0.shape).prod = inputs0.shape.prod :=
      permuted_prod hp _ rfl
    have hypos : Positive (permuted fp.axes_ inputs0.shape) := permuted_positive hp rfl hpos
    have hqv' : ValidAxes fq.axes_ (Variable.mk (permuted fp.axes_ inputs0.shape)).shape.length := by
      rw [hylen]; exact hqv
    rw [hout]
    obtain ⟨herr', hout', haxes'⟩ := setup_impl_ok fq ⟨permuted fp.axes_ inputs0.shape⟩ outputs1 hqv'
    have hback : permuted fq.axes_ (permuted fp.axes_ inputs0.shape) = inputs0.shape :=
      permuted_permuted hqv hp (inverse_right hp hinv) _ rfl
    rw [hout']
    obtain ⟨y_out, hrun, hlen, hval⟩ := forward_impl_spec (setup_impl fp inputs0 outputs0).self
      inputs0 ⟨permuted fp.axes_ inputs0.shape⟩ x_data y_data fuel (by rw [haxes]; exact hp) hpos
      (by rw [haxes]) hx hy hfuel hsize
    rw [haxes] at hval
    obtain ⟨z_out, hrun', hlen', hval'⟩ := forward_impl_spec
      (setup_impl fq ⟨permuted fp.axes_ inputs0.shape⟩ outputs1).self
      ⟨permuted fp.axes_ inputs0.shape⟩
      ⟨permuted fq.axes_ (permuted fp.axes_ inputs0.shape)⟩ y_out z_data fuel'
      (by rw [haxes']; exact hqv') hypos (by rw [haxes'])
      (by rw [hlen]; exact hprod.symm) (by rw [hz]; exact hprod.symm)
      (by simp only [hprod]; exact hfuel') (by rw [hprod]; exact hsize)
    rw [haxes'] at hval'
    simp only [hprod, hback, Variable.strides] at hval' hlen' hval
    refine ⟨y_out, herr, hrun, herr', hback, ?_⟩
    rw [hrun']
    congr 1
    apply buffer_ext hlen' hx
    intro k hk
    obtain ⟨hm, hmk⟩ := roundtrip_offset hp hqv hinv hpos hk
    rw [hval' k hk, hval _ hm, hmk]
  · exact forward_after_setup_overflow fp inputs0 outputs0 x_data y_data fuel hpos hp hx
      (by rw [setup_output_size fp inputs0 outputs0 hp]; exact hy) hbig hfuel

/-- C3, on shape `[2,3,2]` with permutation `[2,0,1]` and its inverse `[1,2,0]`;
and on the shape `[2147483656]` (`2^31 + 8` elements) with permutation `[0]`,
where the first forward ends in the overflow of its counter. -/
theorem forward_round_trip_witness :
    (∃ y_out : List Int,
      (setup_impl ⟨[2, 0, 1], [], [], [], []⟩ ⟨[2, 3, 2]⟩ ⟨[]⟩).error = none ∧
      forward_impl (setup_impl ⟨[2, 0, 1], [], [], [], []⟩ ⟨[2, 3, 2]⟩ ⟨[]⟩).self ⟨[2, 3, 2]⟩
        (setup_impl ⟨[2, 0, 1], [], [], [], []⟩ ⟨[2, 3, 2]⟩ ⟨[]⟩).output
        [10, 11, 12, 13, 14, 15, 16, 17, 18, 19, 20, 21] (List.replicate 12 0) 12 = .ok y_out ∧
      (setup_impl ⟨[1, 2, 0], [], [], [], []⟩
        (setup_impl ⟨[2, 0, 1], [], [], [], []⟩ ⟨[2, 3, 2]⟩ ⟨[]⟩).output ⟨[]⟩).error = none ∧
      (setup_impl ⟨[1, 2, 0], [], [], [], []⟩
        (setup_impl ⟨[2, 0, 1], [], [], [], []⟩ ⟨[2, 3, 2]⟩ ⟨[]⟩).output ⟨[]⟩).output.shape
        = [2, 3, 2] ∧
      forward_impl (setup_impl ⟨[1, 2, 0], [], [], [], []⟩
          (setup_impl ⟨[2, 0, 1], [], [], [], []⟩ ⟨[2, 3, 2]⟩ ⟨[]⟩).output ⟨[]⟩).self
        (setup_impl ⟨[2, 0, 1], [], [], [], []⟩ ⟨[2, 3, 2]⟩ ⟨[]⟩).output
        (setup_impl ⟨[1, 2, 0], [], [], [], []⟩
          (setup_impl ⟨[2, 0, 1], [], [], [], []⟩ ⟨[2, 3, 2]⟩ ⟨[]⟩).output ⟨[]⟩).output
        y_out (List.replicate 12 0) 12 = .ok [10, 11, 12, 13, 14, 15, 16, 17, 18, 19, 20, 21]) ∧
    forward_impl (setup_impl ⟨[0], [], [], [], []⟩ ⟨[2147483656]⟩ ⟨[]⟩).self ⟨[2147483656]⟩
      (setup_impl ⟨[0], [], [], [], []⟩ ⟨[2147483656]⟩ ⟨[]⟩).output
      (List.replicate 2147483656 (0 : Int)) (List.replicate 2147483656 0) 2147483656
      = .error .int_overflow :=
  ⟨(forward_round_trip ⟨[2, 0, 1], [], [], [], []⟩ ⟨[1, 2, 0], [], [], [], []⟩ ⟨[2, 3, 2]⟩ ⟨[]⟩ ⟨[]⟩
      [10, 11, 12, 13, 14, 15, 16, 17, 18, 19, 20, 21] (List.replicate 12 0)
      (List.replicate 12 0) 12 12 (by decide) (by decide) (by decide) (by decide) (by decide)
      (by decide) (by decide) (by decide) (by decide)).1 (by decide),
    (forward_round_trip ⟨[0], [], [], [], []⟩ ⟨[0], [], [], [], []⟩ ⟨[2147483656]⟩ ⟨[]⟩ ⟨[]⟩
      (List.replicate 2147483656 (0 : Int)) (List.replicate 2147483656 0) (List.replicate 2147483656 0) 2147483656 2147483656
      (by decide) (by decide) (by decide) (by decide) (by rw [List.length_replicate]; decide) (by rw [List.length_replicate]; decide) (by rw [List.length_replicate]; decide)
      (by decide) (by decide)).2 (by decide)⟩

/-- C4, what the code does: for an input of rank `r` with positive extents and
the identity permutation `[0, 1, ..., r-1]`: if the input has fewer than
`2^31` elements, setup and forward give an output with the shape of the input
and a data buffer equal to the input's, slot for slot. If the input has
`2^31` elements or more, forward does not return an output: its `int` slot
counter overflows. -/
theorem forward_identity {α : Type} (self : Transpose) (inputs0 outputs0 : Variable)
    (x_data y_data : List α) (fuel : Nat)
    (hpos : Positive inputs0.shape)
    (hid : self.axes_ = (List.range inputs0.ndim).map (fun (j : Nat) => (j : Int)))
    (hx : x_data.length = inputs0.size) (hy : y_data.length = inputs0.size)
    (hfuel : inputs0.size ≤ fuel) :
    (inputs0.size < 2 ^ 31 →
      (setup_impl self inputs0 outputs0).error = none ∧
      (setup_impl self inputs0 outputs0).output.shape = inputs0.shape ∧
      forward_impl (setup_impl self inputs0 outputs0).self inputs0
        (setup_impl self inputs0 outputs0).output x_data y_data fuel = .ok x_data) ∧
    (2 ^ 31 ≤ inputs0.size →
      forward_impl (setup_impl self inputs0 outputs0).self inputs0
        (setup_impl self inputs0 outputs0).output x_data y_data fuel = .error .int_overflow) := by
  refine ⟨fun hsize => ?_, fun hbig => ?_⟩
  · simp only [Variable.ndim, Variable.size] at hid hx hy hfuel
    have h : ValidAxes self.axes_ inputs0.shape.length := by
      rw [hid]; exact identity_valid _
    obtain ⟨herr, hout, haxes⟩ := setup_impl_ok self inputs0 outputs0 h
    have hshape : permuted self.axes_ inputs0.shape = inputs0.shape := by
      rw [hid]; exact permuted_identity _
    have hstr : permuted self.axes_ (ndi.strides inputs0.shape) = ndi.strides inputs0.shape := by
      have := permuted_identity (ndi.strides inputs0.shape)
      rw [ndi.strides_length] at this
      rw [hid]; exact this
    obtain ⟨out, hrun, hlen, hval⟩ := forward_impl_spec (setup_impl self inputs0 outputs0).self
      inputs0 ⟨permuted self.axes_ inputs0.shape⟩ x_data y_data fuel (by rw [haxes]; exact h) hpos
      (by rw [haxes]) hx hy hfuel hsize
    rw [haxes] at hval
    simp only [hshape, Variable.strides, hstr] at hval
    rw [hout]
    refine ⟨herr, hshape, ?_⟩
    rw [hrun]
    congr 1
    apply buffer_ext hlen hx
    intro k hk
    rw [hval k hk, ndi.nd2flat_coordinate hpos k hk]
  · have h : ValidAxes self.axes_ inputs0.ndim := by rw [hid]; exact identity_valid _
    exact forward_after_setup_overflow self inputs0 outputs0 x_data y_data fuel hpos h hx
      (by rw [setup_output_size self inputs0 outputs0 h]; exact hy) hbig hfuel

/-- C4, on shape `[2,3]` with the identity permutation `[0,1]`; and on the
shape `[2147483656]` (`2^31 + 8` elements) with the identity permutation `[0]`,
where forward ends in the overflow of its counter. -/
theorem forward_identity_witness :
    ((setup_impl ⟨[0, 1], [], [], [], []⟩ ⟨[2, 3]⟩ ⟨[]⟩).error = none ∧
      (setup_impl ⟨[0, 1], [], [], [], []⟩ ⟨[2, 3]⟩ ⟨[]⟩).output.shape = [2, 3] ∧
      forward_impl (setup_impl ⟨[0, 1], [], [], [], []⟩ ⟨[2, 3]⟩ ⟨[]⟩).self ⟨[2, 3]⟩
        (setup_impl ⟨[0, 1], [], [], [], []⟩ ⟨[2, 3]⟩ ⟨[]⟩).output
        ([1, 2, 3, 4, 5, 6] : List Int) [0, 0, 0, 0, 0, 0] 6 = .ok [1, 2, 3, 4, 5, 6]) ∧
    forward_impl (setup_impl ⟨[0], [], [], [], []⟩ ⟨[2147483656]⟩ ⟨[]⟩).self ⟨[2147483656]⟩
      (setup_impl ⟨[0], [], [], [], []⟩ ⟨[2147483656]⟩ ⟨[]⟩).output
      (List.replicate 2147483656 (0 : Int)) (List.replicate 2147483656 0) 2147483656
      = .error .int_overflow :=
  ⟨(forward_identity ⟨[0, 1], [], [], [], []⟩ ⟨[2, 3]⟩ ⟨[]⟩ [1, 2, 3, 4, 5, 6]
      [0, 0, 0, 0, 0, 0] 6 (by decide) (by decide) (by decide) (by decide) (by decide)).1
      (by decide),
    (forward_identity ⟨[0], [], [], [], []⟩ ⟨[2147483656]⟩ ⟨[]⟩ (List.replicate 2147483656 (0 : Int)) (List.replicate 2147483656 0) 2147483656
      (by decide) (by decide) (by rw [List.length_replicate]; decide) (by rw [List.length_replicate]; decide) (by decide)).2 (by decide)⟩

/-- C5, what the code does: for a valid permutation `p`, an input shape with
positive extents, an upstream gradient `g` of the output shape and any prior
content of the input-gradient buffer: if the input has fewer than `2^31`
elements, backward with `accumulate = false` leaves a buffer `res` with
`res[x] = g[y]` for every input coordinate `x`, where `y[i] = x[p[i]]`; `res`
is the same for every prior content of the buffer, so a second call leaves it
as it is; and `res` is what setup and forward with the inverse permutation
produce on `g`. If the input has `2^31` elements or more, backward does not
return a gradient buffer: its `int` slot counter overflows. -/
theorem backward_overwrite_is_inverse_transpose {α : Type} [Add α] (self : Transpose)
    (inputs0 outputs0 : Variable) (x_grad y_grad : List α) (fuel : Nat)
    (hpos : Positive inputs0.shape) (h : ValidAxes self.axes_ inputs0.ndim)
    (hx : x_grad.length = inputs0.size)
    (hyg : y_grad.length = (setup_impl self inputs0 outputs0).output.size)
    (hfuel : inputs0.size ≤ fuel) :
    (inputs0.size < 2 ^ 31 →
      ∃ res, backward_impl (setup_impl self inputs0 outputs0).self inputs0
          (setup_impl self inputs0 outputs0).output true false x_grad y_grad fuel = .ok res ∧
        res.length = inputs0.size ∧
        (∀ x y, ndi.in_bounds x inputs0.shape → y.length = inputs0.ndim →
          (∀ i < inputs0.ndim, y.getD i 0 = x.getD (self.axes_.getD i 0).toNat 0) →
          ∃ v, res[ndi.nd2flat x inputs0.strides]? = some v ∧
            y_grad[ndi.nd2flat y (setup_impl self inputs0 outputs0).output.strides]? = some v) ∧
        (∀ x_grad' : List α, x_grad'.length = inputs0.size →
          backward_impl (setup_impl self inputs0 outputs0).self inputs0
            (setup_impl self inputs0 outputs0).output true false x_grad' y_grad fuel = .ok res) ∧
        backward_impl (setup_impl self inputs0 outputs0).self inputs0
          (setup_impl self inputs0 outputs0).output true false res y_grad fuel = .ok res ∧
        (∀ (fq : Transpose) (outputs1 : Variable) (z_data : List α) (fuel' : Nat),
          fq.axes_.length = inputs0.ndim →
          (∀ i < inputs0.ndim, fq.axes_.getD (self.axes_.getD i 0).toNat 0 = (i : Int)) →
          z_data.length = inputs0.size → inputs0.size ≤ fuel' →
          forward_impl (setup_impl fq (setup_impl self inputs0 outputs0).output outputs1).self
            (setup_impl self inputs0 outputs0).output
            (setup_impl fq (setup_impl self inputs0 outputs0).output outputs1).output
            y_grad z_data fuel' = .ok res)) ∧
    (2 ^ 31 ≤ inputs0.size →
      backward_impl (setup_impl self inputs0 outputs0).self inputs0
        (setup_impl self inputs0 outputs0).output true false x_grad y_grad fuel
        = .error .int_overflow) := by
  refine ⟨fun hsize => ?_, fun hbig => ?_⟩
  · simp only [Variable.ndim, Variable.size] at h hx hyg hfuel ⊢
    obtain ⟨-, hout, haxes⟩ := setup_impl_ok self inputs0 outputs0 h
    have hprod : (permuted self.axes_ inputs0.shape).prod = inputs0.shape.prod :=
      permuted_prod h _ rfl
    have hylen : (permuted self.axes_ inputs0.shape).length = inputs0.shape.length := by
      rw [permuted_length, h.1]
    have hypos : Positive (permuted self.axes_ inputs0.shape) := permuted_positive h rfl hpos
    rw [hout] at hyg ⊢
    simp only [hprod] at hyg
    have hax : ValidAxes (setup_impl self inputs0 outputs0).self.axes_ inputs0.shape.length := by
      rw [haxes]; exact h
    have hspec := fun xg (hxg : List.length xg = inputs0.shape.prod) =>
      backward_impl_spec (setup_impl self inputs0 outputs0).self inputs0
        ⟨permuted self.axes_ inputs0.shape⟩ false xg y_grad fuel hax hpos (by rw [haxes]) hxg hyg
        hfuel hsize
    obtain ⟨res, hrun, hlen, hval⟩ := hspec x_grad hx
    rw [haxes] at hval
    simp only [Bool.false_eq_true, if_false, Variable.strides] at hval
    have hindep : ∀ x_grad' : List α, x_grad'.length = inputs0.shape.prod →
        backward_impl (setup_impl self inputs0 outputs0).self inputs0
          ⟨permuted self.axes_ inputs0.shape⟩ true false x_grad' y_grad fuel = .ok res := by
      intro x_grad' hx'
      obtain ⟨res', hrun', hlen', hval'⟩ := hspec x_grad' hx'
      rw [haxes] at hval'
      simp only [Bool.false_eq_true, if_false, Variable.strides] at hval'
      rw [hrun']
      congr 1
      apply buffer_ext hlen' hlen
      intro k hk
      obtain ⟨_, v, _, hv, hr⟩ := hval k hk
      obtain ⟨_, v', _, hv', hr'⟩ := hval' k hk
      rw [hr, hr', ← hv, ← hv']
    refine ⟨res, hrun, hlen, ?_, hindep, hindep res hlen, ?_⟩
    · intro x y hxb hyl hrel
      have hy : y = permuted self.axes_ x := by
        apply ext_getD hyl (by rw [permuted_length, h.1])
        intro i hi
        rw [hrel i hi, permuted_getD h _ hi]
      have hk := ndi.nd2flat_lt hxb
      obtain ⟨_, v, _, hv, hr⟩ := hval _ hk
      rw [ndi.coordinate_nd2flat hxb] at hv
      exact ⟨v, hr, by rw [hy]; exact hv⟩
    · intro fq outputs1 z_data fuel' hq hinv hz hfuel'
      have hqv : ValidAxes fq.axes_ inputs0.shape.length := inverse_valid h hq hinv
      have hqv' : ValidAxes fq.axes_
          (Variable.mk (permuted self.axes_ inputs0.shape)).shape.length := by
        rw [hylen]; exact hqv
      obtain ⟨-, hout', haxes'⟩ :=
        setup_impl_ok fq ⟨permuted self.axes_ inputs0.shape⟩ outputs1 hqv'
      have hback : permuted fq.axes_ (permuted self.axes_ inputs0.shape) = inputs0.shape :=
        permuted_permuted hqv h (inverse_right h hinv) _ rfl
      rw [hout']
      obtain ⟨z_out, hrun', hlen', hval'⟩ := forward_impl_spec
        (setup_impl fq ⟨permuted self.axes_ inputs0.shape⟩ outputs1).self
        ⟨permuted self.axes_ inputs0.shape⟩
        ⟨permuted fq.axes_ (permuted self.axes_ inputs0.shape)⟩ y_grad z_data fuel'
        (by rw [haxes']; exact hqv') hypos (by rw [haxes'])
        (by rw [hyg]; exact hprod.symm) (by rw [hz]; exact hprod.symm)
        (by simp only [hprod]; exact hfuel') (by rw [hprod]; exact hsize)
      rw [haxes'] at hval'
      simp only [hprod, hback, Variable.strides] at hval' hlen'
      rw [hrun']
      congr 1
      apply buffer_ext hlen' hlen
      intro k hk
      obtain ⟨_, v, _, hv, hr⟩ := hval k hk
      rw [hval' k hk, hr, ← hv,
        inverse_offset h hqv hinv _ _ (ndi.coordinate_length _ _)
          (by rw [ndi.strides_length, hylen])]
  · exact backward_after_setup_overflow self inputs0 outputs0 false x_grad y_grad fuel hpos h hx hyg
      hbig hfuel

/-- C5, on shape `[2,3]` with permutation `[1,0]`: the gradient
`[1,4,2,5,3,6]` of shape `[3,2]` comes back as `[1,2,3,4,5,6]`, whatever the
buffer held; and on the shape `[2147483656]` (`2^31 + 8` elements) with
permutation `[0]`, where backward ends in the overflow of its counter. -/
theorem backward_overwrite_is_inverse_transpose_witness :
    backward_impl (setup_impl ⟨[1, 0], [], [], [], []⟩ ⟨[2, 3]⟩ ⟨[]⟩).self ⟨[2, 3]⟩
      (setup_impl ⟨[1, 0], [], [], [], []⟩ ⟨[2, 3]⟩ ⟨[]⟩).output true false
      ([7, 7, 7, 7, 7, 7] : List Int) [1, 4, 2, 5, 3, 6] 6 = .ok [1, 2, 3, 4, 5, 6] ∧
    (∃ res : List Int,
      backward_impl (setup_impl ⟨[1, 0], [], [], [], []⟩ ⟨[2, 3]⟩ ⟨[]⟩).self ⟨[2, 3]⟩
        (setup_impl ⟨[1, 0], [], [], [], []⟩ ⟨[2, 3]⟩ ⟨[]⟩).output true false
        [7, 7, 7, 7, 7, 7] [1, 4, 2, 5, 3, 6] 6 = .ok res ∧
      res.length = 6) ∧
    backward_impl (setup_impl ⟨[0], [], [], [], []⟩ ⟨[2147483656]⟩ ⟨[]⟩).self ⟨[2147483656]⟩
      (setup_impl ⟨[0], [], [], [], []⟩ ⟨[2147483656]⟩ ⟨[]⟩).output true false
      (List.replicate 2147483656 (0 : Int)) (List.replicate 2147483656 0) 2147483656
      = .error .int_overflow :=
  ⟨by rfl,
    ((backward_overwrite_is_inverse_transpose ⟨[1, 0], [], [], [], []⟩ ⟨[2, 3]⟩ ⟨[]⟩
      ([7, 7, 7, 7, 7, 7] : List Int) [1, 4, 2, 5, 3, 6] 6
      (by decide) (by decide) (by decide) (by decide) (by decide)).1 (by decide)).imp
      (fun _ hres => ⟨hres.1, hres.2.1⟩),
    (backward_overwrite_is_inverse_transpose ⟨[0], [], [], [], []⟩ ⟨[2147483656]⟩ ⟨[]⟩ (List.replicate 2147483656 (0 : Int)) (List.replicate 2147483656 0) 2147483656
      (by decide) (by decide) (by rw [List.length_replicate]; decide) (by rw [List.length_replicate]; decide) (by decide)).2 (by decide)⟩

/-- C6, what the code does: for a valid permutation `p`, an input shape with
positive extents and an upstream gradient `g` of the output shape: if the
input has fewer than `2^31` elements, forward with `p`, applied to what
backward with `accumulate = false` wrote, gives back `g` element for element.
If the input has `2^31` elements or more, backward does not return a gradient
buffer: its `int` slot counter overflows. -/
theorem forward_of_backward {α : Type} [Add α] (self : Transpose)
    (inputs0 outputs0 : Variable) (x_grad y_grad y_data : List α) (fuel fuel' : Nat)
    (hpos : Positive inputs0.shape) (h : ValidAxes self.axes_ inputs0.ndim)
    (hx : x_grad.length = inputs0.size)
    (hyg : y_grad.length = (setup_impl self inputs0 outputs0).output.size)
    (hyd : y_data.length = (setup_impl self inputs0 outputs0).output.size)
    (hfuel : inputs0.size ≤ fuel) (hfuel' : inputs0.size ≤ fuel') :
    (inputs0.size < 2 ^ 31 →
      ∃ res, backward_impl (setup_impl self inputs0 outputs0).self inputs0
          (setup_impl self inputs0 outputs0).output true false x_grad y_grad fuel = .ok res ∧
        forward_impl (setup_impl self inputs0 outputs0).self inputs0
          (setup_impl self inputs0 outputs0).output res y_data fuel' = .ok y_grad) ∧
    (2 ^ 31 ≤ inputs0.size →
      backward_impl (setup_impl self inputs0 outputs0).self inputs0
        (setup_impl self inputs0 outputs0).output true false x_grad y_grad fuel
        = .error .int_overflow) := by
  refine ⟨fun hsize => ?_, fun hbig => ?_⟩
  · simp only [Variable.ndim, Variable.size] at h hx hyg hyd hfuel hfuel' ⊢
    obtain ⟨-, hout, haxes⟩ := setup_impl_ok self inputs0 outputs0 h
    have hprod : (permuted self.axes_ inputs0.shape).prod = inputs0.shape.prod :=
      permuted_prod h _ rfl
    have hypos : Positive (permuted self.axes_ inputs0.shape) := permuted_positive h rfl hpos
    rw [hout] at hyg hyd ⊢
    simp only [hprod] at hyg hyd
    have hax : ValidAxes (setup_impl self inputs0 outputs0).self.axes_ inputs0.shape.length := by
      rw [haxes]; exact h
    obtain ⟨res, hrun, hlen, hval⟩ := backward_impl_spec (setup_impl self inputs0 outputs0).self
      inputs0 ⟨permuted self.axes_ inputs0.shape⟩ false x_grad y_grad fuel hax hpos
      (by rw [haxes]) hx hyg hfuel hsize
    obtain ⟨out, hrun', hlen', hval'⟩ := forward_impl_spec (setup_impl self inputs0 outputs0).self
      inputs0 ⟨permuted self.axes_ inputs0.shape⟩ res y_data fuel' hax hpos
      (by rw [haxes]) hlen hyd hfuel' hsize
    rw [haxes] at hval hval'
    simp only [Bool.false_eq_true, if_false, Variable.strides] at hval hval'
    refine ⟨res, hrun, ?_⟩
    rw [hrun']
    congr 1
    apply buffer_ext hlen' hyg
    intro k hk
    have hk' : k < (permuted self.axes_ inputs0.shape).prod := by rw [hprod]; exact hk
    have hb := ndi.coordinate_in_bounds hypos hk'
    have hbu := in_bounds_unpermuted h rfl hb
    have hm := y2x_offset_lt h hb
    obtain ⟨_, v, _, hv, hr⟩ := hval _ hm
    rw [hval' k hk, hr, ← hv, y2x_offset h hb, ndi.coordinate_nd2flat hbu,
      permuted_unpermuted h _ (by rw [ndi.coordinate_length, permuted_length, h.1]),
      ndi.nd2flat_coordinate hypos k hk']
  · exact backward_after_setup_overflow self inputs0 outputs0 false x_grad y_grad fuel hpos h hx hyg
      hbig hfuel

/-- C6, on shape `[2,3]` with permutation `[1,0]` and gradient `[1,4,2,5,3,6]`;
and on the shape `[2147483656]` (`2^31 + 8` elements) with permutation `[0]`,
where backward ends in the overflow of its counter. -/
theorem forward_of_backward_witness :
    (∃ res : List Int,
      backward_impl (setup_impl ⟨[1, 0], [], [], [], []⟩ ⟨[2, 3]⟩ ⟨[]⟩).self ⟨[2, 3]⟩
        (setup_impl ⟨[1, 0], [], [], [], []⟩ ⟨[2, 3]⟩ ⟨[]⟩).output true false
        [7, 7, 7, 7, 7, 7] [1, 4, 2, 5, 3, 6] 6 = .ok res ∧
      forward_impl (setup_impl ⟨[1, 0], [], [], [], []⟩ ⟨[2, 3]⟩ ⟨[]⟩).self ⟨[2, 3]⟩
        (setup_impl ⟨[1, 0], [], [], [], []⟩ ⟨[2, 3]⟩ ⟨[]⟩).output res [9, 9, 9, 9, 9, 9] 6
        = .ok [1, 4, 2, 5, 3, 6]) ∧
    backward_impl (setup_impl ⟨[0], [], [], [], []⟩ ⟨[2147483656]⟩ ⟨[]⟩).self ⟨[2147483656]⟩
      (setup_impl ⟨[0], [], [], [], []⟩ ⟨[2147483656]⟩ ⟨[]⟩).output true false
      (List.replicate 2147483656 (0 : Int)) (List.replicate 2147483656 0) 2147483656
      = .error .int_overflow :=
  ⟨(forward_of_backward ⟨[1, 0], [], [], [], []⟩ ⟨[2, 3]⟩ ⟨[]⟩ [7, 7, 7, 7, 7, 7]
      [1, 4, 2, 5, 3, 6] [9, 9, 9, 9, 9, 9] 6 6
      (by decide) (by decide) (by decide) (by decide) (by decide) (by decide) (by decide)).1
      (by decide),
    (forward_of_backward ⟨[0], [], [], [], []⟩ ⟨[2147483656]⟩ ⟨[]⟩ (List.replicate 2147483656 (0 : Int)) (List.replicate 2147483656 0) (List.replicate 2147483656 0) 2147483656 2147483656
      (by decide) (by decide) (by rw [List.length_replicate]; decide) (by rw [List.length_replicate]; decide) (by rw [List.length_replicate]; decide) (by decide) (by decide)).2 (by decide)⟩

/-- C7, what the code does: for a valid permutation `p`, an input shape with
positive extents, an upstream gradient `g` and a prior input-gradient buffer
`d`: if the input has fewer than `2^31` elements, backward with
`accumulate = true` leaves `d[k] + e[k]` at every slot `k`, where `e` is what
backward with `accumulate = false` writes; and from an all-zero buffer, two
calls with `accumulate = true` and the same `g` leave `2 * e[k]` at every
slot `k` (elements of any semiring: integers, rationals). If the input has
`2^31` elements or more, backward with `accumulate = true` does not return a
gradient buffer: its `int` slot counter overflows. -/
theorem backward_accumulates {α : Type} [NonAssocSemiring α] (self : Transpose)
    (inputs0 outputs0 : Variable) (d y_grad : List α) (fuel : Nat)
    (hpos : Positive inputs0.shape) (h : ValidAxes self.axes_ inputs0.ndim)
    (hd : d.length = inputs0.size)
    (hyg : y_grad.length = (setup_impl self inputs0 outputs0).output.size)
    (hfuel : inputs0.size ≤ fuel) :
    (inputs0.size < 2 ^ 31 →
      ∃ e res once twice,
        backward_impl (setup_impl self inputs0 outputs0).self inputs0
          (setup_impl self inputs0 outputs0).output true false d y_grad fuel = .ok e ∧
        backward_impl (setup_impl self inputs0 outputs0).self inputs0
          (setup_impl self inputs0 outputs0).output true true d y_grad fuel = .ok res ∧
        res.length = inputs0.size ∧
        (∀ k < inputs0.size, ∃ dk ek, d[k]? = some dk ∧ e[k]? = some ek ∧
          res[k]? = some (dk + ek)) ∧
        backward_impl (setup_impl self inputs0 outputs0).self inputs0
          (setup_impl self inputs0 outputs0).output true true
          (List.replicate inputs0.size 0) y_grad fuel = .ok once ∧
        backward_impl (setup_impl self inputs0 outputs0).self inputs0
          (setup_impl self inputs0 outputs0).output true true once y_grad fuel = .ok twice ∧
        twice.length = inputs0.size ∧
        (∀ k < inputs0.size, ∃ ek, e[k]? = some ek ∧ twice[k]? = some (2 * ek))) ∧
    (2 ^ 31 ≤ inputs0.size →
      backward_impl (setup_impl self inputs0 outputs0).self inputs0
        (setup_impl self inputs0 outputs0).output true true d y_grad fuel
        = .error .int_overflow) := by
  refine ⟨fun hsize => ?_, fun hbig => ?_⟩
  · simp only [Variable.ndim, Variable.size] at h hd hyg hfuel ⊢
    obtain ⟨-, hout, haxes⟩ := setup_impl_ok self inputs0 outputs0 h
    have hprod : (permuted self.axes_ inputs0.shape).prod = inputs0.shape.prod :=
      permuted_prod h _ rfl
    rw [hout] at hyg ⊢
    simp only [hprod] at hyg
    have hax : ValidAxes (setup_impl self inputs0 outputs0).self.axes_ inputs0.shape.length := by
      rw [haxes]; exact h
    have hspec := fun acc xg (hxg : List.length xg = inputs0.shape.prod) =>
      backward_impl_spec (setup_impl self inputs0 outputs0).self inputs0
        ⟨permuted self.axes_ inputs0.shape⟩ acc xg y_grad fuel hax hpos (by rw [haxes]) hxg hyg
        hfuel hsize
    obtain ⟨e, he, -, hev⟩ := hspec false d hd
    obtain ⟨res, hres, hrlen, hrv⟩ := hspec true d hd
    obtain ⟨once, honce, holen, hov⟩ := hspec true (List.replicate inputs0.shape.prod 0) (by simp)
    obtain ⟨twice, htwice, htlen, htv⟩ := hspec true once holen
    simp only [Bool.false_eq_true, if_false, if_true] at hev hrv hov htv
    refine ⟨e, res, once, twice, he, hres, hrlen, ?_, honce, htwice, htlen, ?_⟩
    · intro k hk
      obtain ⟨_, v, _, hv, hr⟩ := hev k hk
      obtain ⟨dk, v', hdk, hv', hr'⟩ := hrv k hk
      rw [hv] at hv'
      cases hv'
      exact ⟨dk, v, hdk, hr, hr'⟩
    · intro k hk
      obtain ⟨_, v, _, hv, hr⟩ := hev k hk
      obtain ⟨z, v1, hz, hv1, hr1⟩ := hov k hk
      obtain ⟨o, v2, ho, hv2, hr2⟩ := htv k hk
      rw [hv] at hv1 hv2
      cases hv1
      cases hv2
      have hz0 : z = 0 := by
        rw [List.getElem?_replicate] at hz
        simp only [hk, if_true] at hz
        exact (Option.some.inj hz).symm
      rw [hr1] at ho
      cases ho
      refine ⟨v, hr, ?_⟩
      rw [hr2, hz0, zero_add, two_mul]
  · exact backward_after_setup_overflow self inputs0 outputs0 true d y_grad fuel hpos h hd hyg
      hbig hfuel

/-- C7, on shape `[2,3]` with permutation `[1,0]`, gradient `[1,4,2,5,3,6]` and
prior buffer `[10,20,30,40,50,60]`; and on the shape `[2147483656]` (`2^31 + 8`
elements) with permutation `[0]`, where the accumulating backward ends in the
overflow of its counter. -/
theorem backward_accumulates_witness :
    backward_impl (setup_impl ⟨[1, 0], [], [], [], []⟩ ⟨[2, 3]⟩ ⟨[]⟩).self ⟨[2, 3]⟩
      (setup_impl ⟨[1, 0], [], [], [], []⟩ ⟨[2, 3]⟩ ⟨[]⟩).output true true
      ([10, 20, 30, 40, 50, 60] : List Int) [1, 4, 2, 5, 3, 6] 6
      = .ok [11, 22, 33, 44, 55, 66] ∧
    (∃ e res once twice : List Int,
      backward_impl (setup_impl ⟨[1, 0], [], [], [], []⟩ ⟨[2, 3]⟩ ⟨[]⟩).self ⟨[2, 3]⟩
        (setup_impl ⟨[1, 0], [], [], [], []⟩ ⟨[2, 3]⟩ ⟨[]⟩).output true false
        [10, 20, 30, 40, 50, 60] [1, 4, 2, 5, 3, 6] 6 = .ok e ∧
      backward_impl (setup_impl ⟨[1, 0], [], [], [], []⟩ ⟨[2, 3]⟩ ⟨[]⟩).self ⟨[2, 3]⟩
        (setup_impl ⟨[1, 0], [], [], [], []⟩ ⟨[2, 3]⟩ ⟨[]⟩).output true true
        [10, 20, 30, 40, 50, 60] [1, 4, 2, 5, 3, 6] 6 = .ok res ∧
      res.length = Variable.size ⟨[2, 3]⟩ ∧
      (∀ k < Variable.size ⟨[2, 3]⟩, ∃ dk ek, [10, 20, 30, 40, 50, 60][k]? = some dk ∧
        e[k]? = some ek ∧ res[k]? = some (dk + ek)) ∧
      backward_impl (setup_impl ⟨[1, 0], [], [], [], []⟩ ⟨[2, 3]⟩ ⟨[]⟩).self ⟨[2, 3]⟩
        (setup_impl ⟨[1, 0], [], [], [], []⟩ ⟨[2, 3]⟩ ⟨[]⟩).output true true
        (List.replicate (Variable.size ⟨[2, 3]⟩) 0) [1, 4, 2, 5, 3, 6] 6 = .ok once ∧
      backward_impl (setup_impl ⟨[1, 0], [], [], [], []⟩ ⟨[2, 3]⟩ ⟨[]⟩).self ⟨[2, 3]⟩
        (setup_impl ⟨[1, 0], [], [], [], []⟩ ⟨[2, 3]⟩ ⟨[]⟩).output true true
        once [1, 4, 2, 5, 3, 6] 6 = .ok twice ∧
      twice.length = Variable.size ⟨[2, 3]⟩ ∧
      (∀ k < Variable.size ⟨[2, 3]⟩, ∃ ek, e[k]? = some ek ∧ twice[k]? = some (2 * ek))) ∧
    backward_impl (setup_impl ⟨[0], [], [], [], []⟩ ⟨[2147483656]⟩ ⟨[]⟩).self ⟨[2147483656]⟩
      (setup_impl ⟨[0], [], [], [], []⟩ ⟨[2147483656]⟩ ⟨[]⟩).output true true
      (List.replicate 2147483656 (0 : Int)) (List.replicate 2147483656 0) 2147483656
      = .error .int_overflow :=
  ⟨by rfl,
    (backward_accumulates ⟨[1, 0], [], [], [], []⟩ ⟨[2, 3]⟩ ⟨[]⟩ [10, 20, 30, 40, 50, 60]
      [1, 4, 2, 5, 3, 6] 6 (by decide) (by decide) (by decide) (by decide) (by decide)).1
      (by decide),
    (backward_accumulates ⟨[0], [], [], [], []⟩ ⟨[2147483656]⟩ ⟨[]⟩ (List.replicate 2147483656 (0 : Int)) (List.replicate 2147483656 0) 2147483656
      (by decide) (by decide) (by rw [List.length_replicate]; decide) (by rw [List.length_replicate]; decide) (by decide)).2 (by decide)⟩

/-- C8: for a configured permutation of `int` entries and an input whose rank
is an `int`, setup succeeds if and only if the permutation has as many
entries as the input has axes, every entry is a valid axis (`0 <= entry < r`)
and the entries are pairwise distinct; for every other permutation setup
fails with an error and leaves the output as it was. -/
theorem setup_succeeds_iff_valid (self : Transpose) (inputs0 outputs0 : Variable)
    (hint : ∀ a ∈ self.axes_, -2 ^ 31 ≤ a ∧ a < 2 ^ 31) (hrank : inputs0.ndim < 2 ^ 31) :
    ((setup_impl self inputs0 outputs0).error = none ↔ ValidAxes self.axes_ inputs0.ndim) ∧
    (¬ ValidAxes self.axes_ inputs0.ndim →
      (∃ e, (setup_impl self inputs0 outputs0).error = some e) ∧
      (setup_impl self inputs0 outputs0).output = outputs0) := by
  have hiff : (setup_impl self inputs0 outputs0).error = none ↔
      ValidAxes self.axes_ inputs0.ndim := by
    rw [setup_impl_error_none_iff]
    constructor
    · rintro ⟨hlen, hall⟩
      exact (checks_iff_valid _ _ hlen hint hrank).mp hall
    · intro h
      exact ⟨h.1, (checks_iff_valid _ _ h.1 hint hrank).mpr h⟩
  refine ⟨hiff, fun hnv => ?_⟩
  have hne : (setup_impl self inputs0 outputs0).error ≠ none := fun h => hnv (hiff.mp h)
  exact ⟨Option.ne_none_iff_exists'.mp hne, (setup_impl_error_frame _ _ _ hne).1⟩

/-- C8, on a rank-2 input: `[1,0]` is accepted, `[0,-1]` is not. -/
theorem setup_succeeds_iff_valid_witness :
    ((setup_impl ⟨[1, 0], [], [], [], []⟩ ⟨[2, 3]⟩ ⟨[7]⟩).error = none ↔
      ValidAxes [1, 0] (Variable.ndim ⟨[2, 3]⟩)) ∧
    (∃ e, (setup_impl ⟨[0, -1], [], [], [], []⟩ ⟨[2, 3]⟩ ⟨[7]⟩).error = some e) ∧
    (setup_impl ⟨[0, -1], [], [], [], []⟩ ⟨[2, 3]⟩ ⟨[7]⟩).output = ⟨[7]⟩ :=
  ⟨(setup_succeeds_iff_valid ⟨[1, 0], [], [], [], []⟩ ⟨[2, 3]⟩ ⟨[7]⟩
      (by decide) (by decide)).1,
    (setup_succeeds_iff_valid ⟨[0, -1], [], [], [], []⟩ ⟨[2, 3]⟩ ⟨[7]⟩
      (by decide) (by decide)).2 (by decide)⟩

/-- C10 as stated fails: permutation `[1,1,5]` on a rank-3 input has as many
entries as the input has axes and the entry `5 >= 3`, and setup fails with
`DuplicateAxis` for positions 1 and 0, not with `InvalidAxis`. -/
theorem invalid_axis_not_regardless_of_duplicates :
    List.length ([1, 1, 5] : List Int) = Variable.ndim ⟨[2, 3, 4]⟩ ∧
    (∃ a ∈ ([1, 1, 5] : List Int), (Variable.ndim ⟨[2, 3, 4]⟩ : Int) ≤ a) ∧
    (setup_impl ⟨[1, 1, 5], [], [], [], []⟩ ⟨[2, 3, 4]⟩ ⟨[]⟩).error =
      some (.DuplicateAxis 1 1 0 1) ∧
    ¬ ∃ i a n, (setup_impl ⟨[1, 1, 5], [], [], [], []⟩ ⟨[2, 3, 4]⟩ ⟨[]⟩).error =
      some (.InvalidAxis i a n) := by
  have herr : (setup_impl ⟨[1, 1, 5], [], [], [], []⟩ ⟨[2, 3, 4]⟩ ⟨[]⟩).error =
      some (.DuplicateAxis 1 1 0 1) := by decide
  refine ⟨by decide, ⟨5, by decide, by decide⟩, herr, ?_⟩
  rintro ⟨i, a, n, h⟩
  rw [herr] at h
  cases h

/-- C10, amended: for a permutation with as many entries as the input has
axes, if some entry is `>= r` then setup fails; and it fails with
`InvalidAxis`, reported for position `i`, when `permutation[i] >= r`, every
entry before position `i` is a valid axis and the entries before position `i`
are pairwise distinct. -/
theorem invalid_axis_reported (self : Transpose) (inputs0 outputs0 : Variable)
    (hlen : self.axes_.length = inputs0.ndim) :
    ((∃ a ∈ self.axes_, (inputs0.ndim : Int) ≤ a) →
      ∃ e, (setup_impl self inputs0 outputs0).error = some e) ∧
    (∀ i < inputs0.ndim, (inputs0.ndim : Int) ≤ self.axes_.getD i 0 →
      (∀ j < i, 0 ≤ self.axes_.getD j 0 ∧ self.axes_.getD j 0 < inputs0.ndim) →
      (∀ j < i, ∀ j2 < j, self.axes_.getD j 0 ≠ self.axes_.getD j2 0) →
      (setup_impl self inputs0 outputs0).error =
        some (.InvalidAxis i (self.axes_.getD i 0) inputs0.ndim)) := by
  constructor
  · rintro ⟨a, ha, hge⟩
    apply Option.ne_none_iff_exists'.mp
    intro hnone
    obtain ⟨-, hall⟩ := (setup_impl_error_none_iff _ _ _).mp hnone
    obtain ⟨n, hn, rfl⟩ := List.mem_iff_getElem.mp ha
    have hb := (hall n (by rw [← hlen]; exact hn)).1
    rw [List.getD_eq_getElem _ _ hn, to_size_t_of_nonneg (by omega)] at hb
    omega
  · intro i hi hge hvalid hdistinct
    have hpre : ∀ j < i, to_size_t (self.axes_.getD j 0) < inputs0.shape.length ∧
        ∀ j2 < j, self.axes_.getD j 0 ≠ self.axes_.getD j2 0 := by
      intro j hj
      have hb := hvalid j hj
      refine ⟨?_, hdistinct j hj⟩
      rw [to_size_t_of_nonneg hb.1]
      simp only [Variable.ndim] at hb
      omega
    have hfail : ¬ to_size_t (self.axes_.getD i 0) < inputs0.shape.length := by
      simp only [Variable.ndim] at hge
      rw [to_size_t_of_nonneg (by omega)]
      omega
    obtain ⟨rest, sh, hreach⟩ := setup_loop_reaches self.axes_ inputs0.shape hi
      (List.replicate inputs0.ndim 0) hpre
    have hloop : setup_loop self.axes_ inputs0.shape (List.range inputs0.ndim)
        (List.replicate inputs0.ndim 0) =
        .error (.InvalidAxis i (self.axes_.getD i 0) inputs0.shape.length) := by
      rw [hreach]
      simp only [setup_loop, hfail, if_false]
    simp only [setup_impl, hlen, ne_eq, not_true_eq_false, if_false]
    rw [hloop]
    rfl

/-- C10 amended, on the example of the spec: permutation `[0,5]` on a rank-2
input fails with `InvalidAxis` for position 1. -/
theorem invalid_axis_reported_witness :
    (setup_impl ⟨[0, 5], [], [], [], []⟩ ⟨[2, 3]⟩ ⟨[]⟩).error = some (.InvalidAxis 1 5 2) :=
  (invalid_axis_reported ⟨[0, 5], [], [], [], []⟩ ⟨[2, 3]⟩ ⟨[]⟩ (by decide)).2 1
    (by decide) (by decide) (by decide) (by decide)

/-- C12, what the code does: for an input with an extent 0 and a valid
permutation, setup succeeds and gives the output the permuted shape, which
has no element, so both data buffers are empty; but whenever forward is
allowed at least one pass of its loop, the body runs before
`ndi::increment` is asked, and it reads outside the empty input buffer. -/
theorem forward_zero_size_out_of_range {α : Type} (self : Transpose)
    (inputs0 outputs0 : Variable) (x_data y_data : List α) (fuel : Nat)
    (hzero : 0 ∈ inputs0.shape) (h : ValidAxes self.axes_ inputs0.ndim)
    (hx : x_data.length = inputs0.size)
    (hy : y_data.length = (setup_impl self inputs0 outputs0).output.size) :
    (setup_impl self inputs0 outputs0).error = none ∧
    (setup_impl self inputs0 outputs0).output.shape = permuted self.axes_ inputs0.shape ∧
    (setup_impl self inputs0 outputs0).output.size = 0 ∧
    x_data = [] ∧ y_data = [] ∧
    forward_impl (setup_impl self inputs0 outputs0).self inputs0
      (setup_impl self inputs0 outputs0).output x_data y_data (fuel + 1)
      = .error .out_of_range := by
  simp only [Variable.ndim, Variable.size] at h hx hy
  obtain ⟨herr, hout, haxes⟩ := setup_impl_ok self inputs0 outputs0 h
  have hN : inputs0.shape.prod = 0 := List.prod_eq_zero hzero
  have hsize : (setup_impl self inputs0 outputs0).output.size = 0 := by
    rw [hout, Variable.size, permuted_prod h _ rfl, hN]
  rw [hout, permuted_prod h _ rfl, hN] at hy
  rw [hN] at hx
  have hx0 : x_data = [] := List.length_eq_zero.mp hx
  have hy0 : y_data = [] := List.length_eq_zero.mp hy
  refine ⟨herr, by rw [hout], hsize, hx0, hy0, ?_⟩
  rw [hx0]
  exact forward_impl_empty _ _ _ _ _ (by rw [haxes]; exact h)

/-- C12, at shape `[2,0]` with permutation `[1,0]`: the output shape is
`[0,2]`, and forward ends with an out-of-range access. -/
theorem forward_zero_size_out_of_range_witness :
    (setup_impl ⟨[1, 0], [], [], [], []⟩ ⟨[2, 0]⟩ ⟨[]⟩).output.shape = [0, 2] ∧
    forward_impl (setup_impl ⟨[1, 0], [], [], [], []⟩ ⟨[2, 0]⟩ ⟨[]⟩).self ⟨[2, 0]⟩
      (setup_impl ⟨[1, 0], [], [], [], []⟩ ⟨[2, 0]⟩ ⟨[]⟩).output
      ([] : List Int) [] 1 = .error .out_of_range :=
  ⟨by decide,
    (forward_zero_size_out_of_range ⟨[1, 0], [], [], [], []⟩ ⟨[2, 0]⟩ ⟨[]⟩ ([] : List Int) [] 0
      (by decide) (by decide) (by decide) (by decide)).2.2.2.2.2⟩

/-- C13: when `propagate_down[0]` is false, backward returns at once, for every
operator state, input, output, upstream gradient, accumulate flag and fuel:
the input-gradient buffer is what it was. The other buffers and the cached
metadata are arguments that backward only reads. -/
theorem backward_without_propagation {α : Type} [Add α] (self : Transpose)
    (inputs0 outputs0 : Variable) (accum : Bool) (x_grad y_grad : List α) (fuel : Nat) :
    backward_impl self inputs0 outputs0 false accum x_grad y_grad fuel = .ok x_grad := by
  simp [backward_impl]

/-- C14, what the code does: for a valid permutation and an input shape with
positive extents and `N` elements, the map from the output slot `k` to the
input offset `sum_i y_i * input.strides[p[i]]` of the `k`-th row-major output
coordinate `y` is a bijection of `{0, ..., N-1}`. If `N < 2^31`, forward's
output slot `k` holds the input element at that offset, unchanged, and the
output buffer is a rearrangement of the input buffer (the same elements with
the same multiplicities). If `N >= 2^31`, forward does not return an output:
its `int` slot counter overflows. -/
theorem forward_is_rearrangement {α : Type} (self : Transpose) (inputs0 outputs0 : Variable)
    (x_data y_data : List α) (fuel : Nat)
    (hpos : Positive inputs0.shape) (h : ValidAxes self.axes_ inputs0.ndim)
    (hx : x_data.length = inputs0.size)
    (hyd : y_data.length = (setup_impl self inputs0 outputs0).output.size)
    (hfuel : inputs0.size ≤ fuel) :
    (∀ k < inputs0.size, y2x_flat self.axes_ inputs0.shape k < inputs0.size) ∧
    (∀ k < inputs0.size, ∀ k' < inputs0.size,
      y2x_flat self.axes_ inputs0.shape k = y2x_flat self.axes_ inputs0.shape k' → k = k') ∧
    (∀ m < inputs0.size, ∃ k < inputs0.size, y2x_flat self.axes_ inputs0.shape k = m) ∧
    (inputs0.size < 2 ^ 31 →
      ∃ out, forward_impl (setup_impl self inputs0 outputs0).self inputs0
          (setup_impl self inputs0 outputs0).output x_data y_data fuel = .ok out ∧
        out.length = inputs0.size ∧
        (∀ k < inputs0.size, ∃ v, out[k]? = some v ∧
          x_data[y2x_flat self.axes_ inputs0.shape k]? = some v) ∧
        out.Perm x_data) ∧
    (2 ^ 31 ≤ inputs0.size →
      forward_impl (setup_impl self inputs0 outputs0).self inputs0
        (setup_impl self inputs0 outputs0).output x_data y_data fuel = .error .int_overflow) := by
  have hovf := fun hbig : 2 ^ 31 ≤ inputs0.size =>
    forward_after_setup_overflow self inputs0 outputs0 x_data y_data fuel hpos h hx hyd hbig hfuel
  simp only [Variable.ndim, Variable.size] at h hx hyd hfuel hovf ⊢
  obtain ⟨-, hout, haxes⟩ := setup_impl_ok self inputs0 outputs0 h
  rw [hout] at hyd hovf ⊢
  simp only [permuted_prod h _ rfl] at hyd
  refine ⟨fun k hk => y2x_flat_lt h hpos hk, ?_, ?_, fun hsize => ?_, hovf⟩
  · intro k hk k' hk' heq
    have e := x2y_y2x h hpos hk
    rw [heq, x2y_y2x h hpos hk'] at e
    exact e.symm
  · intro m hm
    exact ⟨x2y_flat self.axes_ inputs0.shape m, x2y_flat_lt h hpos hm, y2x_x2y h hpos hm⟩
  obtain ⟨out, hrun, hlen, hval⟩ := forward_impl_flat (setup_impl self inputs0 outputs0).self
    inputs0 x_data y_data fuel (by rw [haxes]; exact h) hpos hx hyd hfuel hsize
  rw [haxes] at hrun hval
  refine ⟨out, hrun, hlen, ?_, ?_⟩
  · intro k hk
    obtain ⟨v, hv⟩ : ∃ v, out[k]? = some v :=
      ⟨_, List.getElem?_eq_getElem (by rw [hlen]; exact hk)⟩
    exact ⟨v, hv, by rw [← hval k hk]; exact hv⟩
  · cases x_data with
    | nil =>
      have := hpos.prod_pos
      simp only [List.length_nil] at hx
      omega
    | cons d t =>
      have e1 : out = ((List.range inputs0.shape.prod).map (y2x_flat self.axes_ inputs0.shape)).map
          (fun m => (d :: t).getD m d) := by
        rw [List.map_map]
        apply eq_map_range _ hlen
        intro k hk
        rw [hval k hk]
        exact getElem?_eq_some_getD _ d (by rw [hx]; exact y2x_flat_lt h hpos hk)
      have e2 : (d :: t) = (List.range inputs0.shape.prod).map (fun m => (d :: t).getD m d) :=
        eq_map_range _ hx (fun k hk => getElem?_eq_some_getD _ d (by rw [hx]; exact hk))
      rw [e1]
      conv_rhs => rw [e2]
      exact (y2x_flat_perm h hpos).map _

/-- C14, on shape `[2,3]` with permutation `[1,0]`: the offsets read for the
output slots `0, ..., 5` are `0, 3, 1, 4, 2, 5`; and on the shape
`[2147483656]` (`2^31 + 8` elements) with permutation `[0]`, where forward ends in
the overflow of its counter. -/
theorem forward_is_rearrangement_witness :
    (List.range 6).map (y2x_flat [1, 0] [2, 3]) = [0, 3, 1, 4, 2, 5] ∧
    (∃ out : List Int,
      forward_impl (setup_impl ⟨[1, 0], [], [], [], []⟩ ⟨[2, 3]⟩ ⟨[]⟩).self ⟨[2, 3]⟩
        (setup_impl ⟨[1, 0], [], [], [], []⟩ ⟨[2, 3]⟩ ⟨[]⟩).output
        [1, 2, 3, 4, 5, 6] [0, 0, 0, 0, 0, 0] 6 = .ok out ∧
      out.Perm [1, 2, 3, 4, 5, 6]) ∧
    forward_impl (setup_impl ⟨[0], [], [], [], []⟩ ⟨[2147483656]⟩ ⟨[]⟩).self ⟨[2147483656]⟩
      (setup_impl ⟨[0], [], [], [], []⟩ ⟨[2147483656]⟩ ⟨[]⟩).output
      (List.replicate 2147483656 (0 : Int)) (List.replicate 2147483656 0) 2147483656
      = .error .int_overflow :=
  ⟨by decide,
    ((forward_is_rearrangement ⟨[1, 0], [], [], [], []⟩ ⟨[2, 3]⟩ ⟨[]⟩
      ([1, 2, 3, 4, 5, 6] : List Int) [0, 0, 0, 0, 0, 0] 6
      (by decide) (by decide) (by decide) (by decide) (by decide)).2.2.2.1 (by decide)).imp
      (fun _ hout => ⟨hout.1, hout.2.2.2⟩),
    (forward_is_rearrangement ⟨[0], [], [], [], []⟩ ⟨[2147483656]⟩ ⟨[]⟩ (List.replicate 2147483656 (0 : Int)) (List.replicate 2147483656 0) 2147483656
      (by decide) (by decide) (by rw [List.length_replicate]; decide) (by rw [List.length_replicate]; decide) (by decide)).2.2.2.2 (by decide)⟩

/-- C15, what the code does: for a valid permutation, an input shape with
positive extents, an input `x` and an upstream gradient `g` of the output
shape, with elements of a semiring (integers, rationals): if the input has
fewer than `2^31` elements, the sum over the output slots of
`forward(x)[k] * g[k]` equals the sum over the input slots of
`x[k] * backward(g, accumulate = false)[k]`. If the input has `2^31` elements
or more, neither forward nor backward returns a buffer: their `int` slot
counters overflow. -/
theorem forward_backward_adjoint {α : Type} [NonUnitalNonAssocSemiring α] (self : Transpose)
    (inputs0 outputs0 : Variable) (x_data y_data x_grad y_grad : List α) (fuel : Nat)
    (hpos : Positive inputs0.shape) (h : ValidAxes self.axes_ inputs0.ndim)
    (hx : x_data.length = inputs0.size)
    (hyd : y_data.length = (setup_impl self inputs0 outputs0).output.size)
    (hxg : x_grad.length = inputs0.size)
    (hyg : y_grad.length = (setup_impl self inputs0 outputs0).output.size)
    (hfuel : inputs0.size ≤ fuel) :
    (inputs0.size < 2 ^ 31 →
      ∃ out res,
        forward_impl (setup_impl self inputs0 outputs0).self inputs0
          (setup_impl self inputs0 outputs0).output x_data y_data fuel = .ok out ∧
        backward_impl (setup_impl self inputs0 outputs0).self inputs0
          (setup_impl self inputs0 outputs0).output true false x_grad y_grad fuel = .ok res ∧
        out.length = y_grad.length ∧ res.length = x_data.length ∧
        (List.zipWith (fun a b => a * b) out y_grad).sum =
          (List.zipWith (fun a b => a * b) x_data res).sum) ∧
    (2 ^ 31 ≤ inputs0.size →
      forward_impl (setup_impl self inputs0 outputs0).self inputs0
        (setup_impl self inputs0 outputs0).output x_data y_data fuel = .error .int_overflow ∧
      backward_impl (setup_impl self inputs0 outputs0).self inputs0
        (setup_impl self inputs0 outputs0).output true false x_grad y_grad fuel
        = .error .int_overflow) := by
  refine ⟨fun hsize => ?_, fun hbig => ?_⟩
  · simp only [Variable.ndim, Variable.size] at h hx hyd hxg hyg hfuel
    obtain ⟨-, hout, haxes⟩ := setup_impl_ok self inputs0 outputs0 h
    rw [hout] at hyd hyg ⊢
    simp only [permuted_prod h _ rfl] at hyd hyg
    have hax : ValidAxes (setup_impl self inputs0 outputs0).self.axes_ inputs0.shape.length := by
      rw [haxes]; exact h
    obtain ⟨out, hrun, hlen, hval⟩ := forward_impl_flat (setup_impl self inputs0 outputs0).self
      inputs0 x_data y_data fuel hax hpos hx hyd hfuel hsize
    obtain ⟨res, hrun', hlen', hval'⟩ := backward_impl_flat
      (setup_impl self inputs0 outputs0).self inputs0 false x_grad y_grad fuel hax hpos hxg hyg
      hfuel hsize
    rw [haxes] at hrun hval hrun' hval'
    simp only [Bool.false_eq_true, if_false] at hval'
    refine ⟨out, res, hrun, hrun', by rw [hlen, hyg], by rw [hlen', hx], ?_⟩
    have eo : out = (List.range inputs0.shape.prod).map
        (fun k => x_data.getD (y2x_flat self.axes_ inputs0.shape k) 0) := by
      apply eq_map_range _ hlen
      intro k hk
      rw [hval k hk]
      exact getElem?_eq_some_getD _ 0 (by rw [hx]; exact y2x_flat_lt h hpos hk)
    have eg : y_grad = (List.range inputs0.shape.prod).map (fun k => y_grad.getD k 0) :=
      eq_map_range _ hyg (fun k hk => getElem?_eq_some_getD _ 0 (by rw [hyg]; exact hk))
    have ex : x_data = (List.range inputs0.shape.prod).map (fun k => x_data.getD k 0) :=
      eq_map_range _ hx (fun k hk => getElem?_eq_some_getD _ 0 (by rw [hx]; exact hk))
    have er : res = (List.range inputs0.shape.prod).map
        (fun m => y_grad.getD (x2y_flat self.axes_ inputs0.shape m) 0) := by
      apply eq_map_range _ hlen'
      intro k hk
      obtain ⟨_, v, _, hv, hr⟩ := hval' k hk
      rw [hr, ← hv]
      exact getElem?_eq_some_getD _ 0 (by rw [hyg]; exact x2y_flat_lt h hpos hk)
    have el : List.zipWith (fun a b => a * b) out y_grad =
        (List.range inputs0.shape.prod).map (fun k =>
          x_data.getD (y2x_flat self.axes_ inputs0.shape k) 0 * y_grad.getD k 0) := by
      conv_lhs => rw [eo, eg]
      exact zipWith_mul_map_range _ _ _
    have err : List.zipWith (fun a b => a * b) x_data res =
        (List.range inputs0.shape.prod).map (fun m =>
          x_data.getD m 0 * y_grad.getD (x2y_flat self.axes_ inputs0.shape m) 0) := by
      conv_lhs => rw [er, ex]
      exact zipWith_mul_map_range _ _ _
    have hp := ((y2x_flat_perm h hpos).map (fun m =>
      x_data.getD m 0 * y_grad.getD (x2y_flat self.axes_ inputs0.shape m) 0)).sum_eq
    rw [el, err, ← hp, List.map_map]
    congr 1
    apply List.map_congr_left
    intro k hk
    simp only [Function.comp_apply, x2y_y2x h hpos (List.mem_range.mp hk)]
  · exact ⟨forward_after_setup_overflow self inputs0 outputs0 x_data y_data fuel hpos h hx hyd
        hbig hfuel,
      backward_after_setup_overflow self inputs0 outputs0 false x_grad y_grad fuel hpos h hxg hyg
        hbig hfuel⟩

/-- C15, on shape `[2,3]` with permutation `[1,0]`, input `[1,2,3,4,5,6]` and
gradient `[1,0,2,0,3,0]`: both sums are `1*1 + 2*2 + 3*3 = 14`; and on the
shape `[2147483656]` (`2^31 + 8` elements) with permutation `[0]`, where forward
and backward end in the overflow of their counters. -/
theorem forward_backward_adjoint_witness :
    (∃ out res : List Int,
      forward_impl (setup_impl ⟨[1, 0], [], [], [], []⟩ ⟨[2, 3]⟩ ⟨[]⟩).self ⟨[2, 3]⟩
        (setup_impl ⟨[1, 0], [], [], [], []⟩ ⟨[2, 3]⟩ ⟨[]⟩).output
        [1, 2, 3, 4, 5, 6] [0, 0, 0, 0, 0, 0] 6 = .ok out ∧
      backward_impl (setup_impl ⟨[1, 0], [], [], [], []⟩ ⟨[2, 3]⟩ ⟨[]⟩).self ⟨[2, 3]⟩
        (setup_impl ⟨[1, 0], [], [], [], []⟩ ⟨[2, 3]⟩ ⟨[]⟩).output true false
        [0, 0, 0, 0, 0, 0] [1, 0, 2, 0, 3, 0] 6 = .ok res ∧
      out.length = List.length ([1, 0, 2, 0, 3, 0] : List Int) ∧
      res.length = List.length ([1, 2, 3, 4, 5, 6] : List Int) ∧
      (List.zipWith (fun a b => a * b) out [1, 0, 2, 0, 3, 0]).sum =
        (List.zipWith (fun a b => a * b) [1, 2, 3, 4, 5, 6] res).sum) ∧
    (forward_impl (setup_impl ⟨[0], [], [], [], []⟩ ⟨[2147483656]⟩ ⟨[]⟩).self ⟨[2147483656]⟩
        (setup_impl ⟨[0], [], [], [], []⟩ ⟨[2147483656]⟩ ⟨[]⟩).output
        (List.replicate 2147483656 (0 : Int)) (List.replicate 2147483656 0) 2147483656
        = .error .int_overflow ∧
      backward_impl (setup_impl ⟨[0], [], [], [], []⟩ ⟨[2147483656]⟩ ⟨[]⟩).self ⟨[2147483656]⟩
        (setup_impl ⟨[0], [], [], [], []⟩ ⟨[2147483656]⟩ ⟨[]⟩).output true false
        (List.replicate 2147483656 (0 : Int)) (List.replicate 2147483656 0) 2147483656
        = .error .int_overflow) :=
  ⟨(forward_backward_adjoint ⟨[1, 0], [], [], [], []⟩ ⟨[2, 3]⟩ ⟨[]⟩ [1, 2, 3, 4, 5, 6]
      [0, 0, 0, 0, 0, 0] [0, 0, 0, 0, 0, 0] [1, 0, 2, 0, 3, 0] 6
      (by decide) (by decide) (by decide) (by decide) (by decide) (by decide) (by decide)).1
      (by decide),
    (forward_backward_adjoint ⟨[0], [], [], [], []⟩ ⟨[2147483656]⟩ ⟨[]⟩ (List.replicate 2147483656 (0 : Int)) (List.replicate 2147483656 0) (List.replicate 2147483656 0) (List.replicate 2147483656 0) 2147483656
      (by decide) (by decide) (by rw [List.length_replicate]; decide) (by rw [List.length_replicate]; decide) (by rw [List.length_replicate]; decide) (by rw [List.length_replicate]; decide) (by decide)).2 (by decide)⟩

/-- C16: after a successful setup on an input of rank `r` (entries of the
permutation `p` and the rank being `int` values), each of the four cached
sequences has length `r` and holds, for every axis `i < r`: `axes[i] = p[i]`,
`x_strides[i]` the `i`-th row-major stride of the input shape, `y_strides[i]`
the `i`-th row-major stride of the output shape, `y_shape[i] =
input.shape[p[i]]`. The stored values do not depend on the metadata or the
output left by an earlier setup, and a second setup with the same arguments
leaves the same state. -/
theorem setup_caches_metadata (self : Transpose) (inputs0 outputs0 : Variable)
    (herr : (setup_impl self inputs0 outputs0).error = none)
    (hint : ∀ a ∈ self.axes_, -2 ^ 31 ≤ a ∧ a < 2 ^ 31) (hrank : inputs0.ndim < 2 ^ 31) :
    (setup_impl self inputs0 outputs0).self.v_axes_.length = inputs0.ndim ∧
    (setup_impl self inputs0 outputs0).self.v_x_strides_.length = inputs0.ndim ∧
    (setup_impl self inputs0 outputs0).self.v_y_strides_.length = inputs0.ndim ∧
    (setup_impl self inputs0 outputs0).self.v_y_shape_.length = inputs0.ndim ∧
    (∀ i < inputs0.ndim,
      (setup_impl self inputs0 outputs0).self.v_axes_.getD i 0 = self.axes_.getD i 0 ∧
      (setup_impl self inputs0 outputs0).self.v_x_strides_.getD i 0 =
        ((ndi.strides inputs0.shape).getD i 0 : Nat) ∧
      (setup_impl self inputs0 outputs0).self.v_y_strides_.getD i 0 =
        ((ndi.strides (setup_impl self inputs0 outputs0).output.shape).getD i 0 : Nat) ∧
      (setup_impl self inputs0 outputs0).self.v_y_shape_.getD i 0 =
        (inputs0.shape.getD (self.axes_.getD i 0).toNat 0 : Nat)) ∧
    (∀ (self' : Transpose) (outputs0' : Variable), self'.axes_ = self.axes_ →
      (setup_impl self' inputs0 outputs0').self = (setup_impl self inputs0 outputs0).self) ∧
    setup_impl (setup_impl self inputs0 outputs0).self inputs0
      (setup_impl self inputs0 outputs0).output = setup_impl self inputs0 outputs0 := by
  obtain ⟨hlen, hall⟩ := (setup_impl_error_none_iff _ _ _).mp herr
  have h : ValidAxes self.axes_ inputs0.shape.length :=
    (checks_iff_valid _ _ hlen hint hrank).mp hall
  have hmeta := setup_impl_metadata self inputs0 outputs0 h
  obtain ⟨-, hout, -⟩ := setup_impl_ok self inputs0 outputs0 h
  have hylen : (permuted self.axes_ inputs0.shape).length = inputs0.shape.length := by
    rw [permuted_length, h.1]
  have hcast : ∀ (v : List Nat) (i : Nat),
      (v.map (fun (n : Nat) => (n : Int))).getD i 0 = ((v.getD i 0 : Nat) : Int) := by
    intro v i
    by_cases hi : i < v.length
    · simp [hi]
    · simp [List.getElem?_eq_none, Nat.le_of_not_lt hi]
  have hindep : ∀ (self' : Transpose) (outputs0' : Variable), self'.axes_ = self.axes_ →
      (setup_impl self' inputs0 outputs0').self = (setup_impl self inputs0 outputs0).self := by
    intro self' outputs0' heq
    rw [hmeta, setup_impl_metadata self' inputs0 outputs0' (by rw [heq]; exact h), heq]
  refine ⟨?_, ?_, ?_, ?_, ?_, hindep, ?_⟩
  · rw [hmeta]; exact hlen
  · rw [hmeta]; simp [ndi.strides_length, Variable.ndim]
  · rw [hmeta]; simp [ndi.strides_length, Variable.ndim, hylen]
  · rw [hmeta]; simp [Variable.ndim, hylen]
  · intro i hi
    rw [hmeta, hout]
    refine ⟨rfl, hcast _ _, hcast _ _, ?_⟩
    show ((permuted self.axes_ inputs0.shape).map (fun (n : Nat) => (n : Int))).getD i 0 = _
    rw [hcast, permuted_getD h _ hi]
  · have hself := hindep (setup_impl self inputs0 outputs0).self
      (setup_impl self inputs0 outputs0).output (by rw [hmeta])
    have hax : ValidAxes (setup_impl self inputs0 outputs0).self.axes_ inputs0.shape.length := by
      rw [hmeta]; exact h
    obtain ⟨herr2, hout2, -⟩ := setup_impl_ok (setup_impl self inputs0 outputs0).self inputs0
      (setup_impl self inputs0 outputs0).output hax
    have haxes : (setup_impl self inputs0 outputs0).self.axes_ = self.axes_ := by rw [hmeta]
    rw [haxes] at hout2
    rw [← hout] at hout2
    cases hA : setup_impl (setup_impl self inputs0 outputs0).self inputs0
      (setup_impl self inputs0 outputs0).output with
    | mk e1 s1 o1 =>
      cases hB : setup_impl self inputs0 outputs0 with
      | mk e2 s2 o2 =>
        rw [hA] at herr2 hout2 hself
        rw [hB] at herr hout2 hself
        simp only at herr2 hout2 hself herr
        rw [herr2, herr, hout2, hself]

/-- C16, on shape `[2,3,4]` with permutation `[2,0,1]`, whatever the arrays
held before. -/
theorem setup_caches_metadata_witness :
    (setup_impl ⟨[2, 0, 1], [9, 9, 9, 9], [1], [], [5, 5]⟩ ⟨[2, 3, 4]⟩ ⟨[7]⟩).self =
      ⟨[2, 0, 1], [2, 0, 1], [12, 4, 1], [6, 3, 1], [4, 2, 3]⟩ ∧
    setup_impl (setup_impl ⟨[2, 0, 1], [9, 9, 9, 9], [1], [], [5, 5]⟩ ⟨[2, 3, 4]⟩ ⟨[7]⟩).self
      ⟨[2, 3, 4]⟩ (setup_impl ⟨[2, 0, 1], [9, 9, 9, 9], [1], [], [5, 5]⟩ ⟨[2, 3, 4]⟩ ⟨[7]⟩).output
      = setup_impl ⟨[2, 0, 1], [9, 9, 9, 9], [1], [], [5, 5]⟩ ⟨[2, 3, 4]⟩ ⟨[7]⟩ :=
  ⟨by decide,
    (setup_caches_metadata ⟨[2, 0, 1], [9, 9, 9, 9], [1], [], [5, 5]⟩ ⟨[2, 3, 4]⟩ ⟨[7]⟩
      (by decide) (by decide) (by decide)).2.2.2.2.2.2⟩

/-- C19: when setup raises an error (length mismatch, axis out of range or
duplicate axis), the output variable, with its shape, and the operator, with
its four cached sequences, are exactly what they were before the call. -/
theorem setup_atomic_on_failure (self : Transpose) (inputs0 outputs0 : Variable)
    (herr : (setup_impl self inputs0 outputs0).error ≠ none) :
    (setup_impl self inputs0 outputs0).output = outputs0 ∧
    (setup_impl self inputs0 outputs0).self = self ∧
    (setup_impl self inputs0 outputs0).output.shape = outputs0.shape ∧
    (setup_impl self inputs0 outputs0).self.v_axes_ = self.v_axes_ ∧
    (setup_impl self inputs0 outputs0).self.v_x_strides_ = self.v_x_strides_ ∧
    (setup_impl self inputs0 outputs0).self.v_y_strides_ = self.v_y_strides_ ∧
    (setup_impl self inputs0 outputs0).self.v_y_shape_ = self.v_y_shape_ := by
  obtain ⟨h1, h2⟩ := setup_impl_error_frame self inputs0 outputs0 herr
  rw [h1, h2]
  exact ⟨rfl, rfl, rfl, rfl, rfl, rfl, rfl⟩

/-- C19, for each of the three errors, on an operator and an output that hold
the result of an earlier setup. -/
theorem setup_atomic_on_failure_witness :
    ((setup_impl ⟨[0, 2], [1, 0], [3, 1], [2, 1], [3, 2]⟩ ⟨[2, 3, 4]⟩ ⟨[3, 2]⟩).output = ⟨[3, 2]⟩ ∧
      (setup_impl ⟨[0, 2], [1, 0], [3, 1], [2, 1], [3, 2]⟩ ⟨[2, 3, 4]⟩ ⟨[3, 2]⟩).self =
        ⟨[0, 2], [1, 0], [3, 1], [2, 1], [3, 2]⟩) ∧
    ((setup_impl ⟨[0, 5], [1, 0], [3, 1], [2, 1], [3, 2]⟩ ⟨[2, 3]⟩ ⟨[3, 2]⟩).output = ⟨[3, 2]⟩ ∧
      (setup_impl ⟨[0, 5], [1, 0], [3, 1], [2, 1], [3, 2]⟩ ⟨[2, 3]⟩ ⟨[3, 2]⟩).self =
        ⟨[0, 5], [1, 0], [3, 1], [2, 1], [3, 2]⟩) ∧
    ((setup_impl ⟨[1, 1], [1, 0], [3, 1], [2, 1], [3, 2]⟩ ⟨[2, 3]⟩ ⟨[3, 2]⟩).output = ⟨[3, 2]⟩ ∧
      (setup_impl ⟨[1, 1], [1, 0], [3, 1], [2, 1], [3, 2]⟩ ⟨[2, 3]⟩ ⟨[3, 2]⟩).self =
        ⟨[1, 1], [1, 0], [3, 1], [2, 1], [3, 2]⟩) :=
  ⟨⟨(setup_atomic_on_failure ⟨[0, 2], [1, 0], [3, 1], [2, 1], [3, 2]⟩ ⟨[2, 3, 4]⟩ ⟨[3, 2]⟩
        (by decide)).1,
      (setup_atomic_on_failure ⟨[0, 2], [1, 0], [3, 1], [2, 1], [3, 2]⟩ ⟨[2, 3, 4]⟩ ⟨[3, 2]⟩
        (by decide)).2.1⟩,
    ⟨(setup_atomic_on_failure ⟨[0, 5], [1, 0], [3, 1], [2, 1], [3, 2]⟩ ⟨[2, 3]⟩ ⟨[3, 2]⟩
        (by decide)).1,
      (setup_atomic_on_failure ⟨[0, 5], [1, 0], [3, 1], [2, 1], [3, 2]⟩ ⟨[2, 3]⟩ ⟨[3, 2]⟩
        (by decide)).2.1⟩,
    ⟨(setup_atomic_on_failure ⟨[1, 1], [1, 0], [3, 1], [2, 1], [3, 2]⟩ ⟨[2, 3]⟩ ⟨[3, 2]⟩
        (by decide)).1,
      (setup_atomic_on_failure ⟨[1, 1], [1, 0], [3, 1], [2, 1], [3, 2]⟩ ⟨[2, 3]⟩ ⟨[3, 2]⟩
        (by decide)).2.1⟩⟩

/-- C20: for a permutation of `int` entries with as many entries as the input
has axes (the rank being an `int`), a negative entry at position `i` converts
to a `size_t` value `>= 2^31`, above the rank, and so fails the bound check:
setup fails, with `InvalidAxis` for position `i` unless an earlier position
fails first, in which case the error reports that earlier position. Either
way the run ends at or before the bound check of position `i`, so the entry
is never used as an index into the input shape, and the output is left as it
was. -/
theorem negative_axis_rejected (self : Transpose) (inputs0 outputs0 : Variable)
    (hlen : self.axes_.length = inputs0.ndim)
    (hint : ∀ a ∈ self.axes_, -2 ^ 31 ≤ a ∧ a < 2 ^ 31) (hrank : inputs0.ndim < 2 ^ 31)
    (i : Nat) (hi : i < inputs0.ndim) (hneg : self.axes_.getD i 0 < 0) :
    2 ^ 31 ≤ to_size_t (self.axes_.getD i 0) ∧
    inputs0.ndim < to_size_t (self.axes_.getD i 0) ∧
    ¬ passes_bound self.axes_ inputs0.ndim i ∧
    (∃ e, (setup_impl self inputs0 outputs0).error = some e ∧
      (e = .InvalidAxis i (self.axes_.getD i 0) inputs0.ndim ∨
        ∃ j < i, e.position = some j)) ∧
    ((∀ j < i, passes_bound self.axes_ inputs0.ndim j ∧ ¬ repeats self.axes_ j) →
      (setup_impl self inputs0 outputs0).error =
        some (.InvalidAxis i (self.axes_.getD i 0) inputs0.ndim)) ∧
    (setup_impl self inputs0 outputs0).output = outputs0 := by
  have hil : i < self.axes_.length := by rw [hlen]; exact hi
  have hrange : -2 ^ 31 ≤ self.axes_.getD i 0 := by
    rw [List.getD_eq_getElem _ _ hil]
    exact (hint _ (List.getElem_mem hil)).1
  have hconv : to_size_t (self.axes_.getD i 0) = (2 ^ 64 + self.axes_.getD i 0).toNat := by
    unfold to_size_t
    rw [if_neg (by omega)]
  have hbig : 2 ^ 31 ≤ to_size_t (self.axes_.getD i 0) := by
    rw [hconv]; omega
  have hfail : ¬ passes_bound self.axes_ inputs0.ndim i := by
    unfold passes_bound; omega
  obtain ⟨k, hfirst⟩ := exists_first_failure self.axes_ _ ⟨i, hi, Or.inl hfail⟩
  have hki : k ≤ i := by
    by_contra hc
    exact hfail (hfirst.2.1 i (by omega)).1
  have hcases := setup_impl_first_failure self inputs0 outputs0 hlen hfirst
  have hsome : ∃ e, (setup_impl self inputs0 outputs0).error = some e ∧
      (e = .InvalidAxis i (self.axes_.getD i 0) inputs0.ndim ∨
        ∃ j < i, e.position = some j) := by
    by_cases hk : k = i
    · subst hk
      exact ⟨_, hcases.1 hfail, Or.inl rfl⟩
    · have hlt : k < i := by omega
      by_cases hb : passes_bound self.axes_ inputs0.ndim k
      · obtain ⟨j, -, -, -, he⟩ := hcases.2 hb
        exact ⟨_, he, Or.inr ⟨k, hlt, rfl⟩⟩
      · exact ⟨_, hcases.1 hb, Or.inr ⟨k, hlt, rfl⟩⟩
  refine ⟨hbig, by omega, hfail, hsome, ?_, ?_⟩
  · intro hpre
    exact (setup_impl_first_failure self inputs0 outputs0 hlen
      ⟨hi, hpre, Or.inl hfail⟩).1 hfail
  · obtain ⟨e, he, -⟩ := hsome
    exact (setup_impl_error_frame self inputs0 outputs0 (by rw [he]; simp)).1

/-- C20, on a rank-2 input: `[0,-1]` fails with `InvalidAxis` for position 1,
and in `[1,1,-1]` on a rank-3 input the duplicate at position 1 comes first. -/
theorem negative_axis_rejected_witness :
    ((setup_impl ⟨[0, -1], [], [], [], []⟩ ⟨[2, 3]⟩ ⟨[]⟩).error =
      some (.InvalidAxis 1 (List.getD [0, -1] 1 0) (Variable.ndim ⟨[2, 3]⟩))) ∧
    (setup_impl ⟨[0, -1], [], [], [], []⟩ ⟨[2, 3]⟩ ⟨[]⟩).error = some (.InvalidAxis 1 (-1) 2) ∧
    to_size_t (-1) = 2 ^ 64 - 1 ∧
    (setup_impl ⟨[1, 1, -1], [], [], [], []⟩ ⟨[2, 3, 4]⟩ ⟨[]⟩).error =
      some (.DuplicateAxis 1 1 0 1) ∧
    ∃ e, (setup_impl ⟨[1, 1, -1], [], [], [], []⟩ ⟨[2, 3, 4]⟩ ⟨[]⟩).error = some e ∧
      (e = .InvalidAxis 2 (List.getD [1, 1, -1] 2 0) (Variable.ndim ⟨[2, 3, 4]⟩) ∨
        ∃ j < 2, e.position = some j) :=
  ⟨(negative_axis_rejected ⟨[0, -1], [], [], [], []⟩ ⟨[2, 3]⟩ ⟨[]⟩ (by decide) (by decide)
      (by decide) 1 (by decide) (by decide)).2.2.2.2.1 (by decide),
    by decide, by decide, by decide,
    (negative_axis_rejected ⟨[1, 1, -1], [], [], [], []⟩ ⟨[2, 3, 4]⟩ ⟨[]⟩ (by decide) (by decide)
      (by decide) 2 (by decide) (by decide)).2.2.2.1⟩

/-- C18, what the code does: after a successful setup (entries of the
permutation and the rank being `int` values) on an input with positive extents
and `N` elements: every `.at()` index is below the size of its vector, so both
stride loops return; the slots of `x2y_strides` that the backward loop assigns
are `0, ..., r-1`, each once, and slot `axes[i]` holds the output stride of
axis `i`; every flat offset read from the input data (forward) or from the
output gradient (backward) is below `N`. If `N < 2^31`, each copy loop makes
exactly `N` passes, one per value `0, ..., N-1` of the write counter: with
fuel below `N` it is cut short, with fuel `N` or more it returns a buffer of
`N` slots without an out-of-range access. If `N >= 2^31`, the write counter
does not take the values `0, ..., N-1`: it is an `int`, and with fuel for
`2^31` passes or more forward and backward end in its overflow. -/
theorem accesses_stay_in_range {α : Type} [Add α] (self : Transpose)
    (inputs0 outputs0 : Variable) (x_data y_data x_grad y_grad : List α)
    (hpos : Positive inputs0.shape)
    (herr : (setup_impl self inputs0 outputs0).error = none)
    (hint : ∀ a ∈ self.axes_, -2 ^ 31 ≤ a ∧ a < 2 ^ 31) (hrank : inputs0.ndim < 2 ^ 31)
    (hx : x_data.length = inputs0.size)
    (hyd : y_data.length = (setup_impl self inputs0 outputs0).output.size)
    (hxg : x_grad.length = inputs0.size)
    (hyg : y_grad.length = (setup_impl self inputs0 outputs0).output.size) :
    (∀ i < inputs0.ndim,
      i < (setup_impl self inputs0 outputs0).self.axes_.length ∧
      to_size_t ((setup_impl self inputs0 outputs0).self.axes_.getD i 0) <
        inputs0.strides.length ∧
      i < (setup_impl self inputs0 outputs0).output.strides.length ∧
      to_size_t ((setup_impl self inputs0 outputs0).self.axes_.getD i 0) < inputs0.ndim) ∧
    y2x_loop (setup_impl self inputs0 outputs0).self.axes_ inputs0.strides
      (List.range inputs0.ndim) (List.replicate inputs0.ndim 0) =
      .ok (permuted self.axes_ inputs0.strides) ∧
    (∃ x2y_strides,
      x2y_loop (setup_impl self inputs0 outputs0).self.axes_
        (setup_impl self inputs0 outputs0).output.strides
        (List.range inputs0.ndim) (List.replicate inputs0.ndim 0) = .ok x2y_strides ∧
      x2y_strides.length = inputs0.ndim ∧
      ((List.range inputs0.ndim).map (fun i => to_size_t (self.axes_.getD i 0))).Perm
        (List.range inputs0.ndim) ∧
      (∀ i < inputs0.ndim, x2y_strides.getD (to_size_t (self.axes_.getD i 0)) 0 =
        (setup_impl self inputs0 outputs0).output.strides.getD i 0) ∧
      (∀ k < inputs0.size,
        ndi.nd2flat (ndi.coordinate inputs0.shape k) x2y_strides < y_grad.length)) ∧
    (∀ k < inputs0.size,
      ndi.nd2flat (ndi.coordinate (setup_impl self inputs0 outputs0).output.shape k)
        (permuted self.axes_ inputs0.strides) < x_data.length) ∧
    (inputs0.size < 2 ^ 31 → ∀ fuel,
      (fuel < inputs0.size →
        forward_impl (setup_impl self inputs0 outputs0).self inputs0
          (setup_impl self inputs0 outputs0).output x_data y_data fuel
          = .error .out_of_fuel) ∧
      (inputs0.size ≤ fuel →
        ∃ out, forward_impl (setup_impl self inputs0 outputs0).self inputs0
            (setup_impl self inputs0 outputs0).output x_data y_data fuel = .ok out ∧
          out.length = inputs0.size)) ∧
    (inputs0.size < 2 ^ 31 → ∀ accum fuel,
      (fuel < inputs0.size →
        backward_impl (setup_impl self inputs0 outputs0).self inputs0
          (setup_impl self inputs0 outputs0).output true accum x_grad y_grad fuel
          = .error .out_of_fuel) ∧
      (inputs0.size ≤ fuel →
        ∃ res, backward_impl (setup_impl self inputs0 outputs0).self inputs0
            (setup_impl self inputs0 outputs0).output true accum x_grad y_grad fuel = .ok res ∧
          res.length = inputs0.size)) ∧
    (2 ^ 31 ≤ inputs0.size → ∀ fuel, 2 ^ 31 ≤ fuel →
      forward_impl (setup_impl self inputs0 outputs0).self inputs0
        (setup_impl self inputs0 outputs0).output x_data y_data fuel = .error .int_overflow ∧
      ∀ accum, backward_impl (setup_impl self inputs0 outputs0).self inputs0
        (setup_impl self inputs0 outputs0).output true accum x_grad y_grad fuel
        = .error .int_overflow) := by
  obtain ⟨hlen, hall⟩ := (setup_impl_error_none_iff _ _ _).mp herr
  have h : ValidAxes self.axes_ inputs0.shape.length :=
    (checks_iff_valid _ _ hlen hint hrank).mp hall
  obtain ⟨-, hout, haxes⟩ := setup_impl_ok self inputs0 outputs0 h
  simp only [Variable.ndim, Variable.size, Variable.strides] at hx hyd hxg hyg ⊢
  rw [hout] at hyd hyg ⊢
  simp only [permuted_prod h _ rfl] at hyd hyg
  have hax : ValidAxes (setup_impl self inputs0 outputs0).self.axes_ inputs0.shape.length := by
    rw [haxes]; exact h
  have hylen : (permuted self.axes_ inputs0.shape).length = inputs0.shape.length := by
    rw [permuted_length, h.1]
  have hypos : Positive (permuted self.axes_ inputs0.shape) := permuted_positive h rfl hpos
  have hsl : (ndi.strides (permuted self.axes_ inputs0.shape)).length = inputs0.shape.length := by
    rw [ndi.strides_length, hylen]
  refine ⟨?_, ?_, ?_, ?_, ?_, ?_, ?_⟩
  · intro i hi
    have hb := (h.loop_ok i (List.mem_range.mpr hi)).1
    rw [haxes]
    exact ⟨by rw [h.1]; exact hi, by rw [ndi.strides_length]; exact hb,
      by rw [hsl]; exact hi, hb⟩
  · rw [haxes]; exact y2x_loop_ok h
  · refine ⟨_, by rw [haxes]; exact x2y_loop_ok h, by rw [scatter_length]; simp,
      assigned_slots_perm h, ?_, ?_⟩
    · intro i hi
      have hb := h.getD_bounds hi
      have hp := x2y_permuted h (ndi.strides (permuted self.axes_ inputs0.shape)) hsl
      have hg := permuted_getD h
        (scatter (fun i => to_size_t (self.axes_.getD i 0))
          (fun i => (ndi.strides (permuted self.axes_ inputs0.shape)).getD i 0)
          (List.range inputs0.shape.length) (List.replicate inputs0.shape.length 0)) hi
      rw [hp] at hg
      rw [to_size_t_of_nonneg hb.1]
      exact hg.symm
    · intro k hk
      rw [x2y_offset h _ (ndi.coordinate_length _ _), hyg]
      exact x2y_flat_lt h hpos hk
  · intro k hk
    rw [hx]
    exact y2x_flat_lt h hpos hk
  · intro hsize fuel
    constructor
    · intro hf
      have := forward_impl_out_of_fuel (setup_impl self inputs0 outputs0).self inputs0
        x_data y_data fuel hax hpos hx hyd hf (by omega)
      rw [haxes] at this
      exact this
    · intro hf
      obtain ⟨out, hrun, hl, -⟩ := forward_impl_flat (setup_impl self inputs0 outputs0).self
        inputs0 x_data y_data fuel hax hpos hx hyd hf hsize
      rw [haxes] at hrun
      exact ⟨out, hrun, hl⟩
  · intro hsize accum fuel
    constructor
    · intro hf
      have := backward_impl_out_of_fuel (setup_impl self inputs0 outputs0).self inputs0
        accum x_grad y_grad fuel hax hpos hxg hyg hf (by omega)
      rw [haxes] at this
      exact this
    · intro hf
      obtain ⟨res, hrun, hl, -⟩ := backward_impl_flat (setup_impl self inputs0 outputs0).self
        inputs0 accum x_grad y_grad fuel hax hpos hxg hyg hf hsize
      rw [haxes] at hrun
      exact ⟨res, hrun, hl⟩
  · intro hbig fuel hf
    refine ⟨?_, fun accum => ?_⟩
    · have := forward_impl_overflow (setup_impl self inputs0 outputs0).self inputs0
        x_data y_data fuel hax hpos hx hyd hbig hf
      rw [haxes] at this
      exact this
    · have := backward_impl_overflow (setup_impl self inputs0 outputs0).self inputs0
        accum x_grad y_grad fuel hax hpos hxg hyg hbig hf
      rw [haxes] at this
      exact this

/-- C18, on shape `[2,3]` with permutation `[1,0]`: five passes are not
enough for forward, six are; and on the shape `[2147483656]` (`2^31 + 8`
elements) with permutation `[0]`, where forward and backward end in the
overflow of their counters. -/
theorem accesses_stay_in_range_witness :
    forward_impl (setup_impl ⟨[1, 0], [], [], [], []⟩ ⟨[2, 3]⟩ ⟨[]⟩).self ⟨[2, 3]⟩
      (setup_impl ⟨[1, 0], [], [], [], []⟩ ⟨[2, 3]⟩ ⟨[]⟩).output
      ([1, 2, 3, 4, 5, 6] : List Int) [0, 0, 0, 0, 0, 0] 5 = .error .out_of_fuel ∧
    (∃ out, forward_impl (setup_impl ⟨[1, 0], [], [], [], []⟩ ⟨[2, 3]⟩ ⟨[]⟩).self ⟨[2, 3]⟩
        (setup_impl ⟨[1, 0], [], [], [], []⟩ ⟨[2, 3]⟩ ⟨[]⟩).output
        ([1, 2, 3, 4, 5, 6] : List Int) [0, 0, 0, 0, 0, 0] 6 = .ok out ∧
      out.length = Variable.size ⟨[2, 3]⟩) ∧
    forward_impl (setup_impl ⟨[0], [], [], [], []⟩ ⟨[2147483656]⟩ ⟨[]⟩).self ⟨[2147483656]⟩
      (setup_impl ⟨[0], [], [], [], []⟩ ⟨[2147483656]⟩ ⟨[]⟩).output
      (List.replicate 2147483656 (0 : Int)) (List.replicate 2147483656 0) 2147483656
      = .error .int_overflow :=
  ⟨((accesses_stay_in_range ⟨[1, 0], [], [], [], []⟩ ⟨[2, 3]⟩ ⟨[]⟩
      ([1, 2, 3, 4, 5, 6] : List Int) [0, 0, 0, 0, 0, 0] [0, 0, 0, 0, 0, 0] [1, 4, 2, 5, 3, 6]
      (by decide) (by decide) (by decide) (by decide) (by decide) (by decide) (by decide)
      (by decide)).2.2.2.2.1 (by decide) 5).1 (by decide),
    ((accesses_stay_in_range ⟨[1, 0], [], [], [], []⟩ ⟨[2, 3]⟩ ⟨[]⟩
      ([1, 2, 3, 4, 5, 6] : List Int) [0, 0, 0, 0, 0, 0] [0, 0, 0, 0, 0, 0] [1, 4, 2, 5, 3, 6]
      (by decide) (by decide) (by decide) (by decide) (by decide) (by decide) (by decide)
      (by decide)).2.2.2.2.1 (by decide) 6).2 (by decide),
    ((accesses_stay_in_range ⟨[0], [], [], [], []⟩ ⟨[2147483656]⟩ ⟨[]⟩ (List.replicate 2147483656 (0 : Int)) (List.replicate 2147483656 0) (List.replicate 2147483656 0) (List.replicate 2147483656 0)
      (by decide) (by decide) (by decide) (by decide) (by rw [List.length_replicate]; decide) (by rw [List.length_replicate]; decide) (by rw [List.length_replicate]; decide) (by rw [List.length_replicate]; decide)).2.2.2.2.2.2
      (by decide) 2147483656 (by decide)).1⟩

end nbla
